import Mathlib

/-!
# mico: runtime values, containers and the macro pass

A shallow embedding of `include/mico/objects.h`,
`include/mico/macro/processor.h`, `include/mico/eval/operations/tables.h`
and `include/mico/eval/operations/module.h`.

Part 1 embeds the runtime values as finite trees.  A tree is the value an
object graph has at one moment: every `std::shared_ptr` is followed and the
identity of the pointed-to object is forgotten.  `str`, `hash`, `equal`,
`at` and the result of `clone` only read the graph, so they are functions
of the tree.  Object graphs that run into themselves (`a[0] = a`) have no
tree; the functions of part 1 do not return on them in the source.

`Float` values are left out: their display and comparison are IEEE
arithmetic.  `derived<type::BUILTIN>` is abstract in `objects.h` (it has no
`clone`), and no concrete builtin is part of these sources, so the value
type has no builtin variant.
-/

namespace Mico

/-! ## Part 1: values as trees -/

/-- The tags of `objects::type`, in the order of the enumeration. -/
inductive ObjType where
  | NULL_OBJ
  | BOOLEAN
  | INTEGER
  | FLOAT
  | STRING
  | TABLE
  | ARRAY
  | REFERENCE
  | RETURN
  | FUNCTION
  | CONT_CALL
  | BUILTIN
  | ERROR
deriving DecidableEq, Repr

/-- The number of a tag: `static_cast<std::uint64_t>( t )`. -/
def ObjType.code : ObjType → Nat
  | .NULL_OBJ => 0
  | .BOOLEAN => 1
  | .INTEGER => 2
  | .FLOAT => 3
  | .STRING => 4
  | .TABLE => 5
  | .ARRAY => 6
  | .REFERENCE => 7
  | .RETURN => 8
  | .FUNCTION => 9
  | .CONT_CALL => 10
  | .BUILTIN => 11
  | .ERROR => 12

/-- The display name of a tag: `objects::name::get`. -/
def name_get : ObjType → String
  | .NULL_OBJ => "OBJ_NULL"
  | .BOOLEAN => "OBJ_BOOLEAN"
  | .INTEGER => "OBJ_INTEGER"
  | .FLOAT => "OBJ_FLOAT"
  | .STRING => "OBJ_STRING"
  | .TABLE => "OBJ_TABLE"
  | .ARRAY => "OBJ_ARRAY"
  | .REFERENCE => "OBJ_REFERENCE"
  | .RETURN => "OBJ_RETURN"
  | .FUNCTION => "OBJ_FUNCTION"
  | .BUILTIN => "OBJ_BUILTIN"
  | .CONT_CALL => "OBJ_CONT_CALL"
  | .ERROR => "OBJ_ERROR"

/-- `tokens::position`: a line and a column. -/
structure Position where
  line : Nat
  pos : Nat
deriving DecidableEq, Repr

/-- The text `operator <<` writes for a position: `line:pos`. -/
def Position.str (p : Position) : String :=
  toString p.line ++ ":" ++ toString p.pos

/-- Modelled from the spec: `mico/environment.h` is not part of the sources.
An environment is a node of a parent-linked tree (spec 3.2); a value that
captures one holds a handle to it.  `child e` is an environment made by
`environment::make( e )`. -/
inductive Env where
  | root (id : Nat)
  | child (parent : Env)
deriving DecidableEq, Repr

/-- A runtime value read as a tree.  `array` lists what its Reference cells
hold, in index order; `table` lists its entries in the iteration order of
the `std::unordered_map`, each as the key and what the entry's Reference
cell holds.  A `function` keeps the handle of its captured environment, its
parameter names and an identifier of its body. -/
inductive Obj where
  | null
  | boolean (value : Bool)
  | integer (value : Int)
  | string (value : String)
  | table (value : List (Obj × Obj))
  | array (value : List Obj)
  | reference (value : Obj)
  | ret (value : Obj)
  | function (env : Env) (params : List String) (body : Nat)
  | cont_call (obj : Obj) (env : Env)
  | error (loc : Position) (value : String)
deriving Repr

/-- The tag a value reports: `get_type( )`. -/
def Obj.get_type : Obj → ObjType
  | .null => .NULL_OBJ
  | .boolean _ => .BOOLEAN
  | .integer _ => .INTEGER
  | .string _ => .STRING
  | .table _ => .TABLE
  | .array _ => .ARRAY
  | .reference _ => .REFERENCE
  | .ret _ => .RETURN
  | .function _ _ _ => .FUNCTION
  | .cont_call _ _ => .CONT_CALL
  | .error _ _ => .ERROR

mutual
/-- The display string of a value: the `str( )` of each class. -/
def Obj.str : Obj → String
  | .null => "null"
  | .boolean v => if v then "true" else "false"
  | .integer v => toString v
  | .string v => "\"" ++ v ++ "\""
  | .table es => "\x7b " ++ strEntries es ++ "\x7d"
  | .array cs => "[" ++ strCells true cs ++ "]"
  | .reference v => v.str
  | .ret v => "return " ++ v.str
  | .function _ ps _ => "fn(" ++ toString ps.length ++ ")"
  | .cont_call _ _ => "cc()"
  | .error loc v => "error: [" ++ loc.str ++ "] " ++ v
/-- The loop of the array `str`: a comma before every element but the
first. -/
def strCells : Bool → List Obj → String
  | _, [] => ""
  | first, c :: cs => (if first then "" else ", ") ++ c.str ++ strCells false cs
/-- The loop of the table `str`: `key:value ` for every entry. -/
def strEntries : List (Obj × Obj) → String
  | [] => ""
  | (k, v) :: es => k.str ++ ":" ++ v.str ++ " " ++ strEntries es
end

/-- The two hash functions of the C++ library the source calls:
`std::hash<std::string>` and `std::hash<std::uint64_t>`.  The language
leaves their values to the implementation. -/
structure StdHash where
  str : String → Nat
  u64 : Nat → Nat

/-- Arithmetic on `std::uint64_t` wraps at this bound. -/
def U64 : Nat := 2 ^ 64

/-- `base::hash64`. -/
def hash64 (H : StdHash) (x : Nat) : Nat := H.u64 x

mutual
/-- The hash of a value: `hash( )`.  `Null`, `Bool`, `String`, `Reference`,
`Array` and `Table` override it; every other class (also `Int`, whose own
`hash` is a static function of another signature) inherits `base::hash`,
the string hash of `str( )`. -/
def Obj.hash (H : StdHash) : Obj → Nat
  | .null => 0
  | .boolean v => if v then 1 else 0
  | .integer v => H.str (Obj.integer v).str
  | .string v => H.str v
  | .table es => hashEntries H ObjType.TABLE.code es
  | .array cs => hashCells H (hash64 H ObjType.ARRAY.code) cs
  | .reference v => v.hash H
  | .ret v => H.str (Obj.ret v).str
  | .function e ps b => H.str (Obj.function e ps b).str
  | .cont_call o e => H.str (Obj.cont_call o e).str
  | .error loc v => H.str (Obj.error loc v).str
/-- The loop of the array hash: `h = hash64( h + o->hash( ) )`. -/
def hashCells (H : StdHash) : Nat → List Obj → Nat
  | h, [] => h
  | h, c :: cs => hashCells H (hash64 H ((h + c.hash H) % U64)) cs
/-- The loop of the table hash:
`h = hash64( h + o.first->hash( ) + o.second->hash( ) )`. -/
def hashEntries (H : StdHash) : Nat → List (Obj × Obj) → Nat
  | h, [] => h
  | h, (k, v) :: es =>
    hashEntries H (hash64 H ((h + k.hash H + v.hash H) % U64)) es
end

mutual
/-- The comparison `a->equal( other )`, by the class of `a`.  `Null`,
`Bool`, `Int`, `String`, `Array` and `Table` first test the tag of `other`;
a `Reference` hands `other` to the value it holds; every other class
inherits `base::equal` and compares the display strings. -/
def Obj.equal : Obj → Obj → Bool
  | .null, other => other.get_type == ObjType.NULL_OBJ
  | .boolean v, other =>
    match other with
    | .boolean o => o == v
    | _ => false
  | .integer v, other =>
    match other with
    | .integer o => o == v
    | _ => false
  | .string v, other =>
    match other with
    | .string o => o == v
    | _ => false
  | .table es, other =>
    match other with
    | .table os => if os.length == es.length then equalEntries es os else false
    | _ => false
  | .array cs, other =>
    match other with
    | .array os => if os.length == cs.length then equalCells cs os else false
    | _ => false
  | .reference v, other => v.equal other
  | .ret v, other => (Obj.ret v).str == other.str
  | .function e ps b, other => (Obj.function e ps b).str == other.str
  | .cont_call o e, other => (Obj.cont_call o e).str == other.str
  | .error loc v, other => (Obj.error loc v).str == other.str
/-- The loop of the array `equal`, run on two vectors of one length:
`while( id-- )` visits the last index first, so the tails are compared
before the heads, and the first cell that differs ends the loop with
`false`.  The cell of `this` is compared with what the cell of `other`
holds. -/
def equalCells : List Obj → List Obj → Bool
  | c :: cs, o :: os => if equalCells cs os then (if !(c.equal o) then false else true) else false
  | _, _ => true
/-- The loop of the table `equal`: the two maps are walked side by side in
their iteration orders.  Where the two keys are equal the values are
compared and a difference ends the loop with `false`; where the keys differ
the loop goes on. -/
def equalEntries : List (Obj × Obj) → List (Obj × Obj) → Bool
  | (k0, v0) :: es, (k1, v1) :: os =>
    if k0.equal k1 then
      (if !(v0.equal v1) then false else equalEntries es os)
    else equalEntries es os
  | _, _ => true
end

mutual
/-- The value of `v->clone( )`, read as a tree.  `Null` and `Bool` give back
their shared instance.  A `Reference` and an `Array` clone what they hold.
The table `clone` ends with `res->value_ = value_`, which replaces the map
built by its loop with a copy of the map of `this`: the clone has the keys
and the cells of the original, in the same order.  `Return` and `ContCall`
copy the pointer they hold.  A `Function` keeps its parameters and body and
takes a new child of its environment. -/
def Obj.clone : Obj → Obj
  | .null => .null
  | .boolean v => .boolean v
  | .integer v => .integer v
  | .string v => .string v
  | .table es => .table es
  | .array cs => .array (cloneCells cs)
  | .reference v => .reference v.clone
  | .ret v => .ret v
  | .function e ps b => .function (Env.child e) ps b
  | .cont_call o e => .cont_call o e
  | .error loc v => .error loc v
/-- The loop of the array `clone`: `res->push( v->value( )->clone( ) )` for
every cell `v`, in index order. -/
def cloneCells : List Obj → List Obj
  | [] => []
  | c :: cs => c.clone :: cloneCells cs
end

/-- The 64-bit signed integers. -/
def IsInt64 (i : Int) : Prop := -(2 ^ 63 : Int) ≤ i ∧ i < (2 ^ 63 : Int)

instance (i : Int) : Decidable (IsInt64 i) := by
  unfold IsInt64
  infer_instance

/-- Array indexing, `derived<type::ARRAY>::at`, on the cell contents `cells`
of the array.  `static_cast<std::size_t>(id)` is `id` modulo `2^64`.  The
read `value_[size]` is written as a lookup: `none` stands for a read
outside the vector.  Inside the bounds the answer is the Reference cell
itself. -/
def array_at (cells : List Obj) (id : Int) : Option Obj :=
  let size := (id % (U64 : Int)).toNat
  if size < cells.length ∧ id ≥ 0 then
    (cells.get? size).map Obj.reference
  else
    some Obj.null

/-- `hash_helper`: the hash function of the map of a table. -/
def hash_helper (H : StdHash) (h : Obj) : Nat := h.hash H % U64

/-- `equal_helper`: the key equality of the map of a table. -/
def equal_helper (l r : Obj) : Bool := l.equal r

/-- The test `std::unordered_map` makes between the key `k` of a lookup and
a stored key: the two hash codes agree and `equal_helper` accepts the pair.
(The library keeps the hash code with every entry and compares it before it
calls the key equality.) -/
def keyMatch (H : StdHash) (k stored : Obj) : Bool :=
  hash_helper H k == hash_helper H stored && equal_helper k stored

/-- `std::unordered_map::find`: the first entry, in iteration order, whose
key matches `k`. -/
def mapFind (H : StdHash) (k : Obj) : List (Obj × Obj) → Option (Obj × Obj)
  | [] => none
  | (s, c) :: es => if keyMatch H k s then some (s, c) else mapFind H k es

/-- The entries after the cell of the first entry whose key matches `k` is
replaced by `c`; the entry keeps its key and its place. -/
def mapReplace (H : StdHash) (k c : Obj) : List (Obj × Obj) → List (Obj × Obj)
  | [] => []
  | (s, old) :: es =>
    if keyMatch H k s then (s, c) :: es else (s, old) :: mapReplace H k c es

/-- The assignment `m[k] = cell` on a `std::unordered_map`: the entry whose
key matches `k` gets the new cell; without one, a new entry `(k, cell)` is
added.  The library does not fix where a new entry appears in the iteration
order; here it is the front. -/
def mapAssign (H : StdHash) (k c : Obj) (es : List (Obj × Obj)) : List (Obj × Obj) :=
  if (mapFind H k es).isSome then mapReplace H k c es else (k, c) :: es

/-- Table lookup, `derived<type::TABLE>::at`, on the entries of the table:
the Reference cell of the entry found, or `Null`. -/
def table_at (H : StdHash) (es : List (Obj × Obj)) (id : Obj) : Obj :=
  match mapFind H id es with
  | none => Obj.null
  | some (_, c) => Obj.reference c

/-- Table insertion, `derived<type::TABLE>::insert`:
`value_[key->clone( )] = cont::make(val)`, then `true`.  The result is the
entries of the table afterwards, with the returned flag. -/
def table_insert (H : StdHash) (es : List (Obj × Obj)) (key val : Obj) :
    List (Obj × Obj) × Bool :=
  (mapAssign H key.clone val es, true)

/-- The hash functions of the GNU and LLVM C++ libraries on 64-bit targets
as far as the examples below need them: `std::hash<std::uint64_t>` is the
identity.  The string hash stands in for the library's; the examples that
use this instance hash no string. -/
def gnuHash : StdHash where
  str := fun s => s.length
  u64 := fun x => x % U64

/-- Whether a value is a Reference cell. -/
def Obj.isReference : Obj → Bool
  | .reference _ => true
  | _ => false

mutual
/-- Containers whose cells hold values directly: no element of an array
and no value of a table entry is itself a Reference cell, at every depth
reached through elements and entry values.  Table keys and the values
wrapped by `Return` and `ContCall` are not looked at. -/
def Obj.directCells : Obj → Bool
  | .table es => directEntries es
  | .array cs => directElems cs
  | _ => true
/-- The elements of an array hold values directly. -/
def directElems : List Obj → Bool
  | [] => true
  | c :: cs => !c.isReference && c.directCells && directElems cs
/-- The entry values of a table hold values directly. -/
def directEntries : List (Obj × Obj) → Bool
  | [] => true
  | (_, v) :: es => !v.isReference && v.directCells && directEntries es
end

mutual
/-- Values built from Null, Bool, Int and String by Reference cells and
Arrays only: no Table (and no Float), no Return, Function, ContCall or
Error, at any depth. -/
def Obj.plain : Obj → Bool
  | .null => true
  | .boolean _ => true
  | .integer _ => true
  | .string _ => true
  | .array cs => plainCells cs
  | .reference v => v.plain
  | _ => false
/-- Every element of the list is such a value. -/
def plainCells : List Obj → Bool
  | [] => true
  | c :: cs => c.plain && plainCells cs
end

/-- The number that a list of decimal digits writes after the number `acc`
written so far: each character counts as its code less the code of `0`. -/
def digitsValue (acc : Nat) (ds : List Char) : Nat :=
  ds.foldl (fun a c => a * 10 + (c.toNat - 48)) acc


/-! ## Part 2: objects in memory

Mutation through a shared pointer shows only where objects have an
identity.  Here every object lives at an address of a heap and holds the
addresses of the objects its `std::shared_ptr` members point to.  `clone`
allocates; `push` and the assignment to the value of a Reference cell
change one object in place.  The recursion of `clone` follows
pointers, so it takes a bound on the depth it may reach and answers `none`
when the bound is used up. -/

namespace Mem

/-- An object in memory: the members of each class of `objects.h`, with an
address (a natural number) for every pointer member.  The cells of an array
and of a table entry are addresses of Reference objects. -/
inductive Object where
  | null
  | boolean (value : Bool)
  | integer (value : Int)
  | string (value : String)
  | table (value : List (Nat × Nat))
  | array (value : List Nat)
  | reference (value : Nat)
  | ret (value : Nat)
  | function (env : Env) (params : List String) (body : Nat)
  | cont_call (obj : Nat) (env : Env)
  | error (loc : Position) (value : String)
deriving DecidableEq, Repr

/-- The heap: the object at address `p` is the `p`-th entry. -/
abbrev Heap := List Object

/-- The static instance behind `derived<type::NULL_OBJ>::make( )`. -/
def nullPtr : Nat := 0

/-- The static instance `true_this` of `derived<type::BOOLEAN>::make`. -/
def truePtr : Nat := 1

/-- The static instance `false_this` of `derived<type::BOOLEAN>::make`. -/
def falsePtr : Nat := 2

/-- The heap that holds the three static instances and nothing else. -/
def statics : Heap := [.null, .boolean true, .boolean false]

/-- `std::make_shared`: the new object takes the next free address. -/
def alloc (h : Heap) (o : Object) : Heap × Nat := (h ++ [o], h.length)

/-- `derived<type::ARRAY>::push`: `value_.emplace_back( cont::make(val) )`.
A new Reference cell holding `val` is allocated and its address appended to
the vector of the array at `a`. -/
def push (h : Heap) (a val : Nat) : Option Heap :=
  match h[a]? with
  | some (.array cs) =>
    let (h1, cell) := alloc h (.reference val)
    some (h1.set a (.array (cs ++ [cell])))
  | _ => none

/-- The assignment `cell->value( ) = val` through the non-const accessor of
`derived<type::REFERENCE>`, which is how an index assignment replaces what
a cell holds. -/
def set_value (h : Heap) (cell val : Nat) : Option Heap :=
  match h[cell]? with
  | some (.reference _) => some (h.set cell (.reference val))
  | _ => none

/-- One step of the loop of the array `clone`, for the cell at `v`:
`res->push( v->value( )->clone( ) )`, with `cl` the clone of a value. -/
def cloneCell (cl : Heap → Nat → Option (Heap × Nat)) (res : Nat) (h : Heap) (v : Nat) :
    Option Heap :=
  match h[v]? with
  | some (.reference val) =>
    match cl h val with
    | some (h1, c) => push h1 res c
    | none => none
  | _ => none

/-- One step of the loop of the table `clone`, for the entry `v`:
`kc = v.first->clone( )` and `vc = ref::make( v.second->clone( ) )`.  The
pair goes into the map of `res`, which the assignment after the loop
replaces as a whole; what stays of the step is that the two clones were
made. -/
def cloneEntry (cl : Heap → Nat → Option (Heap × Nat)) (h : Heap) (v : Nat × Nat) :
    Option Heap :=
  match cl h v.1 with
  | some (h1, _) =>
    match cl h1 v.2 with
    | some (h2, c) => some (alloc h2 (.reference c)).1
    | none => none
  | none => none

/-- A loop over a list that threads the heap and stops at the first step
that does not return. -/
def loopM (step : Heap → α → Option Heap) : Heap → List α → Option Heap
  | h, [] => some h
  | h, x :: xs =>
    match step h x with
    | some h1 => loopM step h1 xs
    | none => none

/-- The `clone( )` of each class, on the object at `p`; the first argument
bounds the depth of the recursion.  The answer is the heap afterwards and
the address of the clone.
* `Null`, `Bool`: the static instance.
* `Int`, `String`, `Error`: a new object with the same payload.
* `Reference`: `make_shared<this_type>( value_->clone( ) )`.
* `Array`: a new empty array, then one `push` of a clone per cell.
* `Table`: a new empty table; the loop clones every key and cell; then
  `res->value_ = value_` gives the new table the map of `this`, that is the
  same key objects and the same Reference cells.
* `Return`, `ContCall`: a new object holding the same pointer.
* `Function`: a new object over `environment::make( env( ) )`. -/
def clone : Nat → Heap → Nat → Option (Heap × Nat)
  | 0, _, _ => none
  | n + 1, h, p =>
    match h[p]? with
    | none => none
    | some .null => some (h, nullPtr)
    | some (.boolean v) => some (h, if v then truePtr else falsePtr)
    | some (.integer v) => some (alloc h (.integer v))
    | some (.string v) => some (alloc h (.string v))
    | some (.table es) =>
      let (h0, res) := alloc h (.table [])
      match loopM (cloneEntry (clone n)) h0 es with
      | some h1 => some (h1.set res (.table es), res)
      | none => none
    | some (.array cs) =>
      let (h0, res) := alloc h (.array [])
      match loopM (cloneCell (clone n) res) h0 cs with
      | some h1 => some (h1, res)
      | none => none
    | some (.reference v) =>
      match clone n h v with
      | some (h1, c) => some (alloc h1 (.reference c))
      | none => none
    | some (.ret v) => some (alloc h (.ret v))
    | some (.function e ps b) => some (alloc h (.function (Env.child e) ps b))
    | some (.cont_call o e) => some (alloc h (.cont_call o e))
    | some (.error loc v) => some (alloc h (.error loc v))

/-- What a loop over a list of addresses reads: every element must read. -/
def readAll (rd : Nat → Option Obj) : List Nat → Option (List Obj)
  | [] => some []
  | p :: ps =>
    match rd p, readAll rd ps with
    | some o, some os => some (o :: os)
    | _, _ => none

/-- What is held by the Reference cell at `c`, read with `rd`. -/
def readCell (h : Heap) (rd : Nat → Option Obj) (c : Nat) : Option Obj :=
  match h[c]? with
  | some (.reference v) => rd v
  | _ => none

/-- The entries of a table read with `rd`: each key, and what each cell
holds (the cell is read as the Reference object it is). -/
def readEntries (rd : Nat → Option Obj) : List (Nat × Nat) → Option (List (Obj × Obj))
  | [] => some []
  | (k, c) :: es =>
    match rd k, rd c, readEntries rd es with
    | some ko, some (.reference co), some os => some ((ko, co) :: os)
    | _, _, _ => none

/-- The value of the object at `p` as a tree of part 1, following pointers
to depth `n` at most; `none` when the graph under `p` is deeper, or leaves
the heap, or has a cell that is not a Reference. -/
def read : Nat → Heap → Nat → Option Obj
  | 0, _, _ => none
  | n + 1, h, p =>
    match h[p]? with
    | none => none
    | some .null => some .null
    | some (.boolean v) => some (.boolean v)
    | some (.integer v) => some (.integer v)
    | some (.string v) => some (.string v)
    | some (.table es) => (readEntries (read n h) es).map Obj.table
    | some (.array cs) => (readAll (readCell h (read n h)) cs).map Obj.array
    | some (.reference v) => (read n h v).map Obj.reference
    | some (.ret v) => (read n h v).map Obj.ret
    | some (.function e ps b) => some (.function e ps b)
    | some (.cont_call o e) => (read n h o).map fun t => Obj.cont_call t e
    | some (.error loc v) => some (.error loc v)

/-- The number of cells of the array at `a`: `size( )`. -/
def array_size (h : Heap) (a : Nat) : Option Nat :=
  match h[a]? with
  | some (.array cs) => some cs.length
  | _ => none

/-- `derived<type::ARRAY>::at` on the array at `a`: the address of the
`id`-th cell, or of the `Null` instance. -/
def array_at (h : Heap) (a : Nat) (id : Int) : Option Nat :=
  match h[a]? with
  | some (.array cs) =>
    let size := (id % (U64 : Int)).toNat
    if size < cs.length ∧ id ≥ 0 then cs[size]? else some nullPtr
  | _ => none

/-- The entry `find` answers on the map of a table: the first one whose
key, read as a tree, matches the key `k`. -/
def findEntry (H : StdHash) (rd : Nat → Option Obj) (k : Obj) :
    List (Nat × Nat) → Option (Option (Nat × Nat))
  | [] => some none
  | (s, c) :: es =>
    match rd s with
    | some so => if keyMatch H k so then some (some (s, c)) else findEntry H rd k es
    | none => none

/-- `derived<type::TABLE>::at` on the table at `t` with the key object at
`id`: the address of the cell found, or of the `Null` instance.  Keys are
hashed and compared as the trees they read as, to depth `n`. -/
def table_at (H : StdHash) (n : Nat) (h : Heap) (t id : Nat) : Option Nat :=
  match h[t]?, read n h id with
  | some (.table es), some k =>
    match findEntry H (read n h) k es with
    | some (some (_, c)) => some c
    | some none => some nullPtr
    | none => none
  | _, _ => none

/-- What an object owns through arrays: `Owns h p q` when `q` is reached
from `p` by going from an array to one of its cells and from a Reference
cell to what it holds, any number of times.  Table entries and the pointers
of `Return` and `ContCall` are not followed. -/
inductive Owns (h : Heap) : Nat → Nat → Prop where
  | here (p : Nat) : Owns h p p
  | cell (p q r : Nat) (cs : List Nat) :
    h[p]? = some (.array cs) → q ∈ cs → Owns h q r → Owns h p r
  | held (p v r : Nat) : h[p]? = some (.reference v) → Owns h v r → Owns h p r

/-- The objects that `push` and the assignment to a cell change in place:
arrays and Reference cells. -/
def Object.inPlace : Object → Bool
  | .array _ => true
  | .reference _ => true
  | _ => false

/-- The address `q` holds an array or a Reference cell. -/
def Mutable (h : Heap) (q : Nat) : Prop :=
  ∃ o, h[q]? = some o ∧ o.inPlace = true

/-- The addresses followed by `Owns` from an object. -/
def Object.succs : Object → List Nat
  | .array cs => cs
  | .reference v => [v]
  | _ => []

/-- No array or Reference cell at an address from `b` on leads to an array
or Reference cell below `b`. -/
def Sep (h : Heap) (b : Nat) : Prop :=
  ∀ x o, b ≤ x → h[x]? = some o → ∀ y ∈ o.succs, b ≤ y ∨ ¬ Mutable h y

/-- The three static instances are where `nullPtr`, `truePtr` and
`falsePtr` point. -/
def hasStatics (h : Heap) : Bool :=
  h[nullPtr]? == some .null && h[truePtr]? == some (.boolean true) &&
    h[falsePtr]? == some (.boolean false)

/-- What `clone` leaves behind when it answers the heap `h1` and the
address `c` on the heap `h`: the objects of `h` are where they were and as
they were; `c` is a new address unless it holds neither an array nor a
Reference cell; and no new array or Reference cell leads to an old one. -/
structure CloneInv (h h1 : Heap) (c : Nat) : Prop where
  pre : ∃ ext, h1 = h ++ ext
  res : h.length ≤ c ∨ ¬ Mutable h1 c
  sep : Sep h1 h.length

/-- Every object of `h` is in `h2`, at its address and unchanged. -/
def Agree (h h2 : Heap) : Prop :=
  ∀ (x : Nat) (o : Object), h[x]? = some o → h2[x]? = some o

/-- The table `{1: 2}` on the heap: the key `1` at address 3, the value `2`
at 4, its Reference cell at 5, the table at 6; a further `3` at 7. -/
def tableHeap : Heap :=
  statics ++ [.integer 1, .integer 2, .reference 4, .table [(3, 5)], .integer 3]

/-- The array `[[1]]` on the heap: `1` at address 3, its cell at 4, the
inner array at 5, its cell at 6, the outer array at 7. -/
def arrayHeap : Heap :=
  statics ++ [.integer 1, .reference 3, .array [4], .reference 5, .array [6]]

/-- The heap after `clone` of the array at 7 of `arrayHeap`: the clone at
8, the clone of the inner array at 9, the clone of `1` at 10, the cell of
the inner clone at 11 and the cell of the outer clone at 12. -/
def arrayHeapCloned : Heap :=
  arrayHeap ++ [.array [12], .array [11], .integer 1, .reference 10, .reference 9]

/-- The heap `arrayHeapCloned` after the cell at 11 is given the `Null`
instance to hold. -/
def arrayHeapAssigned : Heap :=
  arrayHeap ++ [.array [12], .array [11], .integer 1, .reference 0, .reference 9]

/-- `std::unordered_map::insert( v )` on the entries `es` of a map, for a
pair `v` of a key and a cell: when a key of the map matches the key of `v`
the map stays as it is (`insert` does not assign to an entry it finds);
otherwise `v` is a new entry, put at the front as in `mapAssign`.  Keys are
hashed and compared as the trees `rd` reads. -/
def mapInsert (H : StdHash) (rd : Nat → Option Obj) (es : List (Nat × Nat)) (v : Nat × Nat) :
    Option (List (Nat × Nat)) :=
  match rd v.1 with
  | some k =>
    match findEntry H rd k es with
    | some (some _) => some es
    | some none => some (v :: es)
    | none => none
  | none => none

/-- The loop of `eval_table`: `restabe->value( ).insert( v )` for every
entry `v` of the right table, in its iteration order. -/
def insertAll (H : StdHash) (rd : Nat → Option Obj) :
    List (Nat × Nat) → List (Nat × Nat) → Option (List (Nat × Nat))
  | es, [] => some es
  | es, v :: vs =>
    match mapInsert H rd es v with
    | some es1 => insertAll H rd es1 vs
    | none => none

/-- The tables `{1: 2}` and `{1: 3}` on the heap: the first as in
`tableHeap` (the table at 6, its cell at 5); for the second the key `1` at
address 7, the value `3` at 8, its Reference cell at 9 and the table at
10. -/
def mergeHeap : Heap :=
  statics ++ [.integer 1, .integer 2, .reference 4, .table [(3, 5)],
    .integer 1, .integer 3, .reference 8, .table [(7, 9)]]

end Mem


/-! ## Part 3: the pass that rewrites the AST before evaluation

`processor.h` is embedded over a model of the AST.  The recursion follows
nodes that the pass itself builds (an expansion can call for another), so
every function takes a bound on the depth of its recursion and answers
`none` when the bound is used up. -/

namespace Rewriter

/-- Modelled from the spec: `mico/ast.h`, `mico/expressions.h` and
`mico/statements.h` are not part of the sources.  A node is one of the
kinds the processor tells apart (identifier, Null literal, quote, the
literal `macro(params) { body }`, call, let, list with its role), or any
other kind, given by a number and its child nodes in order.  Positions are
left out: the pass does not read them. -/
inductive Node where
  | ident (value : String)
  | null
  | quote (value : Node)
  | mac (params : List Node) (body : Node)
  | call (func : Node) (param_list : List Node)
  | letStmt (ident : Node) (value : Node)
  | list (scope : Bool) (value : List Node)
  | other (kind : Nat) (children : List Node)
deriving Repr

/-- The tags of `ast::type` that the processor tests; `OTHER` stands for
every other tag. -/
inductive NodeType where
  | IDENT
  | NULL_LIT
  | QUOTE
  | MACRO
  | CALL
  | LET
  | LIST
  | OTHER
deriving DecidableEq, Repr

/-- The tag of a node: `get_type( )`. -/
def Node.get_type : Node → NodeType
  | .ident _ => .IDENT
  | .null => .NULL_LIT
  | .quote _ => .QUOTE
  | .mac _ _ => .MACRO
  | .call _ _ => .CALL
  | .letStmt _ _ => .LET
  | .list _ _ => .LIST
  | .other _ _ => .OTHER

/-- Modelled from the spec: `str( )` is the source-like display of a node
(spec 3.3).  The processor uses it as the name of an identifier; the
display of the other kinds is not modelled and is the empty string here. -/
def Node.str : Node → String
  | .ident v => v
  | _ => ""

/-- Modelled from the spec: `clone( )` is a deep copy (spec 3.3), that is
the same tree. -/
def Node.clone (n : Node) : Node := n

/-- The map `values_` of a scope, from names to nodes. -/
abbrev Values := List (String × Node)

/-- A `scope` with its chain of parents: the maps of the scope itself, of
its parent, of the parent of that, and so on. -/
abbrev Scope := List Values

/-- `scope::set` on the innermost scope: `values_[name] = value`. -/
def Scope.set (s : Scope) (name : String) (value : Node) : Scope :=
  match s with
  | [] => []
  | vs :: parents => ((name, value) :: vs.filter fun e => e.1 != name) :: parents

/-- `scope::get`: the binding of `name` in the nearest scope of the chain
that has one. -/
def Scope.get : Scope → String → Option Node
  | [], _ => none
  | vs :: parents, name =>
    match vs.lookup name with
    | some n => some n
    | none => Scope.get parents name

/-- What the visitor `macro_mutator` did to the node it was given: it
returned a replacement, or it returned `nullptr` and left the node as
given here. -/
inductive Visit where
  | replace (node : Node)
  | keep (node : Node)
deriving Repr

/-- A walk over the children of a node, in order, that threads the scope
and stops at the first child whose rewrite does not return. -/
def walk (am : Node → Scope → Option (Node × Scope)) :
    List Node → Scope → Option (List Node × Scope)
  | [], s => some ([], s)
  | c :: cs, s =>
    match am c s with
    | some (c1, s1) =>
      match walk am cs s1 with
      | some (cs1, s2) => some (c1 :: cs1, s2)
      | none => none
    | none => none

/-- Modelled from the spec: `mutate( visitor )` applies the visitor to each
child of the node (spec 3.3), here in the order in which the node lists
them, through `am`, which rewrites one child slot. -/
def mutate (am : Node → Scope → Option (Node × Scope)) : Node → Scope → Option (Node × Scope)
  | .ident v, s => some (.ident v, s)
  | .null, s => some (.null, s)
  | .quote v, s =>
    match am v s with
    | some (v1, s1) => some (.quote v1, s1)
    | none => none
  | .mac ps b, s =>
    match walk am ps s with
    | some (ps1, s1) =>
      match am b s1 with
      | some (b1, s2) => some (.mac ps1 b1, s2)
      | none => none
    | none => none
  | .call f ps, s =>
    match am f s with
    | some (f1, s1) =>
      match walk am ps s1 with
      | some (ps1, s2) => some (.call f1 ps1, s2)
      | none => none
    | none => none
  | .letStmt i v, s =>
    match am i s with
    | some (i1, s1) =>
      match am v s1 with
      | some (v1, s2) => some (.letStmt i1 v1, s2)
      | none => none
    | none => none
  | .list r xs, s =>
    match walk am xs s with
    | some (xs1, s1) => some (.list r xs1, s1)
    | none => none
  | .other k cs, s =>
    match walk am cs s with
    | some (cs1, s1) => some (.other k cs1, s1)
    | none => none

/-- The loop of `apply_macro` over the parameters of the macro: a parameter
that is an identifier is bound to the next argument wrapped in a quote
node, or to a Null literal when the arguments are used up; any other
parameter node is passed over. -/
def bindParams : List Node → List Node → Scope → Scope
  | [], _, s => s
  | p :: ps, args, s =>
    match p with
    | .ident name =>
      match args with
      | a :: rest => bindParams ps rest (s.set name (.quote a))
      | [] => bindParams ps [] (s.set name .null)
    | _ => bindParams ps args s

/-- The scope left when a child scope goes out of scope: its parents. -/
def Scope.leave : Scope → Scope
  | [] => []
  | _ :: parents => parents

/-- `processor::apply_macro` on a call node, with `am` the rewrite of one
child slot by the visitor over the current scope.  The callee is rewritten
first.  When it then is a macro literal, the parameters are bound in a new
child scope, a clone of the body has its children rewritten under that
scope, and the body is returned as the replacement of the call; the child
scope ends with the function.  Otherwise the answer is `nullptr`. -/
def apply_macro (am : Node → Scope → Option (Node × Scope)) :
    Node → Scope → Option (Visit × Scope)
  | .call f ps, s =>
    match am f s with
    | some (f1, s1) =>
      match f1 with
      | .mac mps body =>
        match mutate am body.clone (bindParams mps ps ([] :: s1)) with
        | some (body1, s2) => some (.replace body1, s2.leave)
        | none => none
      | _ => some (.keep (.call f1 ps), s1)
    | none => none
  | node, s => some (.keep node, s)

mutual
/-- Modelled from the spec: `ast::node::apply_mutator` on one child slot
(spec 3.3): when the visitor returns a replacement the child is
substituted; otherwise the visitor is applied, in the same way, to the
children of the child.  The visitor is `macro_mutator` over the scope
`s`. -/
def apply_mutator : Nat → Node → Scope → Option (Node × Scope)
  | 0, _, _ => none
  | n + 1, target, s =>
    match macro_mutator n target s with
    | some (.replace r, s1) => some (r, s1)
    | some (.keep t, s1) => mutate (apply_mutator n) t s1
    | none => none
/-- `processor::macro_mutator`.
* A let whose value is a macro literal binds the name in the scope and is
  replaced by a Null literal.
* A call is handed to `apply_macro`.
* A list with the scope role has its children rewritten under a new child
  scope.
* An identifier bound in the scope is replaced by a clone of its binding.
* Every other kind has its children rewritten under the same scope.
In every other case the answer is `nullptr`. -/
def macro_mutator : Nat → Node → Scope → Option (Visit × Scope)
  | 0, _, _ => none
  | n + 1, node, s =>
    match node with
    | .letStmt i v =>
      if v.get_type = NodeType.MACRO then
        some (.replace .null, s.set i.str v)
      else some (.keep (.letStmt i v), s)
    | .call f ps => apply_macro (apply_mutator n) (.call f ps) s
    | .list r xs =>
      if r then
        match mutate (apply_mutator n) (.list r xs) ([] :: s) with
        | some (l1, s1) => some (.keep l1, s1.leave)
        | none => none
      else some (.keep (.list r xs), s)
    | .ident v =>
      match s.get v with
      | some val => some (.replace val.clone, s)
      | none => some (.keep (.ident v), s)
    | other =>
      match mutate (apply_mutator n) other s with
      | some (n1, s1) => some (.keep n1, s1)
      | none => none
end

/-- `processor::process( node, errors )`: the children of `node` are
rewritten under a new, empty root scope.  No function of `processor.h`
writes to the error list. -/
def process (fuel : Nat) (node : Node) (errors : List String) : Option (Node × List String) :=
  match mutate (apply_mutator fuel) node [[]] with
  | some (n1, _) => some (n1, errors)
  | none => none

mutual
/-- No macro literal occurs in the node. -/
def Node.macroFree : Node → Bool
  | .ident _ => true
  | .null => true
  | .quote v => v.macroFree
  | .mac _ _ => false
  | .call f ps => f.macroFree && macroFreeList ps
  | .letStmt i v => i.macroFree && v.macroFree
  | .list _ xs => macroFreeList xs
  | .other _ cs => macroFreeList cs
/-- No macro literal occurs in the nodes of the list. -/
def macroFreeList : List Node → Bool
  | [] => true
  | c :: cs => c.macroFree && macroFreeList cs
end

mutual
/-- The height of a node: the greatest number of steps from it down to a
node without children. -/
def Node.height : Node → Nat
  | .ident _ => 0
  | .null => 0
  | .quote v => v.height + 1
  | .mac ps b => max (heightList ps) b.height + 1
  | .call f ps => max f.height (heightList ps) + 1
  | .letStmt i v => max i.height v.height + 1
  | .list _ xs => heightList xs + 1
  | .other _ cs => heightList cs + 1
/-- The greatest height among the nodes of a list. -/
def heightList : List Node → Nat
  | [] => 0
  | c :: cs => max c.height (heightList cs)
end

mutual
/-- Nothing is left to expand in the node on its own: no let binds a
macro literal and no call has a macro literal for its callee. -/
def Node.expanded : Node → Bool
  | .ident _ => true
  | .null => true
  | .quote v => v.expanded
  | .mac ps b => expandedList ps && b.expanded
  | .call f ps => f.get_type != NodeType.MACRO && f.expanded && expandedList ps
  | .letStmt i v => v.get_type != NodeType.MACRO && i.expanded && v.expanded
  | .list _ xs => expandedList xs
  | .other _ cs => expandedList cs
/-- Nothing is left to expand in the nodes of the list. -/
def expandedList : List Node → Bool
  | [] => true
  | c :: cs => c.expanded && expandedList cs
end

/-- The children of a node, in the order in which `mutate` visits them. -/
def Node.children : Node → List Node
  | .ident _ => []
  | .null => []
  | .quote v => [v]
  | .mac ps b => ps ++ [b]
  | .call f ps => f :: ps
  | .letStmt i v => [i, v]
  | .list _ xs => xs
  | .other _ cs => cs

/-- No name is bound anywhere in the chain of scopes. -/
def Scope.unbound (s : Scope) : Prop := ∀ name, s.get name = none

/-- The program `let m = macro(x) { x }; m(macro(y) { y }(1))`, with kind 0
for the list of top-level statements and kind 1 for the literal `1`. -/
def nestedCall : Node :=
  .other 0 [
    .letStmt (.ident "m") (.mac [.ident "x"] (.list true [.ident "x"])),
    .call (.ident "m") [.call (.mac [.ident "y"] (.list true [.ident "y"])) [.other 1 []]]]

/-- The program of scenario 6 of the spec,
`let m = macro(x) { quote(x + x) }; m(3 + 1)`, with kind 0 for the list of
top-level statements, kind 2 for `+` and kinds 3 and 1 for the literals. -/
def scenario6 : Node :=
  .other 0 [
    .letStmt (.ident "m")
      (.mac [.ident "x"] (.list true [.quote (.other 2 [.ident "x", .ident "x"])])),
    .call (.ident "m") [.other 2 [.other 3 [], .other 1 []]]]

/-- What the first run of `process` makes of `nestedCall`:
`null; { quote(macro(y) { y }(1)) }`. -/
def nestedCallOnce : Node :=
  .other 0 [
    .null,
    .list true [.quote (.call (.mac [.ident "y"] (.list true [.ident "y"])) [.other 1 []])]]

/-- What a second run makes of it: `null; { quote({ quote(1) }) }`. -/
def nestedCallTwice : Node :=
  .other 0 [.null, .list true [.quote (.list true [.quote (.other 1 [])])]]

/-- The program `let m = macro(x) { x }; let a = m`. -/
def aliasLet : Node :=
  .other 0 [
    .letStmt (.ident "m") (.mac [.ident "x"] (.list true [.ident "x"])),
    .letStmt (.ident "a") (.ident "m")]

/-- What the first run of `process` makes of `aliasLet`:
`null; let a = macro(x) { x }`. -/
def aliasLetOnce : Node :=
  .other 0 [.null, .letStmt (.ident "a") (.mac [.ident "x"] (.list true [.ident "x"]))]

/-- What a second run makes of it: `null; null`. -/
def aliasLetTwice : Node :=
  .other 0 [.null, .null]

/-- What `process` makes of `scenario6`:
`null; { quote(quote(3 + 1) + quote(3 + 1)) }`. -/
def scenario6Expanded : Node :=
  .other 0 [
    .null,
    .list true [.quote (.other 2
      [.quote (.other 2 [.other 3 [], .other 1 []]),
       .quote (.other 2 [.other 3 [], .other 1 []])])]]

/-- The scope `s2` has as many levels as `s` and the same parents: only
the innermost map can differ. -/
def Scope.sameParents (s s2 : Scope) : Prop :=
  s2.length = s.length ∧ s2.tail = s.tail

/-- The program `{ let m = macro() { 1 }; m() }; m()`: a block that defines
and calls a macro, followed by a call of the same name.  Kind 0 is the list
of top-level statements, kind 1 the literal `1`. -/
def blockThenCall : Node :=
  .other 0 [
    .list true [
      .letStmt (.ident "m") (.mac [] (.list true [.other 1 []])),
      .call (.ident "m") []],
    .call (.ident "m") []]

/-- What `process` makes of `blockThenCall`: `{ null; { 1 } }; m()`. -/
def blockThenCallExpanded : Node :=
  .other 0 [
    .list true [.null, .list true [.other 1 []]],
    .call (.ident "m") []]

/-- The macro literal `macro(x, y) { x; y }`. -/
def pairMacro : Node :=
  .mac [.ident "x", .ident "y"] (.list true [.ident "x", .ident "y"])

/-- The macro literal `macro() { 1 }`, with kind 1 for the literal `1`. -/
def macOne : Node := .mac [] (.list true [.other 1 []])

/-- The block `{ let a = m }`: a list with the scope role. -/
def aliasBlock : Node := .list true [.letStmt (.ident "a") (.ident "m")]

/-- The program `let m = macro() { 1 }; { let a = m }; a()`: the block
gives the macro bound to `m` a second name, and a call of that name follows
the block.  Kind 0 is the list of top-level statements. -/
def aliasInBlock : Node :=
  .other 0 [.letStmt (.ident "m") macOne, aliasBlock, .call (.ident "a") []]

/-- What `process` makes of `aliasInBlock`: `null; { null }; { 1 }`. -/
def aliasInBlockExpanded : Node :=
  .other 0 [.null, .list true [.null], .list true [.other 1 []]]

/-- The program `let m = macro(x) { -x }; m(x)`: a macro whose body negates
its parameter, called once with the identifier `x` for argument.  Kind 0 is
the list of top-level statements, kind 2 the prefix operator `-`. -/
def sameNameCall : Node :=
  .other 0 [
    .letStmt (.ident "m") (.mac [.ident "x"] (.list true [.other 2 [.ident "x"]])),
    .call (.ident "m") [.ident "x"]]

mutual
/-- No call occurs in the node. -/
def Node.callFree : Node → Bool
  | .ident _ => true
  | .null => true
  | .quote v => v.callFree
  | .mac ps b => callFreeList ps && b.callFree
  | .call _ _ => false
  | .letStmt i v => i.callFree && v.callFree
  | .list _ xs => callFreeList xs
  | .other _ cs => callFreeList cs
/-- No call occurs in the nodes of the list. -/
def callFreeList : List Node → Bool
  | [] => true
  | c :: cs => c.callFree && callFreeList cs
end

mutual
/-- No call occurs in the body of any macro literal of the node: nothing
is invoked from within a macro. -/
def Node.bodiesCallFree : Node → Bool
  | .ident _ => true
  | .null => true
  | .quote v => v.bodiesCallFree
  | .mac ps b => bodiesCallFreeList ps && b.callFree
  | .call f ps => f.bodiesCallFree && bodiesCallFreeList ps
  | .letStmt i v => i.bodiesCallFree && v.bodiesCallFree
  | .list _ xs => bodiesCallFreeList xs
  | .other _ cs => bodiesCallFreeList cs
/-- No call occurs in the body of any macro literal of the nodes of the
list. -/
def bodiesCallFreeList : List Node → Bool
  | [] => true
  | c :: cs => c.bodiesCallFree && bodiesCallFreeList cs
end

end Rewriter


/-! ## Part 4: operators on tables and modules

`eval/operations/tables.h` and `eval/operations/module.h` over the values
of part 1.  Both files are handed the evaluator as a callback; the
embedding takes the callbacks as parameters and records every call made
through them, in order. -/

namespace Eval

/-- The enumerators of `tokens::type` in `tokens.h`, and `BIT_OR`, which
`tables.h` tests and the `tokens.h` of these sources does not list. -/
inductive Token where
  | NONE
  | END_OF_LINE
  | END_OF_FILE
  | INT_BIN
  | INT_TER
  | INT_OCT
  | INT_DEC
  | INT_HEX
  | FLOAT
  | IDENT
  | STRING
  | FIRST_VISIBLE
  | SEMICOLON
  | COLON
  | DOT
  | COMMA
  | ASSIGN
  | MINUS
  | PLUS
  | BANG
  | ASTERISK
  | SLASH
  | EQ
  | NOT_EQ
  | LT
  | GT
  | LPAREN
  | RPAREN
  | LBRACE
  | RBRACE
  | LBRACKET
  | RBRACKET
  | LET
  | RETURN
  | FUNCTION
  | BOOL_TRUE
  | BOOL_FALSE
  | IF
  | ELIF
  | ELSE
  | LAST_VISIBLE
  | BIT_OR
deriving DecidableEq, Repr

/-- The text `operator <<` writes for a token: `tokens::name::get`.
Modelled from the spec: the name of `BIT_OR` is the operator `|` of the
table of infix operators (spec 4.1). -/
def Token.name : Token → String
  | .END_OF_FILE => "EOF"
  | .END_OF_LINE => "EOL"
  | .IDENT => "IDENT"
  | .INT_BIN => "INT_2"
  | .INT_TER => "INT_3"
  | .INT_OCT => "INT_8"
  | .INT_DEC => "INT_10"
  | .INT_HEX => "INT_16"
  | .FLOAT => "FLOAT"
  | .STRING => "STRING"
  | .SEMICOLON => ";"
  | .COLON => ":"
  | .DOT => "."
  | .COMMA => ","
  | .ASSIGN => "="
  | .MINUS => "-"
  | .PLUS => "+"
  | .BANG => "!"
  | .ASTERISK => "*"
  | .SLASH => "/"
  | .EQ => "=="
  | .NOT_EQ => "!="
  | .LT => "<"
  | .GT => ">"
  | .LPAREN => "("
  | .RPAREN => ")"
  | .LBRACE => "\x7b"
  | .RBRACE => "\x7d"
  | .LBRACKET => "["
  | .RBRACKET => "]"
  | .LET => "let"
  | .RETURN => "return"
  | .FUNCTION => "fn"
  | .BOOL_TRUE => "true"
  | .BOOL_FALSE => "false"
  | .IF => "if"
  | .ELIF => "elif"
  | .ELSE => "else"
  | .BIT_OR => "|"
  | .NONE => ""
  | .FIRST_VISIBLE => ""
  | .LAST_VISIBLE => ""

/-- Modelled from the spec: the AST classes are not part of the sources.
An expression node as the operations read it (spec 3.3): its tag, its
position and its display; an identifier has its name for display, and a
call has its callee. -/
inductive Expr where
  | ident (pos : Position) (value : String)
  | call (pos : Position) (str : String) (func : Expr)
  | other (pos : Position) (str : String)
deriving DecidableEq, Repr

/-- The tag of an expression node: `get_type( )`. -/
def Expr.get_type : Expr → Rewriter.NodeType
  | .ident _ _ => .IDENT
  | .call _ _ _ => .CALL
  | .other _ _ => .OTHER

/-- The position of an expression node: `pos( )`. -/
def Expr.pos : Expr → Position
  | .ident p _ => p
  | .call p _ _ => p
  | .other p _ => p

/-- The display of an expression node: `str( )`. -/
def Expr.str : Expr → String
  | .ident _ v => v
  | .call _ s _ => s
  | .other _ s => s

/-- The callee of a call node: `func( )`. -/
def Expr.func : Expr → Option Expr
  | .call _ _ f => some f
  | _ => none

/-- A node `ast::expressions::prefix` as `eval_prefix` reads it: its
position and its operator. -/
structure PrefixNode where
  pos : Position
  token : Token

/-- A node `ast::expressions::infix` as `eval_infix` reads it: its
position, its operator and its right operand. -/
structure InfixNode where
  pos : Position
  token : Token
  right : Expr

/-- A call made through a callback: the evaluation of a node in an
environment, or a pipe call of `right` with `left` for argument. -/
inductive Event where
  | evaluated (node : Expr) (env : Env)
  | piped (left right : Obj)

/-- What an operation answers: its value and the calls it made through the
callbacks, in order. -/
structure Outcome where
  value : Obj
  trace : List Event

/-- The collaborators of the operations: the evaluator `ev` handed in as
`eval_call`, and `eval_builtin` and `eval_func` of `common_operations`,
which is not part of the sources. -/
structure Callbacks where
  ev : Expr → Env → Obj
  eval_builtin : InfixNode → Obj → Obj → Env → Obj
  eval_func : InfixNode → Obj → Obj → Env → Obj

/-- Modelled from the spec: `objects::module` is not part of the sources.
A module is a handle on a scoped environment (spec 3.1, spec 9): `env` is
that environment and `get` answers the value bound to a name in it, or
nothing. -/
structure Module where
  env : Env
  get : String → Option Obj

/-- `static_cast<std::int64_t>` of a `std::size_t`. -/
def toInt64 (n : Nat) : Int :=
  if n % U64 < 2 ^ 63 then ((n % U64 : Nat) : Int) else ((n % U64 : Nat) : Int) - (U64 : Int)

/-- `error_type::make( pos, ... )`: an Error at `pos` whose message is the
arguments written one after the other. -/
def makeError (pos : Position) (parts : List String) : Obj :=
  Obj.error pos (String.join parts)

namespace Tables

/-- `operation<objects::type::TABLE>::eval_prefix` on a table with the
entries `es`: `*` answers the number of entries as an Int; every other
operator answers an Error whose message ends in the words
`is not defined for string`. -/
def eval_prefix (pref : PrefixNode) (es : List (Obj × Obj)) : Obj :=
  if pref.token = Token.ASTERISK then
    Obj.integer (toInt64 es.length)
  else
    makeError pref.pos ["Prefix operator '", pref.token.name, "' is not defined for", " string"]

/-- `operation<objects::type::TABLE>::eval_table` on the tables at `lft`
and `rght`: `res` is the clone of the left table, and every entry of the
right table is handed to `insert` on the map of `res`.  The answer is the
heap afterwards and the address `res`.  Keys are hashed and compared as the
trees they read as, to depth `n`, which also bounds the clone. -/
def eval_table (H : StdHash) (n : Nat) (h : Mem.Heap) (lft rght : Nat) :
    Option (Mem.Heap × Nat) :=
  match h[lft]?, h[rght]? with
  | some (.table _), some (.table rs) =>
    match Mem.clone n h lft with
    | some (h1, res) =>
      match h1[res]? with
      | some (.table es) =>
        match Mem.insertAll H (Mem.read n h1) es rs with
        | some es1 => some (h1.set res (.table es1), res)
        | none => none
      | _ => none
    | none => none
  | _, _ => none

/-- The Error at the end of the table `eval_infix`. -/
def notDefined (inf : InfixNode) (obj right : Obj) : Obj :=
  makeError inf.pos ["Infix operation ", name_get obj.get_type, " '", inf.token.name, "' ",
    name_get right.get_type, " is not defined"]

/-- `operation<objects::type::TABLE>::eval_infix` with the left operand
`obj`.  The right operand is evaluated first; an Error (the tag `FAILURE`
of `tables.h` is the tag `ERROR` of `objects.h`) is returned as it is.  A
right operand that is a builtin or a function is called through the pipe
helpers when the operator is `|`.  For a table on the right the source has
the `+` branch between comment marks, so nothing is done.  Everything else
ends in the Error `notDefined`. -/
def eval_infix (C : Callbacks) (inf : InfixNode) (obj : Obj) (env : Env) : Outcome :=
  let right := C.ev inf.right env
  let seen := [Event.evaluated inf.right env]
  if right.get_type = ObjType.ERROR then ⟨right, seen⟩
  else
    match right.get_type with
    | .TABLE => ⟨notDefined inf obj right, seen⟩
    | .BUILTIN =>
      if inf.token = Token.BIT_OR then
        ⟨C.eval_builtin inf obj right env, seen ++ [Event.piped obj right]⟩
      else ⟨notDefined inf obj right, seen⟩
    | .FUNCTION =>
      if inf.token = Token.BIT_OR then
        ⟨C.eval_func inf obj right env, seen ++ [Event.piped obj right]⟩
      else ⟨notDefined inf obj right, seen⟩
    | _ => ⟨notDefined inf obj right, seen⟩

end Tables

namespace Module

/-- `operation<objects::type::MODULE>::eval_func`: the right operand of
`inf` is a call.  When its callee is an identifier bound in the module, the
call is evaluated in the environment of the module; when the identifier is
not bound, or the callee is not an identifier, the answer is an Error at
the position of the right operand.  (`eval_infix` calls this for call nodes
only; on any other node the model answers the last Error.) -/
def eval_func (C : Callbacks) (inf : InfixNode) (mod : Module) : Outcome :=
  match inf.right.func with
  | some func =>
    if func.get_type = Rewriter.NodeType.IDENT then
      let id := func.str
      if (mod.get id).isSome then
        ⟨C.ev inf.right mod.env, [Event.evaluated inf.right mod.env]⟩
      else ⟨makeError inf.right.pos ["Identifier not found '", id, "'"], []⟩
    else ⟨makeError inf.right.pos ["Bad ident for module ", inf.right.str], []⟩
  | none => ⟨makeError inf.right.pos ["Bad ident for module ", inf.right.str], []⟩

/-- `operation<objects::type::MODULE>::eval_infix` with the module `mod`
for left operand (after `shared_unref`).  The environment of the caller is
not used. -/
def eval_infix (C : Callbacks) (inf : InfixNode) (mod : Module) (_env : Env) : Outcome :=
  if inf.token = Token.DOT then
    if inf.right.get_type = Rewriter.NodeType.IDENT then
      let id := inf.right.str
      match mod.get id with
      | some val => ⟨val, []⟩
      | none => ⟨makeError inf.right.pos ["Identifier not found '", id, "'"], []⟩
    else if inf.right.get_type = Rewriter.NodeType.CALL then
      eval_func C inf mod
    else ⟨makeError inf.right.pos ["Bad ident for module ", inf.right.str], []⟩
  else
    ⟨makeError inf.pos ["Infix operation ", inf.token.name, "' ", " is not defined for modules"],
      []⟩

end Module

/-- An evaluator whose every evaluation answers the empty table, with pipe
helpers that answer `Null`. -/
def tableCallbacks : Callbacks where
  ev := fun _ _ => Obj.table []
  eval_builtin := fun _ _ _ _ => Obj.null
  eval_func := fun _ _ _ _ => Obj.null

end Eval


/-! ## Part 5: environments and the values that capture them

`env_object`, the base class of `Function`, `Builtin` and `ContCall` in
`objects.h`, keeps a weak pointer to an environment, locks the environment
when it is constructed and unlocks it when it is destroyed.  Environments
have an identity here: each lives at an address of a store, and a value
that captures one holds its address. -/

namespace Closure

/-- Modelled from the spec: `mico/environment.h` is not part of the
sources.  An environment (spec 3.2, 4.2): its parent, by address (a root
has none); its bindings; its lock counter; and whether the environment
object is gone, so that a weak pointer to it gives `nullptr`. -/
structure Environment where
  parent : Option Nat
  values : List (String × Obj)
  locks : Nat
  expired : Bool
deriving Repr

/-- Modelled from the spec: `environment::lock( )` raises the counter of
live holders by one (spec 4.2). -/
def Environment.lock (e : Environment) : Environment :=
  { e with locks := e.locks + 1 }

/-- Modelled from the spec: `environment::unlock( )` lowers the counter of
live holders by one (spec 4.2). -/
def Environment.unlock (e : Environment) : Environment :=
  { e with locks := e.locks - 1 }

/-- What a class derived from `env_object` holds besides the environment:
the parameters and the body of a `Function` (the body by a number, as in
part 1), nothing for a `Builtin`, the wrapped value of a `ContCall`. -/
inductive Payload where
  | function (params : List String) (body : Nat)
  | builtin
  | cont_call (obj : Obj)
deriving Repr

/-- A value of a class derived from `env_object`: the address its weak
pointer `env_` was made from, and its own members. -/
structure EnvObject where
  env : Nat
  payload : Payload
deriving Repr

/-- The tag of a closure-like value: `get_type( )`. -/
def EnvObject.get_type (o : EnvObject) : ObjType :=
  match o.payload with
  | .function _ _ => .FUNCTION
  | .builtin => .BUILTIN
  | .cont_call _ => .CONT_CALL

/-- The state: the store of environments, the closure-like values that
were constructed and not yet destroyed (oldest first), and the addresses
`environment::drop` was called on, in order. -/
structure World where
  envs : List Environment
  live : List EnvObject
  drops : List Nat
deriving Repr

/-- The environment at `a` is replaced by `f` of it. -/
def update (envs : List Environment) (a : Nat) (f : Environment → Environment) :
    List Environment :=
  match envs[a]? with
  | some e => envs.set a (f e)
  | none => envs

/-- Modelled from the spec: `environment::make( parent )`, the operation
`new_child` (spec 4.2), or `new_root` without a parent: a new environment
with no binding and no holder. -/
def make (w : World) (parent : Option Nat) : World × Nat :=
  ({ w with envs := w.envs ++ [⟨parent, [], 0, false⟩] }, w.envs.length)

/-- Modelled from the spec: `set( name, value )` binds in the current scope
(spec 3.2). -/
def set (w : World) (a : Nat) (name : String) (value : Obj) : World :=
  { w with envs := update w.envs a fun e =>
      { e with values := (name, value) :: e.values.filter fun b => b.1 != name } }

/-- Modelled from the spec: name lookup walks the parent chain and answers
the nearest binding (spec 3.2).  The parent pointer is weak: a parent that
is gone ends the walk.  The first argument bounds the length of the
walk. -/
def get (envs : List Environment) : Nat → Nat → String → Option Obj
  | 0, _, _ => none
  | k + 1, a, name =>
    match envs[a]? with
    | none => none
    | some e =>
      if e.expired then none
      else
        match e.values.lookup name with
        | some v => some v
        | none =>
          match e.parent with
          | some p => get envs k p name
          | none => none

/-- Modelled from the spec: the environment object at `a` is destroyed by
its last owner; weak pointers to it give `nullptr` from then on. -/
def expire (w : World) (a : Nat) : World :=
  { w with envs := update w.envs a fun e => { e with expired := true } }

/-- `env_object::env( )`: `env_.lock( )`, the environment the value
captured, or `nullptr` when that environment is gone. -/
def env (w : World) (o : EnvObject) : Option Nat :=
  match w.envs[o.env]? with
  | some e => if e.expired then none else some o.env
  | none => none

/-- The constructor `env_object( e )`, for a value with the members `p`:
`env_( e )`, then `e->lock( )`.  The new value is the last of the live
ones. -/
def env_object (w : World) (e : Nat) (p : Payload) : World :=
  { w with envs := update w.envs e Environment.lock, live := w.live ++ [⟨e, p⟩] }

/-- The destructor `~env_object( )` of the `i`-th live value, which is
`drop( )`: with `p = env( )`, when `p` is not `nullptr`, `p->unlock( )` and
then `p->drop( )`.  What `environment::drop` releases is the matter of
`environment.h`; the call is recorded. -/
def drop (w : World) (i : Nat) : World :=
  match w.live[i]? with
  | some o =>
    match env w o with
    | some p =>
      { envs := update w.envs p Environment.unlock, live := w.live.eraseIdx i,
        drops := w.drops ++ [p] }
    | none => { w with live := w.live.eraseIdx i }
  | none => w

/-- `derived<type::FUNCTION>::clone` on a function with the members `o`:
`make_shared<this_type>( environment::make( env( ) ), params_, body_ )`.
The answer is the state afterwards and the clone. -/
def clone (w : World) (o : EnvObject) : World × EnvObject :=
  let made := make w (env w o)
  (env_object made.1 made.2 o.payload, ⟨made.2, o.payload⟩)

/-- The steps that touch environments or closure-like values. -/
inductive Op where
  | construct (e : Nat) (p : Payload)
  | destroy (i : Nat)
  | make (parent : Option Nat)
  | set (a : Nat) (name : String) (value : Obj)
  | expire (a : Nat)
  | clone (i : Nat)

/-- One step.  A constructor is handed a shared pointer, so its
environment is there; the step does nothing otherwise.  A clone step clones
the `i`-th live value when that is a function. -/
def step (w : World) : Op → World
  | .construct e p =>
    match env w ⟨e, p⟩ with
    | some _ => env_object w e p
    | none => w
  | .destroy i => drop w i
  | .make parent => (make w parent).1
  | .set a name value => set w a name value
  | .expire a => expire w a
  | .clone i =>
    match w.live[i]? with
    | some ⟨e, .function ps b⟩ => (clone w ⟨e, .function ps b⟩).1
    | _ => w

/-- Every parent was made before its child. -/
def Ordered (envs : List Environment) : Prop :=
  ∀ (a : Nat) (e : Environment) (p : Nat), envs[a]? = some e → e.parent = some p → p < a

end Closure



/-! ## Theorems on part 1 -/

theorem equalCells_cons (c o : Obj) (cs os : List Obj) :
    equalCells (c :: cs) (o :: os) = (equalCells cs os && c.equal o) := by
  rw [equalCells]
  cases equalCells cs os <;> cases c.equal o <;> rfl

theorem equalEntries_cons (k0 v0 k1 v1 : Obj) (es os : List (Obj × Obj)) :
    equalEntries ((k0, v0) :: es) ((k1, v1) :: os) =
      ((!(k0.equal k1) || v0.equal v1) && equalEntries es os) := by
  rw [equalEntries]
  cases k0.equal k1 <;> cases v0.equal v1 <;> simp

theorem equalCells_iff : ∀ (cs os : List Obj), cs.length = os.length →
    (equalCells cs os = true ↔
      ∀ i (h1 : i < cs.length) (h2 : i < os.length),
        (cs.get ⟨i, h1⟩).equal (os.get ⟨i, h2⟩) = true)
  | [], [], _ => by simp [equalCells]
  | [], _ :: _, h => by simp at h
  | _ :: _, [], h => by simp at h
  | c :: cs, o :: os, h => by
    have hl : cs.length = os.length := by simpa using h
    rw [equalCells_cons, Bool.and_eq_true, equalCells_iff cs os hl]
    constructor
    · rintro ⟨ht, hh⟩ i h1 h2
      cases i with
      | zero => simpa using hh
      | succ j =>
        have := ht j (by simpa using h1) (by simpa using h2)
        simpa using this
    · intro hall
      refine ⟨?_, ?_⟩
      · intro i h1 h2
        have := hall (i + 1) (by simpa using h1) (by simpa using h2)
        simpa using this
      · have := hall 0 (by simp) (by simp)
        simpa using this

theorem cloneCells_length : ∀ cs : List Obj, (cloneCells cs).length = cs.length
  | [] => by simp [cloneCells]
  | _ :: cs => by simp [cloneCells, cloneCells_length cs]

mutual
theorem equal_self_of_direct : ∀ v : Obj, v.isReference = false → v.directCells = true →
    v.equal v = true
  | .null, _, _ => by decide
  | .boolean _, _, _ => by simp [Obj.equal]
  | .integer _, _, _ => by simp [Obj.equal]
  | .string _, _, _ => by simp [Obj.equal]
  | .table es, _, h => by
    simp only [Obj.directCells] at h
    simp [Obj.equal, equalEntries_self es h]
  | .array cs, _, h => by
    simp only [Obj.directCells] at h
    simp [Obj.equal, equalCells_self cs h]
  | .reference _, h, _ => by simp [Obj.isReference] at h
  | .ret _, _, _ => by simp [Obj.equal]
  | .function _ _ _, _, _ => by simp [Obj.equal]
  | .cont_call _ _, _, _ => by simp [Obj.equal]
  | .error _ _, _, _ => by simp [Obj.equal]
theorem equalCells_self : ∀ cs : List Obj, directElems cs = true → equalCells cs cs = true
  | [], _ => by simp [equalCells]
  | c :: cs, h => by
    simp only [directElems, Bool.and_eq_true, Bool.not_eq_true'] at h
    rw [equalCells_cons, equalCells_self cs h.2, equal_self_of_direct c h.1.1 h.1.2]
    rfl
theorem equalEntries_self : ∀ es : List (Obj × Obj), directEntries es = true →
    equalEntries es es = true
  | [], _ => by simp [equalEntries]
  | (k, v) :: es, h => by
    simp only [directEntries, Bool.and_eq_true, Bool.not_eq_true'] at h
    rw [equalEntries_cons, equalEntries_self es h.2, equal_self_of_direct v h.1.1 h.1.2]
    simp
end

mutual
theorem equal_clone_of_direct : ∀ v : Obj, v.isReference = false → v.directCells = true →
    v.equal v.clone = true ∧ v.clone.equal v = true
  | .null, _, _ => by decide
  | .boolean _, _, _ => by simp [Obj.equal, Obj.clone]
  | .integer _, _, _ => by simp [Obj.equal, Obj.clone]
  | .string _, _, _ => by simp [Obj.equal, Obj.clone]
  | .table es, hr, h => by
    simp only [Obj.clone]
    exact ⟨equal_self_of_direct _ hr h, equal_self_of_direct _ hr h⟩
  | .array cs, _, h => by
    simp only [Obj.directCells] at h
    have := equalCells_clone cs h
    simp [Obj.equal, Obj.clone, cloneCells_length, this.1, this.2]
  | .reference _, h, _ => by simp [Obj.isReference] at h
  | .ret _, _, _ => by simp [Obj.equal, Obj.clone]
  | .function _ _ _, _, _ => by simp [Obj.equal, Obj.clone, Obj.str]
  | .cont_call _ _, _, _ => by simp [Obj.equal, Obj.clone]
  | .error _ _, _, _ => by simp [Obj.equal, Obj.clone]
theorem equalCells_clone : ∀ cs : List Obj, directElems cs = true →
    equalCells cs (cloneCells cs) = true ∧ equalCells (cloneCells cs) cs = true
  | [], _ => by simp [equalCells, cloneCells]
  | c :: cs, h => by
    simp only [directElems, Bool.and_eq_true, Bool.not_eq_true'] at h
    have h1 := equalCells_clone cs h.2
    have h2 := equal_clone_of_direct c h.1.1 h.1.2
    simp only [cloneCells]
    rw [equalCells_cons, equalCells_cons, h1.1, h1.2, h2.1, h2.2]
    exact ⟨rfl, rfl⟩
end


/-! ## Claims on values, arrays and tables -/

/-- C1, at a failing input: the tables `{true: true}` and `{false: false}`
are equal for `equal`, since the loop of the table `equal` passes over a
pair of keys that differ, yet their hashes are `hash64(7)` and `hash64(5)`,
which differ wherever `std::hash<std::uint64_t>` is the identity. -/
theorem table_equal_without_equal_hash :
    (Obj.table [(.boolean true, .boolean true)]).equal
        (Obj.table [(.boolean false, .boolean false)]) = true ∧
      (Obj.table [(.boolean true, .boolean true)]).hash gnuHash = 7 ∧
      (Obj.table [(.boolean false, .boolean false)]).hash gnuHash = 5 := by
  decide

/-- C2, at a failing input: the table `{true: 1}` is equal, for `equal`, to
the table `{false: 2}` of the same size, although its key `true` is not
bound in the other table (`at` answers `Null`), and the two values
differ. -/
theorem table_equal_passes_over_unmatched_keys :
    (Obj.table [(.boolean true, .integer 1)]).equal
        (Obj.table [(.boolean false, .integer 2)]) = true ∧
      table_at gnuHash [(.boolean false, .integer 2)] (.boolean true) = Obj.null ∧
      (Obj.integer 1).equal (.integer 2) = false :=
  ⟨by decide, rfl, by decide⟩

/-- C5, refuted as stated: an array whose one cell holds a Reference cell
holding `1` is not equal to its clone, because `equal` on the inner
Reference hands the clone's Reference, still wrapped, to `Int::equal`. -/
theorem clone_not_equal_with_nested_reference :
    (Obj.array [.reference (.integer 1)]).get_type = ObjType.ARRAY ∧
      (Obj.array [.reference (.integer 1)]).equal
        (Obj.array [.reference (.integer 1)]).clone = false := by
  decide

/-- C5, amended: a String, an Array or a Table whose elements and entry
values, at every depth, are held directly (none is itself a Reference cell)
is equal to its clone, in both directions. -/
theorem clone_equal_of_direct_cells (v : Obj)
    (hv : v.get_type = ObjType.STRING ∨ v.get_type = ObjType.ARRAY ∨
      v.get_type = ObjType.TABLE)
    (hd : v.directCells = true) :
    v.equal v.clone = true ∧ v.clone.equal v = true := by
  apply equal_clone_of_direct v _ hd
  cases v <;> simp [Obj.isReference, Obj.get_type] at hv ⊢

/-- A use of `clone_equal_of_direct_cells`: the array
`[1, {"x": [null]}, fn]`. -/
theorem clone_equal_of_direct_cells_witness :
    (Obj.array [.integer 1, .table [(.string "x", .array [.null])],
        .function (.root 0) ["a"] 7]).equal
      (Obj.array [.integer 1, .table [(.string "x", .array [.null])],
        .function (.root 0) ["a"] 7]).clone = true ∧
    (Obj.array [.integer 1, .table [(.string "x", .array [.null])],
        .function (.root 0) ["a"] 7]).clone.equal
      (Obj.array [.integer 1, .table [(.string "x", .array [.null])],
        .function (.root 0) ["a"] 7]) = true :=
  clone_equal_of_direct_cells _ (Or.inr (Or.inl rfl)) (by decide)

/-- C6, refuted as stated: two Reference cells that both hold `1` are not
equal, although `1` is equal to `1`. -/
theorem reference_equal_keeps_argument_wrapped :
    (Obj.reference (.integer 1)).equal (.reference (.integer 1)) = false ∧
      (Obj.integer 1).equal (.integer 1) = true := by
  decide

/-- C6, amended: the hash of a Reference cell is the hash of what it holds,
and a Reference cell holding `v` is equal to `w` exactly when `v` is equal
to `w` as given.  The argument is not unwrapped: against a Reference cell
holding `w` the answer is `v.equal(w)` when `v` is compared by display
string (Return, Function, ContCall, Error), `false` when `v` is Null, Bool,
Int, String, Array or Table, and when `v` is itself a Reference cell it is
what `v` answers to the wrapped argument. -/
theorem reference_unwraps_receiver (H : StdHash) (v w : Obj) :
    (Obj.reference v).hash H = v.hash H ∧
      (Obj.reference v).equal w = v.equal w ∧
      (Obj.reference v).equal (.reference w) =
        (match v.get_type with
          | .RETURN | .FUNCTION | .CONT_CALL | .ERROR => v.equal w
          | .REFERENCE => v.equal (.reference w)
          | _ => false) := by
  refine ⟨by simp [Obj.hash], by simp [Obj.equal], ?_⟩
  cases v <;> simp [Obj.equal, Obj.get_type, Obj.str]

/-- C7: for a 64-bit signed index `i`, `at` answers the `i`-th Reference
cell when `0 <= i < size` and `Null` for every other `i`; it never reads
outside the vector and never answers an Error. -/
theorem array_at_in_bounds_or_null (cells : List Obj) (i : Int) (hi : IsInt64 i) :
    (0 ≤ i ∧ i < cells.length →
        ∃ c, cells.get? i.toNat = some c ∧ array_at cells i = some (Obj.reference c)) ∧
      (¬(0 ≤ i ∧ i < cells.length) → array_at cells i = some Obj.null) ∧
      array_at cells i ≠ none ∧
      ∀ r, array_at cells i = some r → r.get_type ≠ ObjType.ERROR := by
  have hmod : 0 ≤ i → (i % (U64 : Int)).toNat = i.toNat := by
    intro h0
    have hlt : i < (U64 : Int) := by
      have := hi.2
      simp only [U64]
      norm_num at this ⊢
      omega
    rw [Int.emod_eq_of_lt h0 hlt]
  have hin : 0 ≤ i ∧ i < cells.length →
      ∃ c, cells.get? i.toNat = some c ∧ array_at cells i = some (Obj.reference c) := by
    rintro ⟨h0, h1⟩
    have hlt : i.toNat < cells.length := by omega
    refine ⟨cells.get ⟨i.toNat, hlt⟩, List.get?_eq_get hlt, ?_⟩
    simp only [array_at, hmod h0]
    rw [if_pos ⟨hlt, h0⟩, List.get?_eq_get hlt]
    rfl
  have hout : ¬(0 ≤ i ∧ i < cells.length) → array_at cells i = some Obj.null := by
    intro hn
    simp only [array_at]
    rw [if_neg]
    rintro ⟨h1, h0⟩
    rw [hmod h0] at h1
    exact hn ⟨h0, by omega⟩
  refine ⟨hin, hout, ?_, ?_⟩
  · by_cases h : 0 ≤ i ∧ i < cells.length
    · obtain ⟨c, _, hc⟩ := hin h
      simp [hc]
    · simp [hout h]
  · intro r hr
    by_cases h : 0 ≤ i ∧ i < cells.length
    · obtain ⟨c, _, hc⟩ := hin h
      rw [hc] at hr
      cases hr
      simp [Obj.get_type]
    · rw [hout h] at hr
      cases hr
      simp [Obj.get_type]

/-- A use of `array_at_in_bounds_or_null`: index `-1` of `[10, 20]`. -/
theorem array_at_in_bounds_or_null_witness :
    array_at [.integer 10, .integer 20] (-1) = some Obj.null :=
  (array_at_in_bounds_or_null [.integer 10, .integer 20] (-1) (by decide)).2.1 (by decide)

/-- C8: an Array is equal to `o` exactly when `o` is an Array of the same
length and, at every index, what the cell of the one holds is equal to what
the cell of the other holds. -/
theorem array_equal_iff (cs : List Obj) (o : Obj) :
    (Obj.array cs).equal o = true ↔
      ∃ os, o = Obj.array os ∧ os.length = cs.length ∧
        ∀ i (h1 : i < cs.length) (h2 : i < os.length),
          (cs.get ⟨i, h1⟩).equal (os.get ⟨i, h2⟩) = true := by
  cases o with
  | array os =>
    by_cases hl : os.length = cs.length
    · simp [Obj.equal, hl, equalCells_iff cs os hl.symm]
    · simp [Obj.equal, hl]
  | _ => simp [Obj.equal]

/-- C9, at a failing input: after `insert({true: false}, 1)` into an empty
table, the lookup of the key `{false: true}`, a table with another key and
another value, answers the cell that holds `1`; this holds for every pair
of library hash functions.  And the key `{false: false}`, which `equal`
takes for equal to the stored key `{true: true}`, is not found. -/
theorem table_key_lookup_by_table (H : StdHash) :
    table_at H
        (table_insert H [] (.table [(.boolean true, .boolean false)]) (.integer 1)).1
        (.table [(.boolean false, .boolean true)]) = Obj.reference (.integer 1) ∧
      (Obj.table [(.boolean false, .boolean false)]).equal
        (.table [(.boolean true, .boolean true)]) = true ∧
      table_at gnuHash
        (table_insert gnuHash [] (.table [(.boolean true, .boolean true)]) (.integer 1)).1
        (.table [(.boolean false, .boolean false)]) = Obj.null := by
  refine ⟨?_, by decide, rfl⟩
  simp [table_at, table_insert, mapAssign, mapFind, keyMatch, hash_helper, equal_helper,
    Obj.clone, Obj.hash, hashEntries, Obj.equal, equalEntries]


/-! ## Claims on the Null value -/

/-- C24: the Null value hashes to 0; `Null.equal( o )` holds exactly when
`o` has the tag of Null, that is when `o` is the Null value (a Reference
cell that holds Null is not); and `clone` of Null is Null: in memory it
answers the address of the static instance and allocates nothing. -/
theorem null_hash_equal_clone (H : StdHash) (o : Obj) :
    Obj.hash H Obj.null = 0 ∧
      (Obj.null.equal o = true ↔ o = Obj.null) ∧
      (o = Obj.null ↔ o.get_type = ObjType.NULL_OBJ) ∧
      Obj.null.equal (Obj.reference Obj.null) = false ∧
      Obj.null.clone = Obj.null ∧
      (∀ (n : Nat) (h : Mem.Heap) (p : Nat), h[p]? = some Mem.Object.null →
        Mem.clone (n + 1) h p = some (h, Mem.nullPtr)) := by
  have ht : o = Obj.null ↔ o.get_type = ObjType.NULL_OBJ := by
    cases o <;> simp [Obj.get_type]
  refine ⟨by simp [Obj.hash], ?_, ht, by simp [Obj.equal, Obj.get_type], by simp [Obj.clone], ?_⟩
  · rw [ht]
    simp [Obj.equal]
  · intro n h p hp
    simp [Mem.clone, hp]


/-! ## Claims on hashes and on functions as keys -/

mutual
theorem hash_eq_of_plain_equal (H : StdHash) : ∀ (a b : Obj), a.plain = true →
    a.equal b = true → a.hash H = b.hash H
  | .null, b, _, h => by
    cases b <;> simp [Obj.equal, Obj.get_type] at h
    rfl
  | .boolean v, b, _, h => by
    cases b <;> simp [Obj.equal] at h
    subst h
    rfl
  | .integer v, b, _, h => by
    cases b <;> simp [Obj.equal] at h
    subst h
    rfl
  | .string v, b, _, h => by
    cases b <;> simp [Obj.equal] at h
    subst h
    rfl
  | .array cs, b, hp, h => by
    cases b with
    | array os =>
      simp only [Obj.equal, beq_iff_eq] at h
      simp only [Obj.plain] at hp
      by_cases hl : os.length = cs.length
      · simp only [hl, if_true] at h
        simp only [Obj.hash]
        exact hashCells_eq_of_plain_equal H cs os _ hp h hl
      · simp [hl] at h
    | _ => simp [Obj.equal] at h
  | .reference v, b, hp, h => by
    simp only [Obj.equal] at h
    simp only [Obj.plain] at hp
    simp only [Obj.hash]
    exact hash_eq_of_plain_equal H v b hp h
  | .table _, _, hp, _ => by simp [Obj.plain] at hp
  | .ret _, _, hp, _ => by simp [Obj.plain] at hp
  | .function _ _ _, _, hp, _ => by simp [Obj.plain] at hp
  | .cont_call _ _, _, hp, _ => by simp [Obj.plain] at hp
  | .error _ _, _, hp, _ => by simp [Obj.plain] at hp
theorem hashCells_eq_of_plain_equal (H : StdHash) : ∀ (cs os : List Obj) (h0 : Nat),
    plainCells cs = true → equalCells cs os = true → os.length = cs.length →
    hashCells H h0 cs = hashCells H h0 os
  | [], [], _, _, _, _ => rfl
  | [], _ :: _, _, _, _, hl => by simp at hl
  | _ :: _, [], _, _, _, hl => by simp at hl
  | c :: cs, o :: os, h0, hp, he, hl => by
    simp only [plainCells, Bool.and_eq_true] at hp
    rw [equalCells_cons, Bool.and_eq_true] at he
    simp only [hashCells]
    rw [hash_eq_of_plain_equal H c o hp.1 he.2]
    exact hashCells_eq_of_plain_equal H cs os _ hp.2 he.1 (by simpa using hl)
end

/-- C32: for a value `a` built from Null, Bool, Int and String by Reference
cells and Arrays only, and any value `b` (so also one built in that way):
when `a.equal( b )` holds, `a` and `b` have the same hash, whatever the two
hash functions of the C++ library are. -/
theorem equal_implies_equal_hash_without_tables (H : StdHash) (a b : Obj)
    (ha : a.plain = true) (h : a.equal b = true) : a.hash H = b.hash H :=
  hash_eq_of_plain_equal H a b ha h

/-- A use of `equal_implies_equal_hash_without_tables`: the array
`[1, "x"]` whose second element is a Reference cell equals the array
`[1, "x"]`, and the two hash alike. -/
theorem equal_implies_equal_hash_without_tables_witness :
    (Obj.array [Obj.integer 1, Obj.reference (Obj.string "x")]).equal
        (Obj.array [Obj.integer 1, Obj.string "x"]) = true ∧
      (Obj.array [Obj.integer 1, Obj.reference (Obj.string "x")]).hash gnuHash =
        (Obj.array [Obj.integer 1, Obj.string "x"]).hash gnuHash :=
  ⟨rfl, equal_implies_equal_hash_without_tables gnuHash _ _ rfl rfl⟩

theorem digitChar_value (k : Nat) (h : k < 10) : (Nat.digitChar k).toNat - 48 = k := by
  interval_cases k <;> rfl

theorem digitsValue_toDigitsCore : ∀ (fuel n : Nat) (ds : List Char), n < fuel →
    digitsValue 0 (Nat.toDigitsCore 10 fuel n ds) = digitsValue n ds
  | 0, _, _, h => by omega
  | fuel + 1, n, ds, h => by
    have hd : (Nat.digitChar (n % 10)).toNat - 48 = n % 10 :=
      digitChar_value _ (Nat.mod_lt _ (by decide))
    rw [Nat.toDigitsCore]
    by_cases h0 : n / 10 = 0
    · simp only [h0, if_true]
      have hn : n % 10 = n := Nat.mod_eq_of_lt (by omega)
      rw [hn] at hd
      simp only [digitsValue, List.foldl_cons, hn, hd, Nat.zero_mul, Nat.zero_add]
    · simp only [h0, if_false]
      rw [digitsValue_toDigitsCore fuel (n / 10) _ (by omega)]
      simp only [digitsValue, List.foldl_cons, hd]
      congr 1
      omega

theorem toString_nat_inj (n m : Nat) (h : toString n = toString m) : n = m := by
  have h1 : (Nat.repr n).data = (Nat.repr m).data := congrArg String.data h
  simp only [Nat.repr, List.asString, Nat.toDigits] at h1
  have h2 := congrArg (digitsValue 0) h1
  rw [digitsValue_toDigitsCore _ _ _ (Nat.lt_succ_self n),
    digitsValue_toDigitsCore _ _ _ (Nat.lt_succ_self m)] at h2
  simpa [digitsValue] using h2

theorem function_str_eq_iff (e1 e2 : Env) (ps qs : List String) (b1 b2 : Nat) :
    (Obj.function e1 ps b1).str = (Obj.function e2 qs b2).str ↔ ps.length = qs.length := by
  simp only [Obj.str]
  constructor
  · intro h
    have h1 := congrArg String.data h
    simp only [String.data_append, List.append_cancel_left_eq, List.append_cancel_right_eq] at h1
    exact toString_nat_inj _ _ (String.ext h1)
  · intro h
    rw [h]

theorem mapFind_congr (H : StdHash) (k k2 : Obj)
    (h : ∀ s, keyMatch H k s = keyMatch H k2 s) :
    ∀ es : List (Obj × Obj), mapFind H k es = mapFind H k2 es
  | [] => rfl
  | (s, c) :: es => by
    simp only [mapFind, h s, mapFind_congr H k k2 h es]

theorem mapReplace_length (H : StdHash) (k c : Obj) :
    ∀ es : List (Obj × Obj), (mapReplace H k c es).length = es.length
  | [] => rfl
  | (s, old) :: es => by
    rw [mapReplace]
    split
    · rfl
    · simp [mapReplace_length H k c es]

theorem mapFind_mapReplace (H : StdHash) (k c : Obj) :
    ∀ es : List (Obj × Obj),
      (mapFind H k (mapReplace H k c es)).isSome = (mapFind H k es).isSome
  | [] => rfl
  | (s, old) :: es => by
    rw [mapReplace]
    by_cases hm : keyMatch H k s = true
    · simp [mapFind, hm]
    · simp [mapFind, hm, mapFind_mapReplace H k c es]

theorem mapAssign_length_of_found (H : StdHash) (k c : Obj) (es : List (Obj × Obj))
    (h : (mapFind H k es).isSome = true) : (mapAssign H k c es).length = es.length := by
  simp [mapAssign, h, mapReplace_length]

theorem mapFind_mapAssign (H : StdHash) (k c : Obj) (es : List (Obj × Obj))
    (hk : keyMatch H k k = true) : (mapFind H k (mapAssign H k c es)).isSome = true := by
  unfold mapAssign
  by_cases h : (mapFind H k es).isSome = true
  · simp only [h, if_true]
    rw [mapFind_mapReplace, h]
  · simp [h, mapFind, hk]

/-- C33: two functions compare equal, and then also hash equally, exactly
when their parameter lists have the same length, whatever their bodies and
environments.  With the same length, inserting the second as a key into a
table into which the first was inserted adds no entry: it replaces the
value of the entry of the first; into an empty table the two insertions
leave the one entry whose key is the clone of the first function and whose
value is the value inserted last. -/
theorem function_keys_equal_by_arity (H : StdHash) (e1 e2 : Env) (ps qs : List String)
    (b1 b2 : Nat) :
    (((Obj.function e1 ps b1).equal (Obj.function e2 qs b2) = true ∧
        (Obj.function e1 ps b1).hash H = (Obj.function e2 qs b2).hash H) ↔
      ps.length = qs.length) ∧
    ((Obj.function e1 ps b1).equal (Obj.function e2 qs b2) = true ↔
      ps.length = qs.length) ∧
    (ps.length = qs.length → ∀ (es : List (Obj × Obj)) (v1 v2 : Obj),
      (table_insert H (table_insert H es (Obj.function e1 ps b1) v1).1
          (Obj.function e2 qs b2) v2).1.length =
        (table_insert H es (Obj.function e1 ps b1) v1).1.length ∧
      (table_insert H (table_insert H [] (Obj.function e1 ps b1) v1).1
          (Obj.function e2 qs b2) v2).1 =
        [((Obj.function e1 ps b1).clone, v2)]) := by
  have heq : (Obj.function e1 ps b1).equal (Obj.function e2 qs b2) = true ↔
      ps.length = qs.length := by
    rw [← function_str_eq_iff e1 e2 ps qs b1 b2]
    simp [Obj.equal]
  refine ⟨?_, heq, ?_⟩
  · constructor
    · intro h
      exact heq.mp h.1
    · intro h
      refine ⟨heq.mpr h, ?_⟩
      simp only [Obj.hash]
      rw [(function_str_eq_iff e1 e2 ps qs b1 b2).mpr h]
  · intro hlen es v1 v2
    have hstr : (Obj.function (Env.child e2) qs b2).str =
        (Obj.function (Env.child e1) ps b1).str :=
      (function_str_eq_iff _ _ qs ps b2 b1).mpr hlen.symm
    have hmatch : ∀ s, keyMatch H (Obj.function (Env.child e2) qs b2) s =
        keyMatch H (Obj.function (Env.child e1) ps b1) s := by
      intro s
      simp only [keyMatch, hash_helper, equal_helper, Obj.hash, Obj.equal, hstr]
    have hself : keyMatch H (Obj.function (Env.child e1) ps b1)
        (Obj.function (Env.child e1) ps b1) = true := by
      simp [keyMatch, equal_helper, Obj.equal]
    constructor
    · simp only [table_insert, Obj.clone]
      apply mapAssign_length_of_found
      rw [mapFind_congr H _ _ hmatch]
      exact mapFind_mapAssign H _ v1 es hself
    · simp only [table_insert, Obj.clone]
      have h1 : mapAssign H (Obj.function (Env.child e1) ps b1) v1 [] =
          [(Obj.function (Env.child e1) ps b1, v1)] := by
        simp [mapAssign, mapFind]
      rw [h1]
      have h2 : keyMatch H (Obj.function (Env.child e2) qs b2)
          (Obj.function (Env.child e1) ps b1) = true := by
        rw [hmatch]
        exact hself
      simp [mapAssign, mapFind, mapReplace, h2]


/-! ## Theorems on part 2 -/

namespace Mem

theorem Mutable.lt {h : Heap} {q : Nat} (hm : Mutable h q) : q < h.length := by
  obtain ⟨o, ho, _⟩ := hm
  exact (List.getElem?_eq_some.mp ho).1

theorem mutable_append {h e : Heap} {q : Nat} (hq : q < h.length) :
    Mutable (h ++ e) q ↔ Mutable h q := by
  unfold Mutable
  rw [List.getElem?_append_left hq]

theorem mutable_set {h : Heap} {r : Nat} {o o1 : Object} (hr : h[r]? = some o)
    (hk : o1.inPlace = o.inPlace) (q : Nat) :
    Mutable (h.set r o1) q ↔ Mutable h q := by
  unfold Mutable
  by_cases hq : r = q
  · subst hq
    have hlt : r < h.length := (List.getElem?_eq_some.mp hr).1
    rw [List.getElem?_set_self hlt, hr]
    simp [hk]
  · rw [List.getElem?_set_ne hq]

theorem sep_append {h e : Heap} {b : Nat} (hb : b ≤ h.length) (h1 : Sep h b)
    (h2 : Sep (h ++ e) h.length) : Sep (h ++ e) b := by
  intro x o hx ho y hy
  by_cases hlt : x < h.length
  · rw [List.getElem?_append_left hlt] at ho
    rcases h1 x o hx ho y hy with hy1 | hy1
    · exact Or.inl hy1
    · by_cases hyl : (y : Nat) < h.length
      · exact Or.inr (fun hm => hy1 ((mutable_append hyl).mp hm))
      · exact Or.inl (by omega)
  · rcases h2 x o (by omega) ho y hy with hy1 | hy1
    · exact Or.inl (by omega)
    · exact Or.inr hy1

theorem sep_alloc {h : Heap} {b : Nat} {o : Object} (h1 : Sep h b)
    (ho : ∀ y ∈ o.succs, b ≤ y ∨ ¬ Mutable (h ++ [o]) y) : Sep (h ++ [o]) b := by
  intro x o1 hx hx1 y hy
  by_cases hlt : x < h.length
  · rw [List.getElem?_append_left hlt] at hx1
    rcases h1 x o1 hx hx1 y hy with hy1 | hy1
    · exact Or.inl hy1
    · by_cases hyl : (y : Nat) < h.length
      · exact Or.inr (fun hm => hy1 ((mutable_append hyl).mp hm))
      · exact Or.inl (by omega)
  · have hxe : x = h.length := by
      have := (List.getElem?_eq_some.mp hx1).1
      simp at this
      omega
    subst hxe
    rw [List.getElem?_concat_length] at hx1
    cases hx1
    exact ho y hy

theorem sep_set {h : Heap} {b : Nat} {r : Nat} {o o1 : Object} (hr : h[r]? = some o)
    (hk : o1.inPlace = o.inPlace) (h1 : Sep h b)
    (ho : ∀ y ∈ o1.succs, b ≤ y ∨ ¬ Mutable h y) : Sep (h.set r o1) b := by
  intro x o2 hx hx2 y hy
  have hlt : r < h.length := (List.getElem?_eq_some.mp hr).1
  rw [mutable_set hr hk]
  by_cases hxr : r = x
  · subst hxr
    rw [List.getElem?_set_self hlt] at hx2
    cases hx2
    exact ho y hy
  · rw [List.getElem?_set_ne hxr] at hx2
    exact h1 x o2 hx hx2 y hy

theorem sep_self (h : Heap) : Sep h h.length := by
  intro x o hx ho
  have := (List.getElem?_eq_some.mp ho).1
  omega

theorem hasStatics_iff (h : Heap) :
    hasStatics h = true ↔
      h[0]? = some .null ∧ h[1]? = some (.boolean true) ∧ h[2]? = some (.boolean false) := by
  simp [hasStatics, nullPtr, truePtr, falsePtr, and_assoc]

theorem hasStatics_append {h e : Heap} (hs : hasStatics h = true) :
    hasStatics (h ++ e) = true := by
  rw [hasStatics_iff] at hs ⊢
  obtain ⟨h0, h1, h2⟩ := hs
  have l0 := (List.getElem?_eq_some.mp h0).1
  have l1 := (List.getElem?_eq_some.mp h1).1
  have l2 := (List.getElem?_eq_some.mp h2).1
  rw [List.getElem?_append_left l0, List.getElem?_append_left l1,
    List.getElem?_append_left l2]
  exact ⟨h0, h1, h2⟩

theorem hasStatics_set {h : Heap} {r : Nat} {o : Object} (hs : hasStatics h = true)
    (hr : 3 ≤ r) : hasStatics (h.set r o) = true := by
  rw [hasStatics_iff] at hs ⊢
  have e0 : r ≠ 0 := by omega
  have e1 : r ≠ 1 := by omega
  have e2 : r ≠ 2 := by omega
  rw [List.getElem?_set_ne e0, List.getElem?_set_ne e1, List.getElem?_set_ne e2]
  exact hs

theorem hasStatics_length {h : Heap} (hs : hasStatics h = true) : 3 ≤ h.length := by
  rw [hasStatics_iff] at hs
  have l2 := (List.getElem?_eq_some.mp hs.2.2).1
  omega

theorem loopM_cons {α : Type} (step : Heap → α → Option Heap) (h h1 : Heap) (x : α)
    (xs : List α) (hl : loopM step h (x :: xs) = some h1) :
    ∃ h2, step h x = some h2 ∧ loopM step h2 xs = some h1 := by
  rw [loopM] at hl
  cases hs : step h x with
  | none => simp [hs] at hl
  | some h2 => exact ⟨h2, rfl, by simpa [hs] using hl⟩

theorem res_transfer {hh hh1 e : Heap} {b c : Nat} (hb : b ≤ hh.length)
    (hl : hh.length ≤ hh1.length) (hr : hh.length ≤ c ∨ ¬ Mutable hh1 c) :
    b ≤ c ∨ ¬ Mutable (hh1 ++ e) c := by
  rcases hr with hr | hr
  · exact Or.inl (by omega)
  · by_cases hc : c < hh1.length
    · exact Or.inr (fun hm => hr ((mutable_append hc).mp hm))
    · exact Or.inl (by omega)

theorem push_eq {h h1 : Heap} {a val : Nat} (hp : push h a val = some h1) :
    ∃ cs, h[a]? = some (.array cs) ∧
      h1 = (h ++ [Object.reference val]).set a (Object.array (cs ++ [h.length])) := by
  unfold push at hp
  split at hp
  · rename_i cs hcs
    simp only [alloc, Option.some.injEq] at hp
    exact ⟨cs, hcs, hp.symm⟩
  · simp at hp

end Mem


namespace Mem

/-- The loop of the array `clone` keeps the objects below `h.length`, keeps
an array at `res` and keeps new cells apart from old ones. -/
theorem cloneCells_inv (cl : Heap → Nat → Option (Heap × Nat))
    (IH : ∀ h p h1 c, hasStatics h = true → cl h p = some (h1, c) → CloneInv h h1 c)
    (h : Heap) (res : Nat) (hres : h.length ≤ res) (h3 : 3 ≤ h.length) :
    ∀ (cs : List Nat) (hh h1 : Heap), hasStatics hh = true →
      (∃ ext, hh = h ++ ext) → (∃ cells, hh[res]? = some (Object.array cells)) →
      Sep hh h.length → loopM (cloneCell cl res) hh cs = some h1 →
      (∃ ext, h1 = h ++ ext) ∧ Sep h1 h.length
  | [], hh, h1, _, hpre, _, hsep, hl => by
    simp only [loopM, Option.some.injEq] at hl
    subst hl
    exact ⟨hpre, hsep⟩
  | v :: vs, hh, h1, hs, hpre, harr, hsep, hl => by
    obtain ⟨hh2, hstep, hrest⟩ := loopM_cons _ _ _ _ _ hl
    unfold cloneCell at hstep
    split at hstep
    · rename_i val hv
      cases hcl : cl hh val with
      | none => simp [hcl] at hstep
      | some r =>
        obtain ⟨hh1, c1⟩ := r
        simp only [hcl] at hstep
        obtain ⟨ext1, he1⟩ := (IH hh val hh1 c1 hs hcl).pre
        have hres1 := (IH hh val hh1 c1 hs hcl).res
        have hsep1 := (IH hh val hh1 c1 hs hcl).sep
        obtain ⟨ext, he⟩ := hpre
        obtain ⟨cells, hcells⟩ := harr
        have hrl : res < hh.length := (List.getElem?_eq_some.mp hcells).1
        have hlen : h.length ≤ hh.length := by rw [he]; simp
        have hlen1 : hh.length ≤ hh1.length := by rw [he1]; simp
        obtain ⟨cells1, hc1, hpush⟩ := push_eq hstep
        have hsepA : Sep (hh1 ++ [Object.reference c1]) h.length := by
          apply sep_alloc
          · rw [he1]
            apply sep_append hlen hsep
            rw [← he1]
            exact hsep1
          · intro y hy
            simp only [Object.succs, List.mem_singleton] at hy
            subst hy
            exact res_transfer hlen hlen1 hres1
        have hresA : (hh1 ++ [Object.reference c1])[res]? = some (Object.array cells1) := by
          rw [List.getElem?_append_left (by omega)]
          exact hc1
        have hsep2 : Sep hh2 h.length := by
          rw [hpush]
          have hk : (Object.array (cells1 ++ [hh1.length])).inPlace =
              (Object.array cells1).inPlace := rfl
          apply sep_set hresA hk hsepA
          intro y hy
          simp only [Object.succs, List.mem_append, List.mem_singleton] at hy
          rcases hy with hy | hy
          · exact hsepA res _ hres hresA y hy
          · exact Or.inl (by omega)
        have hpre2 : ∃ ext2, hh2 = h ++ ext2 := by
          rw [hpush, he1, he, List.append_assoc, List.append_assoc,
            List.set_append_right _ _ hres]
          exact ⟨_, rfl⟩
        have harr2 : ∃ cells2, hh2[res]? = some (Object.array cells2) := by
          rw [hpush]
          refine ⟨_, List.getElem?_set_self ?_⟩
          simp
          omega
        have hs2 : hasStatics hh2 = true := by
          rw [hpush]
          apply hasStatics_set _ (by omega)
          apply hasStatics_append
          rw [he1]
          exact hasStatics_append hs
        exact cloneCells_inv cl IH h res hres h3 vs hh2 h1 hs2 hpre2 harr2 hsep2 hrest
    · simp at hstep

/-- The loop of the table `clone` keeps the objects below `h.length`, leaves
the object at `res` alone and keeps new cells apart from old ones. -/
theorem cloneEntries_inv (cl : Heap → Nat → Option (Heap × Nat))
    (IH : ∀ h p h1 c, hasStatics h = true → cl h p = some (h1, c) → CloneInv h h1 c)
    (h : Heap) (res : Nat) (o : Object) :
    ∀ (es : List (Nat × Nat)) (hh h1 : Heap), hasStatics hh = true →
      (∃ ext, hh = h ++ ext) → hh[res]? = some o →
      Sep hh h.length → loopM (cloneEntry cl) hh es = some h1 →
      (∃ ext, h1 = h ++ ext) ∧ h1[res]? = some o ∧ Sep h1 h.length
  | [], hh, h1, _, hpre, hres, hsep, hl => by
    simp only [loopM, Option.some.injEq] at hl
    subst hl
    exact ⟨hpre, hres, hsep⟩
  | v :: vs, hh, h1, hs, hpre, hres, hsep, hl => by
    obtain ⟨hh3, hstep, hrest⟩ := loopM_cons _ _ _ _ _ hl
    unfold cloneEntry at hstep
    cases hk : cl hh v.1 with
    | none => simp [hk] at hstep
    | some r1 =>
      obtain ⟨hh1, kc⟩ := r1
      simp only [hk] at hstep
      cases hc : cl hh1 v.2 with
      | none => simp [hc] at hstep
      | some r2 =>
        obtain ⟨hh2, cc⟩ := r2
        simp only [hc, alloc, Option.some.injEq] at hstep
        obtain ⟨ext, he⟩ := hpre
        obtain ⟨ext1, he1⟩ := (IH hh v.1 hh1 kc hs hk).pre
        have hsep1 := (IH hh v.1 hh1 kc hs hk).sep
        have hs1 : hasStatics hh1 = true := by rw [he1]; exact hasStatics_append hs
        obtain ⟨ext2, he2⟩ := (IH hh1 v.2 hh2 cc hs1 hc).pre
        have hres2 := (IH hh1 v.2 hh2 cc hs1 hc).res
        have hsep2 := (IH hh1 v.2 hh2 cc hs1 hc).sep
        have hlen : h.length ≤ hh.length := by rw [he]; simp
        have hlen1 : hh.length ≤ hh1.length := by rw [he1]; simp
        have hlen2 : hh1.length ≤ hh2.length := by rw [he2]; simp
        have hrl : res < hh.length := (List.getElem?_eq_some.mp hres).1
        have hsepB : Sep hh2 h.length := by
          rw [he2]
          apply sep_append (by omega)
          · rw [he1]
            apply sep_append hlen hsep
            rw [← he1]
            exact hsep1
          · rw [← he2]
            exact hsep2
        have hsep3 : Sep hh3 h.length := by
          rw [← hstep]
          apply sep_alloc hsepB
          intro y hy
          simp only [Object.succs, List.mem_singleton] at hy
          subst hy
          exact res_transfer (by omega) hlen2 hres2
        have hpre3 : ∃ ext3, hh3 = h ++ ext3 := by
          rw [← hstep, he2, he1, he, List.append_assoc, List.append_assoc,
            List.append_assoc]
          exact ⟨_, rfl⟩
        have hres3 : hh3[res]? = some o := by
          rw [← hstep, List.getElem?_append_left (by omega), he2,
            List.getElem?_append_left (by omega), he1, List.getElem?_append_left hrl]
          exact hres
        have hs3 : hasStatics hh3 = true := by
          rw [← hstep]
          apply hasStatics_append
          rw [he2]
          exact hasStatics_append hs1
        exact cloneEntries_inv cl IH h res o vs hh3 h1 hs3 hpre3 hres3 hsep3 hrest

theorem cloneInv_alloc (h : Heap) (o : Object) (h1 : Heap) (c : Nat)
    (ha : alloc h o = (h1, c)) (ho : o.succs = []) : CloneInv h h1 c := by
  simp only [alloc, Prod.mk.injEq] at ha
  obtain ⟨rfl, rfl⟩ := ha
  refine ⟨⟨[o], rfl⟩, Or.inl (Nat.le_refl _), ?_⟩
  apply sep_alloc (sep_self h)
  intro y hy
  rw [ho] at hy
  simp at hy

theorem cloneInv_static (h : Heap) (c : Nat) (o : Object) (hc : h[c]? = some o)
    (ho : o.inPlace = false) : CloneInv h h c := by
  refine ⟨⟨[], by simp⟩, Or.inr ?_, sep_self h⟩
  rintro ⟨o1, h1, h2⟩
  rw [hc] at h1
  cases h1
  rw [ho] at h2
  cases h2

/-- `clone` keeps every object of the heap it starts from, and what the
clone owns through arrays is new. -/
theorem clone_inv : ∀ (n : Nat) (h : Heap) (p : Nat) (h1 : Heap) (c : Nat),
    hasStatics h = true → clone n h p = some (h1, c) → CloneInv h h1 c
  | 0, _, _, _, _, _, hcl => by simp [clone] at hcl
  | n + 1, h, p, h1, c, hs, hcl => by
    have h3 := hasStatics_length hs
    have hst := (hasStatics_iff h).mp hs
    rw [clone] at hcl
    split at hcl
    · simp at hcl
    · simp only [Option.some.injEq, Prod.mk.injEq] at hcl
      obtain ⟨rfl, rfl⟩ := hcl
      exact cloneInv_static h _ _ hst.1 rfl
    · rename_i v _
      simp only [Option.some.injEq, Prod.mk.injEq] at hcl
      obtain ⟨rfl, rfl⟩ := hcl
      cases v
      · exact cloneInv_static h _ _ hst.2.2 rfl
      · exact cloneInv_static h _ _ hst.2.1 rfl
    · simp only [Option.some.injEq] at hcl
      exact cloneInv_alloc h _ h1 c hcl rfl
    · simp only [Option.some.injEq] at hcl
      exact cloneInv_alloc h _ h1 c hcl rfl
    · rename_i es _
      simp only [alloc] at hcl
      split at hcl
      · rename_i hh hloop
        simp only [Option.some.injEq, Prod.mk.injEq] at hcl
        obtain ⟨rfl, rfl⟩ := hcl
        have hinit : Sep (h ++ [Object.table []]) h.length :=
          sep_alloc (sep_self h) (by intro y hy; simp [Object.succs] at hy)
        obtain ⟨⟨ext, he⟩, hres, hsep⟩ := cloneEntries_inv (clone n)
          (fun h p h1 c => clone_inv n h p h1 c) h h.length (Object.table []) es
          (h ++ [Object.table []]) hh (hasStatics_append hs) ⟨_, rfl⟩
          (List.getElem?_concat_length h _) hinit hloop
        refine ⟨?_, Or.inl (Nat.le_refl _), ?_⟩
        · rw [he, List.set_append_right _ _ (Nat.le_refl _)]
          exact ⟨_, rfl⟩
        · have hk : (Object.table es).inPlace = (Object.table []).inPlace := rfl
          apply sep_set hres hk hsep
          intro y hy
          simp [Object.succs] at hy
      · simp at hcl
    · rename_i cs _
      simp only [alloc] at hcl
      split at hcl
      · rename_i hh hloop
        simp only [Option.some.injEq, Prod.mk.injEq] at hcl
        obtain ⟨rfl, rfl⟩ := hcl
        have hinit : Sep (h ++ [Object.array []]) h.length :=
          sep_alloc (sep_self h) (by intro y hy; simp [Object.succs] at hy)
        obtain ⟨hpre, hsep⟩ := cloneCells_inv (clone n)
          (fun h p h1 c => clone_inv n h p h1 c) h h.length (Nat.le_refl _) h3 cs
          (h ++ [Object.array []]) hh (hasStatics_append hs) ⟨_, rfl⟩
          ⟨_, List.getElem?_concat_length h _⟩ hinit hloop
        exact ⟨hpre, Or.inl (Nat.le_refl _), hsep⟩
      · simp at hcl
    · rename_i v _
      split at hcl
      · rename_i hh c1 hc1
        simp only [alloc, Option.some.injEq, Prod.mk.injEq] at hcl
        obtain ⟨rfl, rfl⟩ := hcl
        have ih := clone_inv n h v hh c1 hs hc1
        obtain ⟨ext, he⟩ := ih.pre
        have hlen : h.length ≤ hh.length := by rw [he]; simp
        refine ⟨?_, Or.inl hlen, ?_⟩
        · rw [he, List.append_assoc]
          exact ⟨_, rfl⟩
        · apply sep_alloc ih.sep
          intro y hy
          simp only [Object.succs, List.mem_singleton] at hy
          subst hy
          exact res_transfer (Nat.le_refl _) hlen ih.res
      · simp at hcl
    · simp only [Option.some.injEq] at hcl
      exact cloneInv_alloc h _ h1 c hcl rfl
    · simp only [Option.some.injEq] at hcl
      exact cloneInv_alloc h _ h1 c hcl rfl
    · simp only [Option.some.injEq] at hcl
      exact cloneInv_alloc h _ h1 c hcl rfl
    · simp only [Option.some.injEq] at hcl
      exact cloneInv_alloc h _ h1 c hcl rfl

end Mem


namespace Mem

theorem Agree.refl (h : Heap) : Agree h h := fun _ _ hx => hx

theorem Agree.trans {h h1 h2 : Heap} (a : Agree h h1) (b : Agree h1 h2) : Agree h h2 :=
  fun x o hx => b x o (a x o hx)

theorem agree_append (h e : Heap) : Agree h (h ++ e) := by
  intro x o hx
  rw [List.getElem?_append_left (List.getElem?_eq_some.mp hx).1]
  exact hx

theorem agree_set {h hA : Heap} {q : Nat} (o : Object) (a : Agree h hA)
    (hq : h.length ≤ q) : Agree h (hA.set q o) := by
  intro x o1 hx
  have hlt := (List.getElem?_eq_some.mp hx).1
  have hne : q ≠ x := by omega
  rw [List.getElem?_set_ne hne]
  exact a x o1 hx

theorem agree_of_pre {h h1 : Heap} (hp : ∃ ext, h1 = h ++ ext) : Agree h h1 := by
  obtain ⟨ext, rfl⟩ := hp
  exact agree_append h ext

theorem agree_set_value {h h1 h2 : Heap} {q v : Nat} (a : Agree h h1)
    (hq : h.length ≤ q) (hm : set_value h1 q v = some h2) : Agree h h2 := by
  unfold set_value at hm
  split at hm
  · simp only [Option.some.injEq] at hm
    rw [← hm]
    exact agree_set _ a hq
  · simp at hm

theorem agree_push {h h1 h2 : Heap} {q v : Nat} (a : Agree h h1)
    (hq : h.length ≤ q) (hm : push h1 q v = some h2) : Agree h h2 := by
  obtain ⟨cs, _, rfl⟩ := push_eq hm
  exact agree_set _ (a.trans (agree_append _ _)) hq

theorem readAll_mono {rd rd2 : Nat → Option Obj} (hrd : ∀ p u, rd p = some u → rd2 p = some u) :
    ∀ (ps : List Nat) (us : List Obj), readAll rd ps = some us → readAll rd2 ps = some us
  | [], us, hr => by simpa [readAll] using hr
  | p :: ps, us, hr => by
    rw [readAll] at hr
    cases h1 : rd p with
    | none => simp [h1] at hr
    | some o =>
      cases h2 : readAll rd ps with
      | none => simp [h1, h2] at hr
      | some os =>
        rw [readAll, hrd p o h1, readAll_mono hrd ps os h2]
        simpa [h1, h2] using hr

theorem readEntries_mono {rd rd2 : Nat → Option Obj}
    (hrd : ∀ p u, rd p = some u → rd2 p = some u) :
    ∀ (es : List (Nat × Nat)) (us : List (Obj × Obj)),
      readEntries rd es = some us → readEntries rd2 es = some us
  | [], us, hr => by simpa [readEntries] using hr
  | (k, c) :: es, us, hr => by
    rw [readEntries] at hr
    cases h1 : rd k with
    | none => simp [h1] at hr
    | some ko =>
      cases h2 : rd c with
      | none => simp [h1, h2] at hr
      | some co =>
        cases h3 : readEntries rd es with
        | none => simp [h1, h2, h3] at hr
        | some os =>
          rw [readEntries, hrd k ko h1, hrd c co h2, readEntries_mono hrd es os h3]
          simpa [h1, h2, h3] using hr

theorem readCell_mono {h h2 : Heap} {rd rd2 : Nat → Option Obj} (a : Agree h h2)
    (hrd : ∀ p u, rd p = some u → rd2 p = some u) (c : Nat) (u : Obj)
    (hr : readCell h rd c = some u) : readCell h2 rd2 c = some u := by
  unfold readCell at hr ⊢
  split at hr
  · rename_i v hv
    rw [a c _ hv]
    exact hrd v u hr
  · simp at hr

/-- A value read from a heap is read unchanged from every heap that keeps
the objects of the first. -/
theorem read_agree {h h2 : Heap} (a : Agree h h2) :
    ∀ (k p : Nat) (u : Obj), read k h p = some u → read k h2 p = some u
  | 0, _, _, hr => by simp [read] at hr
  | k + 1, p, u, hr => by
    rw [read] at hr
    rw [read]
    cases hp : h[p]? with
    | none => simp [hp] at hr
    | some o =>
      rw [a p o hp]
      rw [hp] at hr
      cases o with
      | table es =>
        simp only [Option.map_eq_some'] at hr ⊢
        obtain ⟨us, h1, h2⟩ := hr
        exact ⟨us, readEntries_mono (read_agree a k) es us h1, h2⟩
      | array cs =>
        simp only [Option.map_eq_some'] at hr ⊢
        obtain ⟨us, h1, h2⟩ := hr
        exact ⟨us, readAll_mono (readCell_mono a (read_agree a k)) cs us h1, h2⟩
      | reference v =>
        simp only [Option.map_eq_some'] at hr ⊢
        obtain ⟨t, h1, h2⟩ := hr
        exact ⟨t, read_agree a k v t h1, h2⟩
      | ret v =>
        simp only [Option.map_eq_some'] at hr ⊢
        obtain ⟨t, h1, h2⟩ := hr
        exact ⟨t, read_agree a k v t h1, h2⟩
      | cont_call ob e =>
        simp only [Option.map_eq_some'] at hr ⊢
        obtain ⟨t, h1, h2⟩ := hr
        exact ⟨t, read_agree a k ob t h1, h2⟩
      | _ => exact hr

/-- An array or Reference cell owned through arrays by an address that is
new, or that holds neither, is new. -/
theorem owns_fresh {h : Heap} {b : Nat} (hsep : Sep h b) {c q : Nat} (ho : Owns h c q) :
    (b ≤ c ∨ ¬ Mutable h c) → Mutable h q → b ≤ q := by
  induction ho with
  | here p =>
    intro hc hm
    rcases hc with hc | hc
    · exact hc
    · exact absurd hm hc
  | cell p q r cs hp hq _ ih =>
    intro hc hm
    have hb : b ≤ p := by
      rcases hc with hc | hc
      · exact hc
      · exact absurd ⟨_, hp, rfl⟩ hc
    exact ih (hsep p _ hb hp q hq) hm
  | held p v r hp _ ih =>
    intro hc hm
    have hb : b ≤ p := by
      rcases hc with hc | hc
      · exact hc
      · exact absurd ⟨_, hp, rfl⟩ hc
    exact ih (hsep p _ hb hp v (by simp [Object.succs])) hm

theorem mutable_of_set_value {h h2 : Heap} {q v : Nat} (hm : set_value h q v = some h2) :
    Mutable h q := by
  unfold set_value at hm
  split at hm
  · rename_i w hw
    exact ⟨_, hw, rfl⟩
  · simp at hm

theorem mutable_of_push {h h2 : Heap} {q v : Nat} (hm : push h q v = some h2) :
    Mutable h q := by
  obtain ⟨cs, hcs, _⟩ := push_eq hm
  exact ⟨_, hcs, rfl⟩

end Mem


namespace Mem

theorem hasStatics_of_clone {n : Nat} {h h1 : Heap} {p c : Nat} (hs : hasStatics h = true)
    (hc : clone n h p = some (h1, c)) : hasStatics h1 = true := by
  obtain ⟨ext, rfl⟩ := (clone_inv n h p h1 c hs hc).pre
  exact hasStatics_append hs

/-- The loop of the array `clone` returns when every cell reads. -/
theorem cloneCells_total (n : Nat)
    (IH : ∀ (h : Heap) (p : Nat) (t : Obj), hasStatics h = true → read n h p = some t →
      ∃ r, clone n h p = some r)
    (h : Heap) (res : Nat) (hres : h.length ≤ res) (h3 : 3 ≤ h.length) :
    ∀ (cs : List Nat) (ts : List Obj) (hh : Heap), hasStatics hh = true → Agree h hh →
      (∃ cells, hh[res]? = some (Object.array cells)) →
      readAll (readCell h (read n h)) cs = some ts →
      ∃ h1, loopM (cloneCell (clone n) res) hh cs = some h1
  | [], _, hh, _, _, _, _ => ⟨hh, rfl⟩
  | v :: vs, ts, hh, hs, ha, harr, hr => by
    rw [readAll] at hr
    cases h1 : readCell h (read n h) v with
    | none => simp [h1] at hr
    | some u =>
      cases h2 : readAll (readCell h (read n h)) vs with
      | none => simp [h1, h2] at hr
      | some us =>
        unfold readCell at h1
        split at h1
        · rename_i val hv
          have hv2 := ha v _ hv
          obtain ⟨⟨hh1, c1⟩, hc⟩ := IH hh val u hs (read_agree ha n val u h1)
          have inv := clone_inv n hh val hh1 c1 hs hc
          obtain ⟨cells, hcells⟩ := harr
          have a1 : Agree hh hh1 := agree_of_pre inv.pre
          have hcells1 := a1 res _ hcells
          have hpush : push hh1 res c1 =
              some ((hh1 ++ [Object.reference c1]).set res
                (Object.array (cells ++ [hh1.length]))) := by
            simp [push, hcells1, alloc]
          have hlt : res < hh1.length := (List.getElem?_eq_some.mp hcells1).1
          have hs2 : hasStatics ((hh1 ++ [Object.reference c1]).set res
              (Object.array (cells ++ [hh1.length]))) = true :=
            hasStatics_set (hasStatics_append (hasStatics_of_clone hs hc)) (by omega)
          have ha2 : Agree h ((hh1 ++ [Object.reference c1]).set res
              (Object.array (cells ++ [hh1.length]))) :=
            agree_set _ ((ha.trans a1).trans (agree_append _ _)) hres
          have harr2 : ∃ cells2, ((hh1 ++ [Object.reference c1]).set res
              (Object.array (cells ++ [hh1.length])))[res]? = some (Object.array cells2) :=
            ⟨_, List.getElem?_set_self (by simp; omega)⟩
          obtain ⟨hf, hfl⟩ := cloneCells_total n IH h res hres h3 vs us _ hs2 ha2 harr2 h2
          refine ⟨hf, ?_⟩
          rw [loopM]
          simp only [cloneCell, hv2, hc, hpush]
          exact hfl
        · simp at h1

/-- The loop of the table `clone` returns when every key and cell reads. -/
theorem cloneEntries_total (n : Nat)
    (IH : ∀ (h : Heap) (p : Nat) (t : Obj), hasStatics h = true → read n h p = some t →
      ∃ r, clone n h p = some r)
    (h : Heap) :
    ∀ (es : List (Nat × Nat)) (ts : List (Obj × Obj)) (hh : Heap), hasStatics hh = true →
      Agree h hh → readEntries (read n h) es = some ts →
      ∃ h1, loopM (cloneEntry (clone n)) hh es = some h1
  | [], _, hh, _, _, _ => ⟨hh, rfl⟩
  | (k, c) :: es, ts, hh, hs, ha, hr => by
    rw [readEntries] at hr
    cases h1 : read n h k with
    | none => simp [h1] at hr
    | some ko =>
      cases h2 : read n h c with
      | none => simp [h1, h2] at hr
      | some co =>
        cases h3 : readEntries (read n h) es with
        | none => simp [h1, h2, h3] at hr
        | some os =>
          obtain ⟨⟨hh1, kc⟩, hk⟩ := IH hh k ko hs (read_agree ha n k ko h1)
          have inv1 := clone_inv n hh k hh1 kc hs hk
          have a1 : Agree hh hh1 := agree_of_pre inv1.pre
          have hs1 := hasStatics_of_clone hs hk
          obtain ⟨⟨hh2, cc⟩, hc⟩ := IH hh1 c co hs1 (read_agree (ha.trans a1) n c co h2)
          have inv2 := clone_inv n hh1 c hh2 cc hs1 hc
          have a2 : Agree hh1 hh2 := agree_of_pre inv2.pre
          have hs2 := hasStatics_of_clone hs1 hc
          have hs3 : hasStatics (hh2 ++ [Object.reference cc]) = true := hasStatics_append hs2
          have ha3 : Agree h (hh2 ++ [Object.reference cc]) :=
            ((ha.trans a1).trans a2).trans (agree_append _ _)
          obtain ⟨hf, hfl⟩ := cloneEntries_total n IH h es os _ hs3 ha3 h3
          refine ⟨hf, ?_⟩
          rw [loopM]
          simp only [cloneEntry, hk, hc, alloc]
          exact hfl

/-- `clone` returns on every object that reads as a tree, within the depth
at which it reads. -/
theorem clone_total : ∀ (n : Nat) (h : Heap) (p : Nat) (t : Obj), hasStatics h = true →
    read n h p = some t → ∃ r, clone n h p = some r
  | 0, _, _, _, _, hr => by simp [read] at hr
  | n + 1, h, p, t, hs, hr => by
    have h3 := hasStatics_length hs
    rw [read] at hr
    rw [clone]
    cases hp : h[p]? with
    | none => simp [hp] at hr
    | some o =>
      rw [hp] at hr
      cases o with
      | table es =>
        simp only [Option.map_eq_some'] at hr
        obtain ⟨us, h1, _⟩ := hr
        obtain ⟨hf, hfl⟩ := cloneEntries_total n (clone_total n) h es us
          (h ++ [Object.table []]) (hasStatics_append hs) (agree_append _ _) h1
        simp only [alloc, hfl]
        exact ⟨_, rfl⟩
      | array cs =>
        simp only [Option.map_eq_some'] at hr
        obtain ⟨us, h1, _⟩ := hr
        obtain ⟨hf, hfl⟩ := cloneCells_total n (clone_total n) h h.length (Nat.le_refl _) h3
          cs us (h ++ [Object.array []]) (hasStatics_append hs) (agree_append _ _)
          ⟨_, List.getElem?_concat_length h _⟩ h1
        simp only [alloc, hfl]
        exact ⟨_, rfl⟩
      | reference v =>
        simp only [Option.map_eq_some'] at hr
        obtain ⟨u, h1, _⟩ := hr
        obtain ⟨⟨hh, c⟩, hc⟩ := clone_total n h v u hs h1
        simp only [hc]
        exact ⟨_, rfl⟩
      | _ => exact ⟨_, rfl⟩

end Mem


namespace Mem

/-- The loop of the array `clone` appends one cell per cell of the
original. -/
theorem cloneCells_size (n : Nat) (res : Nat) (h3 : 3 ≤ res) :
    ∀ (cs : List Nat) (hh h1 : Heap) (cells : List Nat), hasStatics hh = true →
      hh[res]? = some (Object.array cells) →
      loopM (cloneCell (clone n) res) hh cs = some h1 →
      ∃ cells1, h1[res]? = some (Object.array cells1) ∧
        cells1.length = cells.length + cs.length
  | [], hh, h1, cells, _, harr, hl => by
    simp only [loopM, Option.some.injEq] at hl
    subst hl
    exact ⟨cells, harr, by simp⟩
  | v :: vs, hh, h1, cells, hs, harr, hl => by
    obtain ⟨hh2, hstep, hrest⟩ := loopM_cons _ _ _ _ _ hl
    unfold cloneCell at hstep
    split at hstep
    · rename_i val hv
      cases hcl : clone n hh val with
      | none => simp [hcl] at hstep
      | some r =>
        obtain ⟨hh1, c1⟩ := r
        simp only [hcl] at hstep
        have a1 : Agree hh hh1 := agree_of_pre (clone_inv n hh val hh1 c1 hs hcl).pre
        have hcells1 := a1 res _ harr
        obtain ⟨cells1, hc1, hpush⟩ := push_eq hstep
        rw [hcells1] at hc1
        cases hc1
        have hlt : res < hh1.length := (List.getElem?_eq_some.mp hcells1).1
        have harr2 : hh2[res]? = some (Object.array (cells ++ [hh1.length])) := by
          rw [hpush]
          exact List.getElem?_set_self (by simp; omega)
        have hs2 : hasStatics hh2 = true := by
          rw [hpush]
          exact hasStatics_set (hasStatics_append (hasStatics_of_clone hs hcl)) h3
        obtain ⟨cells2, hc2, hlen⟩ := cloneCells_size n res h3 vs hh2 h1 _ hs2 harr2 hrest
        refine ⟨cells2, hc2, ?_⟩
        rw [hlen]
        simp
        omega
    · simp at hstep

/-- The clone of an array is a new array with as many cells. -/
theorem clone_array_size (n : Nat) (h : Heap) (a : Nat) (cs : List Nat) (h1 : Heap) (c : Nat)
    (hs : hasStatics h = true) (ha : h[a]? = some (Object.array cs))
    (hc : clone n h a = some (h1, c)) :
    h.length ≤ c ∧ ∃ cs1, h1[c]? = some (Object.array cs1) ∧ cs1.length = cs.length := by
  cases n with
  | zero => simp [clone] at hc
  | succ n =>
    have h3 := hasStatics_length hs
    rw [clone, ha] at hc
    simp only [alloc] at hc
    split at hc
    · rename_i hh hloop
      simp only [Option.some.injEq, Prod.mk.injEq] at hc
      obtain ⟨rfl, rfl⟩ := hc
      obtain ⟨cells1, hc1, hlen⟩ := cloneCells_size n h.length h3 cs _ hh []
        (hasStatics_append hs) (List.getElem?_concat_length h _) hloop
      exact ⟨Nat.le_refl _, cells1, hc1, by simpa using hlen⟩
    · simp at hc

/-- C3, at a failing input: on the heap that holds the table `{1: 2}`,
`clone` answers a new table whose entry for the key `1` has the very cell
of the original (address 5).  Replacing what that cell holds by `3`, as an
index assignment on the clone does, changes what the lookup of `1` in the
original reads: the cell holding `2` before, the cell holding `3`
after. -/
theorem table_clone_shares_cells :
    ∃ h1 c h2,
      clone 3 tableHeap 6 = some (h1, c) ∧ c = 8 ∧
      table_at gnuHash 2 h1 c 3 = some 5 ∧
      table_at gnuHash 2 tableHeap 6 3 = some 5 ∧
      set_value h1 5 7 = some h2 ∧
      read 2 tableHeap 5 = some (Obj.reference (Obj.integer 2)) ∧
      table_at gnuHash 2 h2 6 3 = some 5 ∧
      read 2 h2 5 = some (Obj.reference (Obj.integer 3)) :=
  ⟨_, _, _, rfl, rfl, rfl, rfl, rfl, rfl, rfl, rfl⟩

/-- C4: on a heap that holds the static instances, let `a` be an array.
`clone` returns on `a` whenever `a` reads as a tree within the depth `n`;
and whenever it returns, the clone is a new array with as many cells, all
of which it owns, and after replacing what is held by any Reference cell
the clone owns through arrays (its own cells, and those of arrays it holds,
at every depth), or pushing onto any such array, the size of `a`, every
`a.at(i)` and every value that could be read from the heap before the
clone are as they were. -/
theorem array_clone_frame (n : Nat) (h : Heap) (a : Nat) (cs : List Nat)
    (hs : hasStatics h = true) (ha : h[a]? = some (Object.array cs)) :
    (∀ t, read n h a = some t → ∃ r, clone n h a = some r) ∧
    ∀ h1 c, clone n h a = some (h1, c) →
      h.length ≤ c ∧
      (∃ cs1, h1[c]? = some (Object.array cs1) ∧ cs1.length = cs.length ∧
        ∀ q ∈ cs1, Owns h1 c q) ∧
      ∀ q v h2, Owns h1 c q → (set_value h1 q v = some h2 ∨ push h1 q v = some h2) →
        array_size h2 a = some cs.length ∧
        (∀ i, array_at h2 a i = array_at h a i) ∧
        (∀ k p u, read k h p = some u → read k h2 p = some u) := by
  refine ⟨fun t hr => clone_total n h a t hs hr, ?_⟩
  intro h1 c hc
  have inv := clone_inv n h a h1 c hs hc
  obtain ⟨hfresh, cs1, hcs1, hlen⟩ := clone_array_size n h a cs h1 c hs ha hc
  refine ⟨hfresh, ⟨cs1, hcs1, hlen, fun q hq => Owns.cell c q q cs1 hcs1 hq (Owns.here q)⟩, ?_⟩
  intro q v h2 ho hm
  have a1 : Agree h h1 := agree_of_pre inv.pre
  have hq : h.length ≤ q := by
    rcases hm with hm | hm
    · exact owns_fresh inv.sep ho inv.res (mutable_of_set_value hm)
    · exact owns_fresh inv.sep ho inv.res (mutable_of_push hm)
  have a2 : Agree h h2 := by
    rcases hm with hm | hm
    · exact agree_set_value a1 hq hm
    · exact agree_push a1 hq hm
  have ha2 := a2 a _ ha
  refine ⟨?_, ?_, fun k p u hu => read_agree a2 k p u hu⟩
  · simp [array_size, ha2]
  · intro i
    simp [array_at, ha2, ha]

/-- A use of `array_clone_frame`: the array `[[1]]` at address 7 of
`arrayHeap` is cloned with depth 4; the cell of the inner array of the
clone (address 11) is given the `Null` instance to hold; the clone then
reads `[[null]]` and the original still reads `[[1]]`. -/
theorem array_clone_frame_witness :
    clone 4 arrayHeap 7 = some (arrayHeapCloned, 8) ∧
      Owns arrayHeapCloned 8 11 ∧
      set_value arrayHeapCloned 11 0 = some arrayHeapAssigned ∧
      read 4 arrayHeapAssigned 8 = some (Obj.array [Obj.array [Obj.null]]) ∧
      read 4 arrayHeapAssigned 7 = some (Obj.array [Obj.array [Obj.integer 1]]) :=
  have ho : Owns arrayHeapCloned 8 11 :=
    Owns.cell 8 12 11 [12] rfl (by simp)
      (Owns.held 12 9 11 rfl (Owns.cell 9 11 11 [11] rfl (by simp) (Owns.here 11)))
  ⟨rfl, ho, rfl, rfl,
    (((array_clone_frame 4 arrayHeap 7 [6] rfl rfl).2 arrayHeapCloned 8 rfl).2.2
      11 0 arrayHeapAssigned ho (Or.inl rfl)).2.2 4 7 _ rfl⟩

end Mem


/-! ## The merge of two tables -/

namespace Mem

/-- The clone of a table is a new table object with the entries of the
original. -/
theorem clone_table_shape (n : Nat) (h : Heap) (p : Nat) (es : List (Nat × Nat)) (h1 : Heap)
    (c : Nat) (hs : hasStatics h = true) (hp : h[p]? = some (Object.table es))
    (hc : clone n h p = some (h1, c)) :
    c = h.length ∧ h1[c]? = some (Object.table es) := by
  cases n with
  | zero => simp [clone] at hc
  | succ n =>
    rw [clone] at hc
    simp only [hp, alloc] at hc
    split at hc
    · rename_i hh hloop
      simp only [Option.some.injEq, Prod.mk.injEq] at hc
      obtain ⟨rfl, rfl⟩ := hc
      have hinit : Sep (h ++ [Object.table []]) h.length :=
        sep_alloc (sep_self h) (by intro y hy; simp [Object.succs] at hy)
      obtain ⟨_, hres, _⟩ := cloneEntries_inv (clone n)
        (fun h p h1 c => clone_inv n h p h1 c) h h.length (Object.table []) es
        (h ++ [Object.table []]) hh (hasStatics_append hs) ⟨_, rfl⟩
        (List.getElem?_concat_length h _) hinit hloop
      have hlt : h.length < hh.length := (List.getElem?_eq_some.mp hres).1
      exact ⟨rfl, List.getElem?_set_self hlt⟩
    · simp at hc

theorem findEntry_none (H : StdHash) (rd : Nat → Option Obj) (k : Obj) :
    ∀ es : List (Nat × Nat), findEntry H rd k es = some none →
      ∀ e ∈ es, ∀ so, rd e.1 = some so → keyMatch H k so = false
  | [], _, e, he, _, _ => by simp at he
  | (s, c) :: es, hf, e, he, so, hso => by
    rw [findEntry] at hf
    cases hs : rd s with
    | none => simp [hs] at hf
    | some t =>
      simp only [hs] at hf
      by_cases hm : keyMatch H k t = true
      · simp [hm] at hf
      · simp only [hm] at hf
        rcases List.mem_cons.mp he with rfl | he
        · rw [hs] at hso
          cases hso
          simpa using hm
        · exact findEntry_none H rd k es hf e he so hso

theorem findEntry_some (H : StdHash) (rd : Nat → Option Obj) (k : Obj) :
    ∀ (es : List (Nat × Nat)) (hit : Nat × Nat), findEntry H rd k es = some (some hit) →
      hit ∈ es ∧ ∃ so, rd hit.1 = some so ∧ keyMatch H k so = true
  | [], hit, hf => by simp [findEntry] at hf
  | (s, c) :: es, hit, hf => by
    rw [findEntry] at hf
    cases hs : rd s with
    | none => simp [hs] at hf
    | some t =>
      simp only [hs] at hf
      by_cases hm : keyMatch H k t = true
      · simp only [hm, if_true, Option.some.injEq] at hf
        subst hf
        exact ⟨List.mem_cons_self _ _, t, hs, hm⟩
      · simp only [hm] at hf
        obtain ⟨h1, h2⟩ := findEntry_some H rd k es hit hf
        exact ⟨List.mem_cons_of_mem _ h1, h2⟩

theorem findEntry_total (H : StdHash) (rd : Nat → Option Obj) (k : Obj) :
    ∀ es : List (Nat × Nat), (∀ e ∈ es, ∃ so, rd e.1 = some so) →
      ∃ r, findEntry H rd k es = some r
  | [], _ => ⟨none, rfl⟩
  | (s, c) :: es, h => by
    obtain ⟨so, hso⟩ := h (s, c) (List.mem_cons_self _ _)
    rw [findEntry]
    simp only [] at hso
    simp only [hso]
    by_cases hm : keyMatch H k so = true
    · exact ⟨some (s, c), by simp [hm]⟩
    · simp only [hm]
      exact findEntry_total H rd k es (fun e he => h e (List.mem_cons_of_mem _ he))

/-- What the loop of `insert` calls leaves: the entries it started from,
after the entries it added; an added entry is an entry of the right table
whose key matched no key of the map it started from; and every entry of the
right table was added or has a key that matches a key of the map. -/
theorem insertAll_spec (H : StdHash) (rd : Nat → Option Obj) :
    ∀ (rs es es1 : List (Nat × Nat)), insertAll H rd es rs = some es1 →
      ∃ added, es1 = added ++ es ∧ (∀ e ∈ added, e ∈ rs) ∧
        (∀ e ∈ added, ∀ k, rd e.1 = some k →
          ∀ l ∈ es, ∀ lk, rd l.1 = some lk → keyMatch H k lk = false) ∧
        (∀ e ∈ rs, e ∈ added ∨
          ∃ hit ∈ es1, ∃ k so, rd e.1 = some k ∧ rd hit.1 = some so ∧ keyMatch H k so = true)
  | [], es, es1, h => by
    simp only [insertAll, Option.some.injEq] at h
    subst h
    exact ⟨[], rfl, by simp, by simp, by simp⟩
  | v :: vs, es, es1, h => by
    rw [insertAll] at h
    cases hi : mapInsert H rd es v with
    | none => simp [hi] at h
    | some es2 =>
      simp only [hi] at h
      obtain ⟨added, he, ha, hb, hc⟩ := insertAll_spec H rd vs es2 es1 h
      unfold mapInsert at hi
      cases hk : rd v.1 with
      | none => simp [hk] at hi
      | some k =>
        simp only [hk] at hi
        cases hf : findEntry H rd k es with
        | none => simp [hf] at hi
        | some r =>
          cases r with
          | some hit =>
            simp only [hf, Option.some.injEq] at hi
            subst hi
            obtain ⟨hmem, so, hso, hmatch⟩ := findEntry_some H rd k es hit hf
            refine ⟨added, he, fun e h1 => List.mem_cons_of_mem _ (ha e h1), hb, ?_⟩
            intro e hmem2
            rcases List.mem_cons.mp hmem2 with rfl | h2
            · refine Or.inr ⟨hit, ?_, k, so, hk, hso, hmatch⟩
              rw [he]
              exact List.mem_append_right _ hmem
            · exact hc e h2
          | none =>
            simp only [hf, Option.some.injEq] at hi
            subst hi
            refine ⟨added ++ [v], by rw [he]; simp, ?_, ?_, ?_⟩
            · intro e h1
              rcases List.mem_append.mp h1 with h1 | h1
              · exact List.mem_cons_of_mem _ (ha e h1)
              · simp only [List.mem_singleton] at h1
                subst h1
                exact List.mem_cons_self _ _
            · intro e h1 k2 hk2 l hl lk hlk
              rcases List.mem_append.mp h1 with h1 | h1
              · exact hb e h1 k2 hk2 l (List.mem_cons_of_mem _ hl) lk hlk
              · simp only [List.mem_singleton] at h1
                subst h1
                rw [hk] at hk2
                cases hk2
                exact findEntry_none H rd k es hf l hl lk hlk
            · intro e hmem2
              rcases List.mem_cons.mp hmem2 with rfl | h2
              · exact Or.inl (List.mem_append_right _ (List.mem_singleton_self _))
              · rcases hc e h2 with h3 | h3
                · exact Or.inl (List.mem_append_left _ h3)
                · exact Or.inr h3

/-- The loop of `insert` calls returns when every key reads. -/
theorem insertAll_total (H : StdHash) (rd : Nat → Option Obj) :
    ∀ (rs es : List (Nat × Nat)), (∀ e ∈ es, ∃ so, rd e.1 = some so) →
      (∀ e ∈ rs, ∃ so, rd e.1 = some so) → ∃ es1, insertAll H rd es rs = some es1
  | [], es, _, _ => ⟨es, rfl⟩
  | v :: vs, es, h1, h2 => by
    obtain ⟨k, hk⟩ := h2 v (List.mem_cons_self _ _)
    obtain ⟨r, hr⟩ := findEntry_total H rd k es h1
    have h3 : ∀ e ∈ vs, ∃ so, rd e.1 = some so := fun e he => h2 e (List.mem_cons_of_mem _ he)
    rw [insertAll]
    cases r with
    | some hit =>
      simp only [mapInsert, hk, hr]
      exact insertAll_total H rd vs es h1 h3
    | none =>
      simp only [mapInsert, hk, hr]
      apply insertAll_total H rd vs (v :: es) _ h3
      intro e he
      rcases List.mem_cons.mp he with rfl | he
      · exact ⟨k, hk⟩
      · exact h1 e he

end Mem


/-! ## Theorems on part 3 -/

namespace Rewriter

theorem height_le_heightList : ∀ (cs : List Node) (c : Node), c ∈ cs →
    c.height ≤ heightList cs
  | [], _, h => by simp at h
  | d :: ds, c, h => by
    rw [heightList]
    rcases List.mem_cons.mp h with h | h
    · subst h
      exact Nat.le_max_left _ _
    · exact Nat.le_trans (height_le_heightList ds c h) (Nat.le_max_right _ _)

theorem expanded_of_mem : ∀ (cs : List Node) (c : Node), expandedList cs = true → c ∈ cs →
    c.expanded = true
  | [], _, _, h => by simp at h
  | d :: ds, c, he, h => by
    simp only [expandedList, Bool.and_eq_true] at he
    rcases List.mem_cons.mp h with h | h
    · subst h
      exact he.1
    · exact expanded_of_mem ds c he.2 h

theorem height_child (node c : Node) (h : c ∈ node.children) : c.height < node.height := by
  cases node with
  | ident v => simp [Node.children] at h
  | null => simp [Node.children] at h
  | quote v =>
    simp only [Node.children, List.mem_singleton] at h
    subst h
    simp [Node.height]
  | mac ps b =>
    simp only [Node.children, List.mem_append, List.mem_singleton] at h
    simp only [Node.height]
    rcases h with h | h
    · have := height_le_heightList ps c h
      omega
    · subst h
      omega
  | call f ps =>
    simp only [Node.children, List.mem_cons] at h
    simp only [Node.height]
    rcases h with h | h
    · subst h
      omega
    · have := height_le_heightList ps c h
      omega
  | letStmt i v =>
    simp only [Node.children, List.mem_cons, List.mem_singleton, List.not_mem_nil,
      or_false] at h
    simp only [Node.height]
    rcases h with h | h <;> subst h <;> omega
  | list r xs =>
    simp only [Node.children] at h
    simp only [Node.height]
    have := height_le_heightList xs c h
    omega
  | other k cs =>
    simp only [Node.children] at h
    simp only [Node.height]
    have := height_le_heightList cs c h
    omega

theorem expanded_child (node c : Node) (he : node.expanded = true) (h : c ∈ node.children) :
    c.expanded = true := by
  cases node with
  | ident v => simp [Node.children] at h
  | null => simp [Node.children] at h
  | quote v =>
    simp only [Node.children, List.mem_singleton] at h
    subst h
    simpa [Node.expanded] using he
  | mac ps b =>
    simp only [Node.children, List.mem_append, List.mem_singleton] at h
    simp only [Node.expanded, Bool.and_eq_true] at he
    rcases h with h | h
    · exact expanded_of_mem ps c he.1 h
    · subst h
      exact he.2
  | call f ps =>
    simp only [Node.children, List.mem_cons] at h
    simp only [Node.expanded, Bool.and_eq_true] at he
    rcases h with h | h
    · subst h
      exact he.1.2
    · exact expanded_of_mem ps c he.2 h
  | letStmt i v =>
    simp only [Node.children, List.mem_cons, List.mem_singleton, List.not_mem_nil,
      or_false] at h
    simp only [Node.expanded, Bool.and_eq_true] at he
    rcases h with h | h
    · subst h
      exact he.1.2
    · subst h
      exact he.2
  | list r xs =>
    simp only [Node.children] at h
    simp only [Node.expanded] at he
    exact expanded_of_mem xs c he h
  | other k cs =>
    simp only [Node.children] at h
    simp only [Node.expanded] at he
    exact expanded_of_mem cs c he h

theorem walk_id (am : Node → Scope → Option (Node × Scope)) (s : Scope) :
    ∀ cs : List Node, (∀ c ∈ cs, am c s = some (c, s)) → walk am cs s = some (cs, s)
  | [], _ => rfl
  | c :: cs, h => by
    rw [walk, h c (List.mem_cons_self _ _)]
    simp only
    rw [walk_id am s cs (fun d hd => h d (List.mem_cons_of_mem _ hd))]

theorem mutate_id (am : Node → Scope → Option (Node × Scope)) (s : Scope) (node : Node)
    (h : ∀ c ∈ node.children, am c s = some (c, s)) : mutate am node s = some (node, s) := by
  cases node with
  | ident v => rfl
  | null => rfl
  | quote v =>
    rw [mutate, h v (by simp [Node.children])]
  | mac ps b =>
    rw [mutate, walk_id am s ps (fun c hc => h c (by simp [Node.children, hc]))]
    simp only
    rw [h b (by simp [Node.children])]
  | call f ps =>
    rw [mutate, h f (by simp [Node.children])]
    simp only
    rw [walk_id am s ps (fun c hc => h c (by simp [Node.children, hc]))]
  | letStmt i v =>
    rw [mutate, h i (by simp [Node.children])]
    simp only
    rw [h v (by simp [Node.children])]
  | list r xs =>
    rw [mutate, walk_id am s xs (fun c hc => h c (by simpa [Node.children] using hc))]
  | other k cs =>
    rw [mutate, walk_id am s cs (fun c hc => h c (by simpa [Node.children] using hc))]

theorem unbound_child {s : Scope} (h : s.unbound) : Scope.unbound ([] :: s) := by
  intro name
  simp only [Scope.get, List.lookup]
  exact h name

theorem unbound_root : Scope.unbound [[]] := by
  intro name
  simp [Scope.get, List.lookup]

end Rewriter


namespace Rewriter

theorem children_rewrite_id (n : Nat) (node : Node) (s : Scope) (he : node.expanded = true)
    (hn : 2 * node.height ≤ n)
    (ih : ∀ (c : Node) (s : Scope), c.expanded = true → s.unbound → 2 * c.height + 2 ≤ n →
      apply_mutator n c s = some (c, s))
    (hs : s.unbound) : mutate (apply_mutator n) node s = some (node, s) := by
  apply mutate_id
  intro c hc
  have := height_child node c hc
  exact ih c s (expanded_child node c he hc) hs (by omega)

/-- On a node in which nothing is left to expand, under a chain of scopes
that binds no name, the visitor returns `nullptr` and leaves the node as it
is, and the rewrite of a child slot leaves the child as it is, once the
bound on the depth is above twice the height of the node. -/
theorem rewrite_id : ∀ (n : Nat) (node : Node) (s : Scope), node.expanded = true → s.unbound →
    (2 * node.height + 1 ≤ n → macro_mutator n node s = some (Visit.keep node, s)) ∧
    (2 * node.height + 2 ≤ n → apply_mutator n node s = some (node, s))
  | 0, _, _, _, _ => ⟨fun h => by omega, fun h => by omega⟩
  | n + 1, node, s, he, hs => by
    have ih : ∀ (c : Node) (s : Scope), c.expanded = true → s.unbound → 2 * c.height + 2 ≤ n →
        apply_mutator n c s = some (c, s) :=
      fun c s hc hs hn => (rewrite_id n c s hc hs).2 hn
    have hmm : 2 * node.height + 1 ≤ n + 1 →
        macro_mutator (n + 1) node s = some (Visit.keep node, s) := by
      intro hn
      have hkids : ∀ s1 : Scope, s1.unbound →
          mutate (apply_mutator n) node s1 = some (node, s1) :=
        fun s1 h1 => children_rewrite_id n node s1 he (by omega) ih h1
      cases node with
      | ident v => simp [macro_mutator, hs v]
      | null => simp [macro_mutator, mutate]
      | quote v => simp [macro_mutator, hkids s hs]
      | mac ps b => simp [macro_mutator, hkids s hs]
      | call f ps =>
        simp only [Node.expanded, Bool.and_eq_true, bne_iff_ne, ne_eq] at he
        have hf : apply_mutator n f s = some (f, s) := by
          apply ih f s he.1.2 hs
          simp only [Node.height] at hn
          omega
        rw [macro_mutator, apply_macro, hf]
        cases f with
        | mac ps b => simp [Node.get_type] at he
        | _ => rfl
      | letStmt i v =>
        simp only [Node.expanded, Bool.and_eq_true, bne_iff_ne, ne_eq] at he
        simp [macro_mutator, he.1.1]
      | list r xs =>
        cases r with
        | false => simp [macro_mutator]
        | true => simp [macro_mutator, hkids _ (unbound_child hs), Scope.leave]
      | other k cs => simp [macro_mutator, hkids s hs]
    refine ⟨hmm, ?_⟩
    intro hn
    rw [apply_mutator, (rewrite_id n node s he hs).1 (by omega)]
    exact children_rewrite_id n node s he (by omega) ih hs

/-- `process` leaves an AST in which nothing is left to expand as it is. -/
theorem process_id (fuel : Nat) (node : Node) (errors : List String)
    (he : node.expanded = true) (hf : 2 * node.height ≤ fuel) :
    process fuel node errors = some (node, errors) := by
  have := children_rewrite_id fuel node [[]] he hf
    (fun c s hc hs hn => (rewrite_id fuel c s hc hs).2 hn) unbound_root
  simp [process, this]

/-- C10, refuted as stated: on `let m = macro(x) { x }; m(macro(y) { y }(1))`
the first run puts the argument, quoted and not rewritten, in place of `x`;
the second run finds the call of the macro literal inside the quote and
expands it, so its result differs from the result of the first run.
Likewise on `let m = macro(x) { x }; let a = m` the first run puts the
macro literal in place of `m`, and the second run takes the let for a
macro definition and replaces it by a Null literal. -/
theorem process_twice_differs :
    process 16 nestedCall [] = some (nestedCallOnce, []) ∧
      process 16 nestedCallOnce [] = some (nestedCallTwice, []) ∧
      nestedCallOnce ≠ nestedCallTwice ∧
      process 16 aliasLet [] = some (aliasLetOnce, []) ∧
      process 16 aliasLetOnce [] = some (aliasLetTwice, []) ∧
      aliasLetOnce ≠ aliasLetTwice := by
  refine ⟨rfl, rfl, ?_, rfl, rfl, ?_⟩
  · intro h
    simp [nestedCallOnce, nestedCallTwice] at h
  · intro h
    simp [aliasLetOnce, aliasLetTwice] at h

/-- C10, amended: when the result of a run of `process` has nothing left to
expand (no let that binds a macro literal, no call whose callee is a macro
literal), a second run, from an empty root scope and with a depth bound of
at least twice the height of that result, returns it unchanged. -/
theorem process_fixed_when_expanded (f1 f2 : Nat) (ast r : Node) (e e1 : List String)
    (hp : process f1 ast e = some (r, e1)) (hr : r.expanded = true)
    (hf : 2 * r.height ≤ f2) :
    process f2 r e1 = some (r, e1) := by
  have _ := hp
  exact process_id f2 r e1 hr hf

/-- A use of `process_fixed_when_expanded`: scenario 6 of the spec,
`let m = macro(x) { quote(x + x) }; m(3 + 1)`. -/
theorem process_fixed_when_expanded_witness :
    process 16 scenario6 [] = some (scenario6Expanded, []) ∧
      process 16 scenario6Expanded [] = some (scenario6Expanded, []) :=
  ⟨rfl, process_fixed_when_expanded 16 16 scenario6 scenario6Expanded [] [] rfl rfl
    (by decide)⟩

end Rewriter


namespace Rewriter

theorem sameParents_refl (s : Scope) : s.sameParents s := ⟨rfl, rfl⟩

theorem sameParents_trans {s s1 s2 : Scope} (a : s.sameParents s1) (b : s1.sameParents s2) :
    s.sameParents s2 :=
  ⟨b.1.trans a.1, b.2.trans a.2⟩

theorem sameParents_set (s : Scope) (name : String) (value : Node) :
    s.sameParents (s.set name value) := by
  cases s with
  | nil => exact ⟨rfl, rfl⟩
  | cons vs parents => exact ⟨rfl, rfl⟩

theorem sameParents_bindParams : ∀ (ps args : List Node) (s : Scope),
    s.sameParents (bindParams ps args s)
  | [], _, s => sameParents_refl s
  | p :: ps, args, s => by
    cases p with
    | ident name =>
      cases args with
      | nil =>
        rw [bindParams]
        exact sameParents_trans (sameParents_set s name _) (sameParents_bindParams ps [] _)
      | cons a rest =>
        rw [bindParams]
        exact sameParents_trans (sameParents_set s name _) (sameParents_bindParams ps rest _)
    | _ =>
      simp only [bindParams]
      exact sameParents_bindParams ps args s

/-- A scope with the parents of a child scope of `s`, when the child goes
out of scope, is `s`. -/
theorem leave_of_sameParents {s s2 : Scope} (vs : Values) (h : Scope.sameParents (vs :: s) s2) :
    s2.leave = s := by
  cases s2 with
  | nil => simp [Scope.sameParents] at h
  | cons c rest =>
    have := h.2
    simp only [List.tail_cons] at this
    simp [Scope.leave, this]

theorem walk_sameParents (am : Node → Scope → Option (Node × Scope))
    (ham : ∀ c s r s1, am c s = some (r, s1) → s.sameParents s1) :
    ∀ (cs : List Node) (s : Scope) (rs : List Node) (s1 : Scope),
      walk am cs s = some (rs, s1) → s.sameParents s1
  | [], s, rs, s1, h => by
    simp only [walk, Option.some.injEq, Prod.mk.injEq] at h
    rw [← h.2]
    exact sameParents_refl s
  | c :: cs, s, rs, s1, h => by
    rw [walk] at h
    cases h1 : am c s with
    | none => simp [h1] at h
    | some r1 =>
      obtain ⟨c1, sa⟩ := r1
      simp only [h1] at h
      cases h2 : walk am cs sa with
      | none => simp [h2] at h
      | some r2 =>
        obtain ⟨cs1, sb⟩ := r2
        simp only [h2, Option.some.injEq, Prod.mk.injEq] at h
        rw [← h.2]
        exact sameParents_trans (ham c s c1 sa h1) (walk_sameParents am ham cs sa cs1 sb h2)

theorem mutate_sameParents (am : Node → Scope → Option (Node × Scope))
    (ham : ∀ c s r s1, am c s = some (r, s1) → s.sameParents s1)
    (node : Node) (s : Scope) (r : Node) (s1 : Scope)
    (h : mutate am node s = some (r, s1)) : s.sameParents s1 := by
  cases node with
  | ident v =>
    simp only [mutate, Option.some.injEq, Prod.mk.injEq] at h
    rw [← h.2]
    exact sameParents_refl s
  | null =>
    simp only [mutate, Option.some.injEq, Prod.mk.injEq] at h
    rw [← h.2]
    exact sameParents_refl s
  | quote v =>
    rw [mutate] at h
    cases h1 : am v s with
    | none => simp [h1] at h
    | some r1 =>
      obtain ⟨v1, sa⟩ := r1
      simp only [h1, Option.some.injEq, Prod.mk.injEq] at h
      rw [← h.2]
      exact ham v s v1 sa h1
  | mac ps b =>
    rw [mutate] at h
    cases h1 : walk am ps s with
    | none => simp [h1] at h
    | some r1 =>
      obtain ⟨ps1, sa⟩ := r1
      simp only [h1] at h
      cases h2 : am b sa with
      | none => simp [h2] at h
      | some r2 =>
        obtain ⟨b1, sb⟩ := r2
        simp only [h2, Option.some.injEq, Prod.mk.injEq] at h
        rw [← h.2]
        exact sameParents_trans (walk_sameParents am ham ps s ps1 sa h1) (ham b sa b1 sb h2)
  | call f ps =>
    rw [mutate] at h
    cases h1 : am f s with
    | none => simp [h1] at h
    | some r1 =>
      obtain ⟨f1, sa⟩ := r1
      simp only [h1] at h
      cases h2 : walk am ps sa with
      | none => simp [h2] at h
      | some r2 =>
        obtain ⟨ps1, sb⟩ := r2
        simp only [h2, Option.some.injEq, Prod.mk.injEq] at h
        rw [← h.2]
        exact sameParents_trans (ham f s f1 sa h1) (walk_sameParents am ham ps sa ps1 sb h2)
  | letStmt i v =>
    rw [mutate] at h
    cases h1 : am i s with
    | none => simp [h1] at h
    | some r1 =>
      obtain ⟨i1, sa⟩ := r1
      simp only [h1] at h
      cases h2 : am v sa with
      | none => simp [h2] at h
      | some r2 =>
        obtain ⟨v1, sb⟩ := r2
        simp only [h2, Option.some.injEq, Prod.mk.injEq] at h
        rw [← h.2]
        exact sameParents_trans (ham i s i1 sa h1) (ham v sa v1 sb h2)
  | list r0 xs =>
    rw [mutate] at h
    cases h1 : walk am xs s with
    | none => simp [h1] at h
    | some r1 =>
      obtain ⟨xs1, sa⟩ := r1
      simp only [h1, Option.some.injEq, Prod.mk.injEq] at h
      rw [← h.2]
      exact walk_sameParents am ham xs s xs1 sa h1
  | other k cs =>
    rw [mutate] at h
    cases h1 : walk am cs s with
    | none => simp [h1] at h
    | some r1 =>
      obtain ⟨cs1, sa⟩ := r1
      simp only [h1, Option.some.injEq, Prod.mk.injEq] at h
      rw [← h.2]
      exact walk_sameParents am ham cs s cs1 sa h1

theorem apply_macro_sameParents (am : Node → Scope → Option (Node × Scope))
    (ham : ∀ c s r s1, am c s = some (r, s1) → s.sameParents s1)
    (node : Node) (s : Scope) (v : Visit) (s1 : Scope)
    (h : apply_macro am node s = some (v, s1)) : s.sameParents s1 := by
  cases node with
  | call f ps =>
    rw [ apply_macro] at h
    cases h1 : am f s with
    | none => simp [h1] at h
    | some r1 =>
      obtain ⟨f1, sa⟩ := r1
      have hfa := ham f s f1 sa h1
      simp only [h1] at h
      cases f1 with
      | mac mps body =>
        simp only at h
        cases h2 : mutate am body.clone (bindParams mps ps ([] :: sa)) with
        | none => simp [h2] at h
        | some r2 =>
          obtain ⟨b1, sb⟩ := r2
          simp only [h2, Option.some.injEq, Prod.mk.injEq] at h
          have hb := sameParents_trans (sameParents_bindParams mps ps ([] :: sa))
            (mutate_sameParents am ham _ _ _ _ h2)
          rw [← h.2, leave_of_sameParents [] hb]
          exact hfa
      | _ =>
        simp only [Option.some.injEq, Prod.mk.injEq] at h
        rw [← h.2]
        exact hfa
  | _ =>
    simp only [ apply_macro, Option.some.injEq, Prod.mk.injEq] at h
    rw [← h.2]
    exact sameParents_refl s

/-- The visitor and the rewrite of a child slot change at most the
innermost map of the scope they are given: the chain of its parents is
left as it was. -/
theorem rewrite_sameParents : ∀ (n : Nat),
    (∀ node s v s1, macro_mutator n node s = some (v, s1) → s.sameParents s1) ∧
    (∀ node s r s1, apply_mutator n node s = some (r, s1) → s.sameParents s1)
  | 0 => ⟨fun _ _ _ _ h => by simp [macro_mutator] at h,
      fun _ _ _ _ h => by simp [apply_mutator] at h⟩
  | n + 1 => by
    have ih := rewrite_sameParents n
    have hmm : ∀ node s v s1, macro_mutator (n + 1) node s = some (v, s1) →
        s.sameParents s1 := by
      intro node s v s1 h
      have hkids : ∀ (nd : Node) (sc : Scope) (r : Node) (s2 : Scope),
          mutate (apply_mutator n) nd sc = some (r, s2) → sc.sameParents s2 :=
        fun nd sc r s2 hm => mutate_sameParents _ ih.2 nd sc r s2 hm
      cases node with
      | ident x =>
        rw [macro_mutator] at h
        cases hx : s.get x with
        | none =>
          simp only [hx, Option.some.injEq, Prod.mk.injEq] at h
          rw [← h.2]
          exact sameParents_refl s
        | some val =>
          simp only [hx, Option.some.injEq, Prod.mk.injEq] at h
          rw [← h.2]
          exact sameParents_refl s
      | letStmt i val =>
        rw [macro_mutator] at h
        split at h
        · simp only [Option.some.injEq, Prod.mk.injEq] at h
          rw [← h.2]
          exact sameParents_set s _ _
        · simp only [Option.some.injEq, Prod.mk.injEq] at h
          rw [← h.2]
          exact sameParents_refl s
      | call f ps =>
        rw [macro_mutator] at h
        exact apply_macro_sameParents _ ih.2 _ s v s1 h
      | list r xs =>
        rw [macro_mutator] at h
        split at h
        · cases h1 : mutate (apply_mutator n) (Node.list r xs) ([] :: s) with
          | none => simp [h1] at h
          | some r1 =>
            obtain ⟨l1, sa⟩ := r1
            simp only [h1, Option.some.injEq, Prod.mk.injEq] at h
            rw [← h.2, leave_of_sameParents [] (hkids _ _ _ _ h1)]
            exact sameParents_refl s
        · simp only [Option.some.injEq, Prod.mk.injEq] at h
          rw [← h.2]
          exact sameParents_refl s
      | null =>
        simp only [macro_mutator] at h
        cases h1 : mutate (apply_mutator n) Node.null s with
        | none => simp [h1] at h
        | some r1 =>
          obtain ⟨l1, sa⟩ := r1
          simp only [h1, Option.some.injEq, Prod.mk.injEq] at h
          rw [← h.2]
          exact hkids _ _ _ _ h1
      | quote q =>
        simp only [macro_mutator] at h
        cases h1 : mutate (apply_mutator n) (Node.quote q) s with
        | none => simp [h1] at h
        | some r1 =>
          obtain ⟨l1, sa⟩ := r1
          simp only [h1, Option.some.injEq, Prod.mk.injEq] at h
          rw [← h.2]
          exact hkids _ _ _ _ h1
      | mac ps b =>
        simp only [macro_mutator] at h
        cases h1 : mutate (apply_mutator n) (Node.mac ps b) s with
        | none => simp [h1] at h
        | some r1 =>
          obtain ⟨l1, sa⟩ := r1
          simp only [h1, Option.some.injEq, Prod.mk.injEq] at h
          rw [← h.2]
          exact hkids _ _ _ _ h1
      | other k cs =>
        simp only [macro_mutator] at h
        cases h1 : mutate (apply_mutator n) (Node.other k cs) s with
        | none => simp [h1] at h
        | some r1 =>
          obtain ⟨l1, sa⟩ := r1
          simp only [h1, Option.some.injEq, Prod.mk.injEq] at h
          rw [← h.2]
          exact hkids _ _ _ _ h1
    refine ⟨hmm, ?_⟩
    intro node s r s1 h
    rw [apply_mutator] at h
    cases h1 : macro_mutator n node s with
    | none => simp [h1] at h
    | some r1 =>
      obtain ⟨v, sa⟩ := r1
      have ha := ih.1 node s v sa h1
      cases v with
      | replace r0 =>
        simp only [h1, Option.some.injEq, Prod.mk.injEq] at h
        rw [← h.2]
        exact ha
      | keep t =>
        simp only [h1] at h
        exact sameParents_trans ha (mutate_sameParents _ ih.2 t sa r s1 h)

end Rewriter


namespace Rewriter

theorem lookup_filter_ne (vs : Values) (x y : String) (h : y ≠ x) :
    List.lookup y (vs.filter fun e => e.1 != x) = List.lookup y vs := by
  induction vs with
  | nil => rfl
  | cons e es ih =>
    obtain ⟨k, v⟩ := e
    by_cases hk : k = x
    · subst hk
      have hyk : (y == k) = false := by simpa using h
      simp [List.filter, List.lookup, hyk, ih]
    · have hkx : (k != x) = true := by simpa using hk
      simp only [List.filter, hkx, List.lookup]
      rw [ih]

theorem get_set_self (vs : Values) (parents : Scope) (x : String) (v : Node) :
    (Scope.set (vs :: parents) x v).get x = some v := by
  simp [Scope.set, Scope.get, List.lookup]

theorem get_set_ne (s : Scope) (x y : String) (v : Node) (h : y ≠ x) :
    (s.set x v).get y = s.get y := by
  cases s with
  | nil => rfl
  | cons vs parents =>
    have hyx : (y == x) = false := by simpa using h
    simp only [Scope.set, Scope.get, List.lookup, hyx]
    rw [lookup_filter_ne vs x y h]

end Rewriter


namespace Rewriter

theorem walk_append (am : Node → Scope → Option (Node × Scope)) :
    ∀ (pre rest : List Node) (s : Scope),
      walk am (pre ++ rest) s =
        match walk am pre s with
        | some (pre1, s1) =>
          match walk am rest s1 with
          | some (rest1, s2) => some (pre1 ++ rest1, s2)
          | none => none
        | none => none
  | [], rest, s => by
    simp only [List.nil_append, walk]
    cases walk am rest s with
    | none => rfl
    | some r => rfl
  | c :: pre, rest, s => by
    simp only [List.cons_append, walk]
    cases h1 : am c s with
    | none => rfl
    | some r1 =>
      obtain ⟨c1, sa⟩ := r1
      simp only
      rw [show pre.append rest = pre ++ rest from rfl, walk_append am pre rest sa]
      cases walk am pre sa with
      | none => rfl
      | some r2 =>
        obtain ⟨pre1, sb⟩ := r2
        simp only
        cases walk am rest sb with
        | none => rfl
        | some r3 => rfl

/-- C12: on a let whose value is a macro literal the visitor answers a Null
literal as the replacement and binds the name of the let in the innermost
scope: the name resolves to the macro literal afterwards, every other name
resolves as before, and the parents of the scope are as they were.  On a
let whose value is not a macro literal it answers `nullptr` and leaves the
let and the scope as they were. -/
theorem let_of_macro_binds (n : Nat) (i : Node) (vs : Values) (parents : Scope) :
    (∀ (ps : List Node) (b : Node),
      ∃ vs1, macro_mutator (n + 1) (Node.letStmt i (Node.mac ps b)) (vs :: parents) =
          some (Visit.replace Node.null, vs1 :: parents) ∧
        Scope.get (vs1 :: parents) i.str = some (Node.mac ps b) ∧
        List.lookup i.str vs1 = some (Node.mac ps b) ∧
        ∀ y, y ≠ i.str → Scope.get (vs1 :: parents) y = Scope.get (vs :: parents) y) ∧
    (∀ v : Node, v.get_type ≠ NodeType.MACRO →
      macro_mutator (n + 1) (Node.letStmt i v) (vs :: parents) =
        some (Visit.keep (Node.letStmt i v), vs :: parents)) := by
  constructor
  · intro ps b
    refine ⟨(i.str, Node.mac ps b) :: vs.filter fun e => e.1 != i.str, ?_, ?_, ?_, ?_⟩
    · simp [macro_mutator, Node.get_type, Scope.set]
    · exact get_set_self vs parents i.str _
    · simp [List.lookup]
    · intro y hy
      exact get_set_ne (vs :: parents) i.str y _ hy
  · intro v hv
    simp [macro_mutator, hv]

/-- C13: on an identifier the visitor answers a clone of what the name is
bound to in the nearest scope of the chain that binds it, the same tree as
the binding, and leaves the scope as it was; when no scope of the chain
binds the name it answers `nullptr` and leaves the identifier as it
was. -/
theorem ident_is_replaced_by_binding (n : Nat) (x : String) (s : Scope) :
    (∀ v : Node, s.get x = some v →
      macro_mutator (n + 1) (Node.ident x) s = some (Visit.replace v, s) ∧ v.clone = v) ∧
    (s.get x = none →
      macro_mutator (n + 1) (Node.ident x) s = some (Visit.keep (Node.ident x), s)) := by
  constructor
  · intro v hv
    simp [macro_mutator, hv, Node.clone]
  · intro hv
    simp [macro_mutator, hv]

/-- The visitor on a list with the scope role, taken alone: the children
are rewritten under a new child scope of the scope `s` the list is met in,
and `s` is the scope when the visitor returns, as it was.  Within the list,
the nodes that follow a let of a macro literal are rewritten under the
scope in which the name of the let is bound.  On
`{ let m = macro() { 1 }; m() }; m()` the call inside the block is expanded
and the call after it is not. -/
theorem scoped_list_keeps_outer_scope (n : Nat) :
    (∀ (xs : List Node) (s : Scope) (v : Visit) (s1 : Scope),
      macro_mutator (n + 1) (Node.list true xs) s = some (v, s1) →
      s1 = s ∧ ∃ l1 c, v = Visit.keep l1 ∧
        mutate (apply_mutator n) (Node.list true xs) ([] :: s) = some (l1, c :: s)) ∧
    (∀ (pre rest ps : List Node) (i b : Node) (s : Scope),
      mutate (apply_mutator (n + 2)) (Node.list true (pre ++ Node.letStmt i (Node.mac ps b) :: rest))
          ([] :: s) =
        match walk (apply_mutator (n + 2)) pre ([] :: s) with
        | some (pre1, s1) =>
          match walk (apply_mutator (n + 2)) rest (s1.set i.str (Node.mac ps b)) with
          | some (rest1, s2) => some (Node.list true (pre1 ++ Node.null :: rest1), s2)
          | none => none
        | none => none) ∧
    process 16 blockThenCall [] = some (blockThenCallExpanded, []) := by
  refine ⟨?_, ?_, rfl⟩
  · intro xs s v s1 h
    rw [macro_mutator] at h
    simp only [if_true] at h
    cases hm : mutate (apply_mutator n) (Node.list true xs) ([] :: s) with
    | none => simp [hm] at h
    | some r =>
      obtain ⟨l1, sa⟩ := r
      simp only [hm, Option.some.injEq, Prod.mk.injEq] at h
      have hp := mutate_sameParents _ (rewrite_sameParents n).2 _ _ _ _ hm
      have hl := leave_of_sameParents [] hp
      refine ⟨by rw [← h.2, hl], l1, sa.head!, h.1.symm, ?_⟩
      cases sa with
      | nil => simp [Scope.sameParents] at hp
      | cons c rest =>
        simp only [Scope.leave] at hl
        simp [hl]
  · intro pre rest ps i b s
    rw [mutate, walk_append]
    cases h1 : walk (apply_mutator (n + 2)) pre ([] :: s) with
    | none => rfl
    | some r1 =>
      obtain ⟨pre1, sa⟩ := r1
      have hlet : apply_mutator (n + 2) (Node.letStmt i (Node.mac ps b)) sa =
          some (Node.null, sa.set i.str (Node.mac ps b)) := by
        simp [apply_mutator, macro_mutator, Node.get_type]
      simp only [walk, hlet]
      cases walk (apply_mutator (n + 2)) rest (sa.set i.str (Node.mac ps b)) with
      | none => rfl
      | some r2 => rfl

/-- The visitor on `{ let a = m }` where `m` is bound to `macro() { 1 }`:
the walk under the child scope leaves `{ let a = macro() { 1 } }`, the
answer is `nullptr`, and the scope is as it was. -/
theorem aliasBlock_visit (n : Nat) :
    macro_mutator (n + 4) aliasBlock [[("m", macOne)]] =
      some (Visit.keep (Node.list true [Node.letStmt (Node.ident "a") macOne]),
        [[("m", macOne)]]) := by
  simp [macro_mutator, aliasBlock, mutate, walk, apply_mutator, Node.get_type, Scope.get,
    List.lookup, Node.clone, Scope.leave, macOne]

/-- The rewrite of a slot that holds `{ let a = m }`: after the visitor has
answered `nullptr`, the children of the list are walked under the scope the
list is met in, and the let binds `a` there. -/
theorem aliasBlock_rewrite (n : Nat) :
    apply_mutator (n + 5) aliasBlock [[("m", macOne)]] =
      some (Node.list true [Node.null], [[("a", macOne), ("m", macOne)]]) := by
  rw [apply_mutator, aliasBlock_visit]
  simp [macro_mutator, mutate, walk, apply_mutator, Node.get_type, Scope.set, Node.str, macOne]

/-- C14, at a failing input: `let m = macro() { 1 }; { let a = m }; a()`.
Whatever the bound on the depth, from 5 on: the visitor, on the block,
rewrites it under the child scope into `{ let a = macro() { 1 } }`, answers
`nullptr` and leaves the enclosing scope, which binds `m` only, as it was;
the rewrite of the slot that holds the block then walks the children again
under the enclosing scope, and after it `a` is bound there, to the macro;
and `process` replaces the call `a()` that follows the block by the body
`{ 1 }`. -/
theorem scoped_list_alias_let_binds_outside (n : Nat) :
    macro_mutator (n + 4) aliasBlock [[("m", macOne)]] =
        some (Visit.keep (Node.list true [Node.letStmt (Node.ident "a") macOne]),
          [[("m", macOne)]]) ∧
      apply_mutator (n + 5) aliasBlock [[("m", macOne)]] =
        some (Node.list true [Node.null], [[("a", macOne), ("m", macOne)]]) ∧
      Scope.get [[("m", macOne)]] "a" = none ∧
      Scope.get [[("a", macOne), ("m", macOne)]] "a" = some macOne ∧
      process (n + 5) aliasInBlock [] = some (aliasInBlockExpanded, []) := by
  have h1 : apply_mutator (n + 5) (Node.letStmt (Node.ident "m") macOne) [[]] =
      some (Node.null, [[("m", macOne)]]) := by
    simp [apply_mutator, macro_mutator, Node.get_type, Scope.set, Node.str, macOne]
  have h3 : apply_mutator (n + 5) (Node.call (Node.ident "a") [])
      [[("a", macOne), ("m", macOne)]] =
      some (Node.list true [Node.other 1 []], [[("a", macOne), ("m", macOne)]]) := by
    simp [apply_mutator, macro_mutator, apply_macro, mutate, walk, Node.get_type, Scope.get,
      List.lookup, Node.clone, Scope.leave, macOne, bindParams]
  refine ⟨aliasBlock_visit n, aliasBlock_rewrite n, rfl, rfl, ?_⟩
  simp [process, aliasInBlock, mutate, walk, h1, aliasBlock_rewrite, h3, aliasInBlockExpanded]

end Rewriter


namespace Rewriter

theorem get_none_of_unbound_maps (x : String) : ∀ s : Scope,
    (∀ ws ∈ s, List.lookup x ws = none) → s.get x = none
  | [], _ => rfl
  | vs :: parents, h => by
    rw [Scope.get, h vs (List.mem_cons_self _ _)]
    exact get_none_of_unbound_maps x parents (fun ws hw => h ws (List.mem_cons_of_mem _ hw))

theorem get_nearest (x : String) (vs : Values) (outer : Scope) (n : Node)
    (hv : List.lookup x vs = some n) : ∀ inner : Scope,
    (∀ ws ∈ inner, List.lookup x ws = none) → Scope.get (inner ++ vs :: outer) x = some n
  | [], _ => by
    rw [List.nil_append, Scope.get, hv]
  | ws :: inner, h => by
    rw [List.cons_append, Scope.get, h ws (List.mem_cons_self _ _)]
    exact get_nearest x vs outer n hv inner (fun w hw => h w (List.mem_cons_of_mem _ hw))

mutual
theorem expanded_of_macroFree : ∀ node : Node, node.macroFree = true → node.expanded = true
  | .ident _, _ => rfl
  | .null, _ => rfl
  | .quote v, h => by
    simp only [Node.macroFree] at h
    simp only [Node.expanded]
    exact expanded_of_macroFree v h
  | .mac _ _, h => by simp [Node.macroFree] at h
  | .call f ps, h => by
    simp only [Node.macroFree, Bool.and_eq_true] at h
    simp only [Node.expanded, Bool.and_eq_true, bne_iff_ne, ne_eq]
    refine ⟨⟨?_, expanded_of_macroFree f h.1⟩, expandedList_of_macroFree ps h.2⟩
    intro hf
    cases f <;> simp [Node.get_type, Node.macroFree] at hf h
  | .letStmt i v, h => by
    simp only [Node.macroFree, Bool.and_eq_true] at h
    simp only [Node.expanded, Bool.and_eq_true, bne_iff_ne, ne_eq]
    refine ⟨⟨?_, expanded_of_macroFree i h.1⟩, expanded_of_macroFree v h.2⟩
    intro hv
    cases v <;> simp [Node.get_type, Node.macroFree] at hv h
  | .list _ xs, h => by
    simp only [Node.macroFree] at h
    simp only [Node.expanded]
    exact expandedList_of_macroFree xs h
  | .other _ cs, h => by
    simp only [Node.macroFree] at h
    simp only [Node.expanded]
    exact expandedList_of_macroFree cs h
theorem expandedList_of_macroFree : ∀ cs : List Node, macroFreeList cs = true →
    expandedList cs = true
  | [], _ => rfl
  | c :: cs, h => by
    simp only [macroFreeList, Bool.and_eq_true] at h
    simp only [expandedList, Bool.and_eq_true]
    exact ⟨expanded_of_macroFree c h.1, expandedList_of_macroFree cs h.2⟩
end

/-- C28: let `name` be bound to a macro literal in the chain of scopes `s`,
and let the visitor return on a call of `name`.  Then the call is replaced
by an expansion, and the chain of scopes afterwards is `s` itself: every
map of it, with the binding of `name`, is as it was.  So the same call
visited again from there has the same answer, and two such calls one after
the other are replaced by the same expansion. -/
theorem macro_call_keeps_definition (n : Nat) (name : String) (mps args : List Node)
    (body : Node) (s s1 : Scope) (v : Visit)
    (hdef : s.get name = some (Node.mac mps body))
    (h : macro_mutator n (Node.call (Node.ident name) args) s = some (v, s1)) :
    s1 = s ∧ s1.get name = some (Node.mac mps body) ∧
      macro_mutator n (Node.call (Node.ident name) args) s1 = some (v, s1) ∧
      ∃ body1, v = Visit.replace body1 ∧
        walk (apply_mutator (n + 1))
            [Node.call (Node.ident name) args, Node.call (Node.ident name) args] s =
          some ([body1, body1], s) := by
  have key : s1 = s ∧ ∃ body1, v = Visit.replace body1 := by
    match n, h with
    | 0, h => simp [macro_mutator] at h
    | 1, h => simp [macro_mutator, apply_macro, apply_mutator] at h
    | 2, h => simp [macro_mutator, apply_macro, apply_mutator] at h
    | k + 3, h =>
      have hf : apply_mutator (k + 2) (Node.ident name) s = some (Node.mac mps body, s) := by
        simp [apply_mutator, macro_mutator, hdef, Node.clone]
      rw [macro_mutator, apply_macro, hf] at h
      simp only at h
      cases hm : mutate (apply_mutator (k + 2)) body.clone (bindParams mps args ([] :: s)) with
      | none => simp [hm] at h
      | some r =>
        obtain ⟨b1, s2⟩ := r
        simp only [hm, Option.some.injEq, Prod.mk.injEq] at h
        have h2 := mutate_sameParents _ (rewrite_sameParents (k + 2)).2 _ _ _ _ hm
        have h3 := leave_of_sameParents []
          (sameParents_trans (sameParents_bindParams mps args ([] :: s)) h2)
        refine ⟨?_, b1, h.1.symm⟩
        rw [← h.2, h3]
  obtain ⟨hs, body1, hv⟩ := key
  subst hs
  subst hv
  refine ⟨rfl, hdef, h, body1, ?_⟩
  have ha : apply_mutator (n + 1) (Node.call (Node.ident name) args) s1 = some (body1, s1) := by
    rw [apply_mutator, h]
  simp [walk, ha]

/-- A use of `macro_call_keeps_definition`: with `m` bound to
`macro(x, y) { x; y }`, the call `m(1, 3)` is replaced by
`{ quote(1); quote(3) }` and `m` is bound as before. -/
theorem macro_call_keeps_definition_witness :
    Scope.get [[("m", pairMacro)]] "m" = some pairMacro ∧
      macro_mutator 4 (Node.call (Node.ident "m") [Node.other 1 [], Node.other 3 []])
          [[("m", pairMacro)]] =
        some (Visit.replace
          (Node.list true [Node.quote (Node.other 1 []), Node.quote (Node.other 3 [])]),
          [[("m", pairMacro)]]) ∧
      walk (apply_mutator 5)
          [Node.call (Node.ident "m") [Node.other 1 [], Node.other 3 []],
            Node.call (Node.ident "m") [Node.other 1 [], Node.other 3 []]]
          [[("m", pairMacro)]] =
        some ([Node.list true [Node.quote (Node.other 1 []), Node.quote (Node.other 3 [])],
            Node.list true [Node.quote (Node.other 1 []), Node.quote (Node.other 3 [])]],
          [[("m", pairMacro)]]) :=
  have h := macro_call_keeps_definition 4 "m" [Node.ident "x", Node.ident "y"]
    [Node.other 1 [], Node.other 3 []] (Node.list true [Node.ident "x", Node.ident "y"])
    [[("m", pairMacro)]] [[("m", pairMacro)]]
    (Visit.replace (Node.list true [Node.quote (Node.other 1 []), Node.quote (Node.other 3 [])]))
    rfl rfl
  ⟨h.2.1, h.2.2.1, by
    obtain ⟨b, hb, hw⟩ := h.2.2.2
    cases hb
    exact hw⟩

/-- C29: `scope::get( x )` answers the binding of `x` in the innermost
scope of the chain that binds `x` (no scope inside of it binds `x`), and
nothing when no scope of the chain binds `x`.  `scope::set( x, n )` leaves
the parents as they are and changes the map of the current scope at `x`
only: afterwards `x` resolves to `n`, and every other name is bound in the
current scope, and resolves through the chain, as before. -/
theorem scope_get_nearest_set_current (x : String) :
    (∀ (inner : Scope) (vs : Values) (outer : Scope) (n : Node),
      (∀ ws ∈ inner, List.lookup x ws = none) → List.lookup x vs = some n →
        Scope.get (inner ++ vs :: outer) x = some n) ∧
      (∀ s : Scope, (∀ ws ∈ s, List.lookup x ws = none) → s.get x = none) ∧
      (∀ (vs : Values) (parents : Scope) (n : Node),
        ∃ vs1, Scope.set (vs :: parents) x n = vs1 :: parents ∧
          List.lookup x vs1 = some n ∧
          (∀ y, y ≠ x → List.lookup y vs1 = List.lookup y vs) ∧
          (Scope.set (vs :: parents) x n).get x = some n ∧
          (∀ y, y ≠ x → (Scope.set (vs :: parents) x n).get y = Scope.get (vs :: parents) y)) := by
  refine ⟨fun inner vs outer n hi hv => get_nearest x vs outer n hv inner hi,
    fun s hs => get_none_of_unbound_maps x s hs, ?_⟩
  intro vs parents n
  refine ⟨_, rfl, by simp [List.lookup], ?_, get_set_self vs parents x n,
    fun y hy => get_set_ne (vs :: parents) x y n hy⟩
  intro y hy
  have hyx : (y == x) = false := by simpa using hy
  simp only [List.lookup, hyx]
  exact lookup_filter_ne vs x y hy

/-- C30: on an AST without a macro literal, `process`, which starts from an
empty root scope, returns once the bound on the depth is twice the height
of the AST, leaves the AST as it is and adds no error to the list. -/
theorem process_macro_free_is_identity (node : Node) (fuel : Nat)
    (hm : node.macroFree = true) (hf : 2 * node.height ≤ fuel) :
    process fuel node [] = some (node, []) :=
  process_id fuel node [] (expanded_of_macroFree node hm) hf

/-- A use of `process_macro_free_is_identity`: the program `let a = 1; a`,
of height 3. -/
theorem process_macro_free_is_identity_witness :
    process 6 (Node.other 0 [Node.letStmt (Node.ident "a") (Node.other 1 []), Node.ident "a"]) [] =
      some (Node.other 0 [Node.letStmt (Node.ident "a") (Node.other 1 []), Node.ident "a"], []) :=
  process_macro_free_is_identity _ 6 rfl (by decide)

end Rewriter


namespace Rewriter

/-- Where `x` is bound to `quote(x)`, the rewrite of a slot holding
`quote(x)` does not return: the identifier is replaced by `quote(x)`, and
the walk over the children of the kept node meets `quote(x)` again. -/
theorem quote_of_self_loops : ∀ (n : Nat) (s : Scope),
    s.get "x" = some (Node.quote (Node.ident "x")) →
    apply_mutator n (Node.quote (Node.ident "x")) s = none
  | 0, _, _ => rfl
  | 1, _, _ => rfl
  | 2, _, _ => rfl
  | 3, _, _ => rfl
  | n + 4, s, hs => by
    have ih := quote_of_self_loops (n + 3) s hs
    have h1 : apply_mutator (n + 2) (Node.ident "x") s =
        some (Node.quote (Node.ident "x"), s) := by
      simp [apply_mutator, macro_mutator, hs, Node.clone]
    rw [apply_mutator]
    simp only [macro_mutator]
    simp only [mutate, h1, ih]

/-- Where `x` is bound to `quote(x)`, the rewrite of a slot holding `-x`
does not return. -/
theorem negation_of_self_loops (n : Nat) (s : Scope)
    (hs : s.get "x" = some (Node.quote (Node.ident "x"))) :
    apply_mutator n (Node.other 2 [Node.ident "x"]) s = none := by
  match n with
  | 0 => rfl
  | 1 => rfl
  | 2 => rfl
  | 3 => rfl
  | n + 4 =>
    have h1 : apply_mutator (n + 2) (Node.ident "x") s =
        some (Node.quote (Node.ident "x"), s) := by
      simp [apply_mutator, macro_mutator, hs, Node.clone]
    have h2 := quote_of_self_loops (n + 3) s hs
    rw [apply_mutator]
    simp only [macro_mutator]
    simp only [mutate, walk, h1, h2]

/-- The visitor on `-x` where `x` is bound to `quote(x)`: it rewrites the
children itself, once, into `-quote(x)`, and answers `nullptr`. -/
theorem negation_visit (n : Nat) (s : Scope)
    (hs : s.get "x" = some (Node.quote (Node.ident "x"))) :
    macro_mutator (n + 3) (Node.other 2 [Node.ident "x"]) s =
      some (Visit.keep (Node.other 2 [Node.quote (Node.ident "x")]), s) := by
  simp [macro_mutator, mutate, walk, apply_mutator, hs, Node.clone]

/-- C31, at a failing input: `let m = macro(x) { -x }; m(x)`.  The program
has one macro, invoked once, at top level, and no call occurs in the body of
a macro, so no macro is invoked from within its own body; yet `process`
returns for no bound on its depth.  The call binds `x` to `quote(x)` in a
child of the scope that binds `m`; on `-x`, under that scope, the visitor
rewrites the children itself, once, into `-quote(x)`, and answers `nullptr`;
the rewrite of the slot then walks the children of `-quote(x)` again and
finds `x` inside the quote, bound as before. -/
theorem process_never_returns_on_same_name_argument :
    sameNameCall.bodiesCallFree = true ∧
      (∀ n : Nat, macro_mutator (n + 3) (Node.other 2 [Node.ident "x"])
          [[("x", Node.quote (Node.ident "x"))], [("m",
            Node.mac [Node.ident "x"] (Node.list true [Node.other 2 [Node.ident "x"]]))]] =
        some (Visit.keep (Node.other 2 [Node.quote (Node.ident "x")]),
          [[("x", Node.quote (Node.ident "x"))], [("m",
            Node.mac [Node.ident "x"] (Node.list true [Node.other 2 [Node.ident "x"]]))]])) ∧
      ¬ ∃ fuel r, process fuel sameNameCall [] = some r := by
  refine ⟨rfl, fun n => negation_visit n _ rfl, ?_⟩
  rintro ⟨fuel, r, h⟩
  match fuel, h with
  | 0, h =>
    have e : process 0 sameNameCall [] = none := rfl
    rw [e] at h
    cases h
  | 1, h =>
    have e : process 1 sameNameCall [] = none := rfl
    rw [e] at h
    cases h
  | 2, h =>
    have e : process 2 sameNameCall [] = none := rfl
    rw [e] at h
    cases h
  | 3, h =>
    have e : process 3 sameNameCall [] = none := rfl
    rw [e] at h
    cases h
  | n + 4, h =>
    have hloop := negation_of_self_loops (n + 2)
      [[("x", Node.quote (Node.ident "x"))], [("m",
        Node.mac [Node.ident "x"] (Node.list true [Node.other 2 [Node.ident "x"]]))]] rfl
    have hl : apply_mutator (n + 4)
        (Node.letStmt (Node.ident "m")
          (Node.mac [Node.ident "x"] (Node.list true [Node.other 2 [Node.ident "x"]]))) [[]] =
        some (Node.null, [[("m",
          Node.mac [Node.ident "x"] (Node.list true [Node.other 2 [Node.ident "x"]]))]]) := by
      rw [apply_mutator]
      simp [macro_mutator, Node.get_type, Node.str, Scope.set]
    have hm : apply_mutator (n + 2) (Node.ident "m") [[("m",
        Node.mac [Node.ident "x"] (Node.list true [Node.other 2 [Node.ident "x"]]))]] =
        some (Node.mac [Node.ident "x"] (Node.list true [Node.other 2 [Node.ident "x"]]),
          [[("m",
            Node.mac [Node.ident "x"] (Node.list true [Node.other 2 [Node.ident "x"]]))]]) := by
      simp [apply_mutator, macro_mutator, Scope.get, List.lookup, Node.clone]
    have hc : apply_mutator (n + 4) (Node.call (Node.ident "m") [Node.ident "x"]) [[("m",
        Node.mac [Node.ident "x"] (Node.list true [Node.other 2 [Node.ident "x"]]))]] =
        none := by
      rw [apply_mutator]
      simp only [macro_mutator, apply_macro, hm, Node.clone, bindParams, Scope.set,
        List.filter_nil, mutate, walk, hloop]
    simp only [process, sameNameCall, mutate, walk, hl, hc] at h
    cases h

end Rewriter


/-! ## Claims on the operators of tables and modules -/

namespace Eval

theorem toInt64_small (n : Nat) (h : n < 2 ^ 63) : toInt64 n = (n : Int) := by
  have hu : n % U64 = n := by
    apply Nat.mod_eq_of_lt
    simp only [U64]
    omega
  unfold toInt64
  rw [hu, if_pos h]

/-- C15: with `.` for operator and a module on the left, an identifier `X`
on the right answers the value bound to `X` in the module, or, without one,
the Error `Identifier not found 'X'` at the position of the right operand;
a right operand that is neither an identifier nor a call answers the Error
`Bad ident for module ` followed by its display, at its position.  The
evaluator is not called. -/
theorem module_dot_member (C : Callbacks) (p : Position) (right : Expr) (mod : Module)
    (env : Env) :
    (∀ (rp : Position) (X : String), right = Expr.ident rp X →
      (∀ v, mod.get X = some v →
        Module.eval_infix C ⟨p, Token.DOT, right⟩ mod env = ⟨v, []⟩) ∧
      (mod.get X = none →
        Module.eval_infix C ⟨p, Token.DOT, right⟩ mod env =
          ⟨Obj.error rp ("Identifier not found '" ++ X ++ "'"), []⟩)) ∧
    (right.get_type ≠ Rewriter.NodeType.IDENT → right.get_type ≠ Rewriter.NodeType.CALL →
      Module.eval_infix C ⟨p, Token.DOT, right⟩ mod env =
        ⟨Obj.error right.pos ("Bad ident for module " ++ right.str), []⟩) := by
  constructor
  · rintro rp X rfl
    constructor
    · intro v hv
      simp [ Module.eval_infix, Expr.get_type, Expr.str, hv]
    · intro hv
      simp [ Module.eval_infix, Expr.get_type, Expr.str, Expr.pos, hv, makeError, String.join]
  · intro h1 h2
    simp [ Module.eval_infix, h1, h2, makeError, String.join]

/-- C16: with `.` for operator, a module on the left and a call on the
right: when the callee is an identifier bound in the module, the answer is
what the evaluator answers for the call in the environment of the module,
and that is the one evaluation made; when the callee is an identifier not
bound in the module the answer is the Error `Identifier not found 'X'`,
and when it is not an identifier the Error `Bad ident for module ` followed
by the display of the call, both at the position of the call and without
any evaluation. -/
theorem module_dot_call (C : Callbacks) (p rp : Position) (display : String) (func : Expr)
    (mod : Module) (env : Env) :
    (∀ (fp : Position) (X : String), func = Expr.ident fp X →
      (mod.get X ≠ none →
        Module.eval_infix C ⟨p, Token.DOT, Expr.call rp display func⟩ mod env =
          ⟨C.ev (Expr.call rp display func) mod.env,
            [Event.evaluated (Expr.call rp display func) mod.env]⟩) ∧
      (mod.get X = none →
        Module.eval_infix C ⟨p, Token.DOT, Expr.call rp display func⟩ mod env =
          ⟨Obj.error rp ("Identifier not found '" ++ X ++ "'"), []⟩)) ∧
    (func.get_type ≠ Rewriter.NodeType.IDENT →
      Module.eval_infix C ⟨p, Token.DOT, Expr.call rp display func⟩ mod env =
        ⟨Obj.error rp ("Bad ident for module " ++ display), []⟩) := by
  constructor
  · rintro fp X rfl
    constructor
    · intro hv
      have hs : (mod.get X).isSome = true := by
        cases h : mod.get X with
        | none => exact absurd h hv
        | some v => rfl
      simp [ Module.eval_infix, Module.eval_func, Expr.get_type, Expr.str, Expr.func, hs]
    · intro hv
      simp [ Module.eval_infix, Module.eval_func, Expr.get_type, Expr.str, Expr.func, Expr.pos,
        hv, makeError, String.join]
  · intro h1
    have e1 : (Expr.call rp display func).get_type = Rewriter.NodeType.CALL := rfl
    simp [ Module.eval_infix, Module.eval_func, e1, Expr.str, Expr.func, Expr.pos,
      h1, makeError, String.join]

/-- C17, refuted as stated: `+` between two empty tables answers an Error,
not a table. -/
theorem table_plus_table_is_error :
    ( Tables.eval_infix tableCallbacks ⟨⟨1, 2⟩, Token.PLUS, Expr.other ⟨1, 4⟩ "t"⟩
        (Obj.table []) (Env.root 0)).value.get_type = ObjType.ERROR := by
  decide

/-- C17, amended: for a table on the left and a right operand that
evaluates to a table, `+` answers the Error
`Infix operation OBJ_TABLE '+' OBJ_TABLE is not defined` at the position
of the operator, after the one evaluation of the right operand. -/
theorem table_plus_table_not_defined (C : Callbacks) (p : Position) (right : Expr)
    (l r : List (Obj × Obj)) (env : Env) (hr : C.ev right env = Obj.table r) :
    Tables.eval_infix C ⟨p, Token.PLUS, right⟩ (Obj.table l) env =
      ⟨Obj.error p "Infix operation OBJ_TABLE '+' OBJ_TABLE is not defined",
        [Event.evaluated right env]⟩ := by
  simp [ Tables.eval_infix, hr, Obj.get_type, Tables.notDefined, makeError, String.join,
    name_get, Token.name]

/-- A use of `table_plus_table_not_defined`: two empty tables. -/
theorem table_plus_table_not_defined_witness :
    Tables.eval_infix tableCallbacks ⟨⟨1, 2⟩, Token.PLUS, Expr.other ⟨1, 4⟩ "t"⟩
        (Obj.table []) (Env.root 0) =
      ⟨Obj.error ⟨1, 2⟩ "Infix operation OBJ_TABLE '+' OBJ_TABLE is not defined",
        [Event.evaluated (Expr.other ⟨1, 4⟩ "t") (Env.root 0)]⟩ :=
  table_plus_table_not_defined tableCallbacks ⟨1, 2⟩ (Expr.other ⟨1, 4⟩ "t") [] []
    (Env.root 0) rfl

/-- C18, refuted as stated: `==` and `!=` between two empty tables answer
an Error, not a Bool. -/
theorem table_compare_is_error :
    ( Tables.eval_infix tableCallbacks ⟨⟨1, 2⟩, Token.EQ, Expr.other ⟨1, 4⟩ "t"⟩
        (Obj.table []) (Env.root 0)).value.get_type = ObjType.ERROR ∧
      ( Tables.eval_infix tableCallbacks ⟨⟨1, 2⟩, Token.NOT_EQ, Expr.other ⟨1, 4⟩ "t"⟩
        (Obj.table []) (Env.root 0)).value.get_type = ObjType.ERROR := by
  decide

/-- C18, amended: for a table on the left and a right operand that
evaluates to a table, `==` answers the Error
`Infix operation OBJ_TABLE '==' OBJ_TABLE is not defined` and `!=` the
Error `Infix operation OBJ_TABLE '!=' OBJ_TABLE is not defined`, at the
position of the operator. -/
theorem table_compare_not_defined (C : Callbacks) (p : Position) (right : Expr)
    (l r : List (Obj × Obj)) (env : Env) (hr : C.ev right env = Obj.table r) :
    Tables.eval_infix C ⟨p, Token.EQ, right⟩ (Obj.table l) env =
        ⟨Obj.error p "Infix operation OBJ_TABLE '==' OBJ_TABLE is not defined",
          [Event.evaluated right env]⟩ ∧
      Tables.eval_infix C ⟨p, Token.NOT_EQ, right⟩ (Obj.table l) env =
        ⟨Obj.error p "Infix operation OBJ_TABLE '!=' OBJ_TABLE is not defined",
          [Event.evaluated right env]⟩ := by
  constructor <;>
  · simp [ Tables.eval_infix, hr, Obj.get_type, Tables.notDefined, makeError, String.join,
      name_get, Token.name]

/-- A use of `table_compare_not_defined`: two empty tables. -/
theorem table_compare_not_defined_witness :
    Tables.eval_infix tableCallbacks ⟨⟨1, 2⟩, Token.EQ, Expr.other ⟨1, 4⟩ "t"⟩
        (Obj.table []) (Env.root 0) =
      ⟨Obj.error ⟨1, 2⟩ "Infix operation OBJ_TABLE '==' OBJ_TABLE is not defined",
        [Event.evaluated (Expr.other ⟨1, 4⟩ "t") (Env.root 0)]⟩ :=
  (table_compare_not_defined tableCallbacks ⟨1, 2⟩ (Expr.other ⟨1, 4⟩ "t") [] []
    (Env.root 0) rfl).1

/-- C19: the prefix operator `*` on a table answers the Int that is the
number of its entries (a number below `2^63`, as every size of a map
is). -/
theorem table_star_is_size (p : Position) (es : List (Obj × Obj)) (h : es.length < 2 ^ 63) :
    Tables.eval_prefix ⟨p, Token.ASTERISK⟩ es = Obj.integer (es.length : Int) := by
  simp [ Tables.eval_prefix, toInt64_small es.length h]

/-- A use of `table_star_is_size`: a table with two entries. -/
theorem table_star_is_size_witness :
    Tables.eval_prefix ⟨⟨1, 1⟩, Token.ASTERISK⟩
        [(Obj.string "x", Obj.integer 1), (Obj.string "y", Obj.integer 2)] =
      Obj.integer 2 :=
  table_star_is_size ⟨1, 1⟩ _ (by decide)

/-- C20, at a failing input: the prefix operator `-` on a table answers, at
the position of the prefix node, the Error
`Prefix operator '-' is not defined for string`: the message names the
string type, not the type of the operand. -/
theorem table_prefix_error_names_string :
    Tables.eval_prefix ⟨⟨3, 7⟩, Token.MINUS⟩ [(Obj.string "x", Obj.integer 1)] =
        Obj.error ⟨3, 7⟩ "Prefix operator '-' is not defined for string" ∧
      (Obj.table [(Obj.string "x", Obj.integer 1)]).get_type = ObjType.TABLE ∧
      name_get ObjType.TABLE = "OBJ_TABLE" := by
  refine ⟨?_, rfl, rfl⟩
  simp [ Tables.eval_prefix, makeError, String.join, Token.name]

end Eval


/-! ## Claims on the Errors of the table and module operators -/

namespace Eval

/-- C21: with a table on the left, let the right operand evaluate to a
value `r` that is not an Error.  Unless the operator is the pipe and `r` is
a builtin or a function, the answer is the Error at the position of the
operator whose message is `Infix operation `, the type name of the left
operand (`OBJ_TABLE`), ` '`, the name of the operator, `' `, the type name
of `r` and ` is not defined`; the right operand was evaluated once and no
pipe call was made. -/
theorem table_infix_undefined_is_error (C : Callbacks) (p : Position) (tok : Token)
    (right : Expr) (l : List (Obj × Obj)) (env : Env)
    (hne : (C.ev right env).get_type ≠ ObjType.ERROR)
    (hund : ¬ (tok = Token.BIT_OR ∧ ((C.ev right env).get_type = ObjType.BUILTIN ∨
      (C.ev right env).get_type = ObjType.FUNCTION))) :
    Tables.eval_infix C ⟨p, tok, right⟩ (Obj.table l) env =
      ⟨Obj.error p ("Infix operation " ++ name_get (Obj.table l).get_type ++ " '" ++ tok.name ++
          "' " ++ name_get (C.ev right env).get_type ++ " is not defined"),
        [Event.evaluated right env]⟩ ∧
      name_get (Obj.table l).get_type = "OBJ_TABLE" := by
  refine ⟨?_, rfl⟩
  have hmsg : Tables.notDefined ⟨p, tok, right⟩ (Obj.table l) (C.ev right env) =
      Obj.error p ("Infix operation " ++ name_get (Obj.table l).get_type ++ " '" ++ tok.name ++
          "' " ++ name_get (C.ev right env).get_type ++ " is not defined") := by
    simp [ Tables.notDefined, makeError, String.join, String.append_assoc]
  rw [← hmsg]
  unfold Tables.eval_infix
  simp only [if_neg hne]
  split
  · rfl
  · rename_i hb
    by_cases ht : tok = Token.BIT_OR
    · exact absurd ⟨ht, Or.inl hb⟩ hund
    · simp [ht]
  · rename_i hf
    by_cases ht : tok = Token.BIT_OR
    · exact absurd ⟨ht, Or.inr hf⟩ hund
    · simp [ht]
  · rfl

/-- A use of `table_infix_undefined_is_error`: `-` between a table and an
Int. -/
theorem table_infix_undefined_is_error_witness :
    Tables.eval_infix ⟨fun _ _ => Obj.integer 7, fun _ _ _ _ => Obj.null,
          fun _ _ _ _ => Obj.null⟩
        ⟨⟨2, 5⟩, Token.MINUS, Expr.other ⟨2, 7⟩ "7"⟩
        (Obj.table [(Obj.string "x", Obj.integer 1)]) (Env.root 0) =
      ⟨Obj.error ⟨2, 5⟩ "Infix operation OBJ_TABLE '-' OBJ_INTEGER is not defined",
        [Event.evaluated (Expr.other ⟨2, 7⟩ "7") (Env.root 0)]⟩ :=
  (table_infix_undefined_is_error
    ⟨fun _ _ => Obj.integer 7, fun _ _ _ _ => Obj.null, fun _ _ _ _ => Obj.null⟩
    ⟨2, 5⟩ Token.MINUS (Expr.other ⟨2, 7⟩ "7") [(Obj.string "x", Obj.integer 1)] (Env.root 0)
    (by decide) (by decide)).1

/-- C22: with a table on the left and any operator, a right operand that
evaluates to an Error is the answer as it is, position and message; the
right operand was evaluated once, in the environment of the caller, and no
pipe call was made. -/
theorem table_infix_error_passes (C : Callbacks) (p : Position) (tok : Token) (right : Expr)
    (l : List (Obj × Obj)) (env : Env) (rp : Position) (msg : String)
    (hr : C.ev right env = Obj.error rp msg) :
    Tables.eval_infix C ⟨p, tok, right⟩ (Obj.table l) env =
        ⟨Obj.error rp msg, [Event.evaluated right env]⟩ ∧
      (∀ a b, Event.piped a b ∉
        ( Tables.eval_infix C ⟨p, tok, right⟩ (Obj.table l) env).trace) := by
  have h : Tables.eval_infix C ⟨p, tok, right⟩ (Obj.table l) env =
      ⟨Obj.error rp msg, [Event.evaluated right env]⟩ := by
    simp [ Tables.eval_infix, hr, Obj.get_type]
  refine ⟨h, ?_⟩
  intro a b hm
  rw [h] at hm
  simp at hm

/-- A use of `table_infix_error_passes`: the pipe operator with a right
operand that evaluates to an Error. -/
theorem table_infix_error_passes_witness :
    Tables.eval_infix ⟨fun _ _ => Obj.error ⟨4, 1⟩ "Identifier not found 'f'",
          fun _ _ _ _ => Obj.null, fun _ _ _ _ => Obj.null⟩
        ⟨⟨2, 5⟩, Token.BIT_OR, Expr.ident ⟨2, 7⟩ "f"⟩ (Obj.table []) (Env.root 0) =
      ⟨Obj.error ⟨4, 1⟩ "Identifier not found 'f'",
        [Event.evaluated (Expr.ident ⟨2, 7⟩ "f") (Env.root 0)]⟩ :=
  (table_infix_error_passes
    ⟨fun _ _ => Obj.error ⟨4, 1⟩ "Identifier not found 'f'", fun _ _ _ _ => Obj.null,
      fun _ _ _ _ => Obj.null⟩
    ⟨2, 5⟩ Token.BIT_OR (Expr.ident ⟨2, 7⟩ "f") [] (Env.root 0) ⟨4, 1⟩ _ rfl).1

end Eval


namespace Eval

/-- C27, refuted as stated: `+` with a module on the left answers, at the
position of the operator, the Error
`Infix operation +'  is not defined for modules`.  That message is not of
the form `Infix operation LTYPE '+' RTYPE is not defined`, whatever the two
type names: it ends in `for modules`. -/
theorem module_infix_error_has_own_format :
    ( Module.eval_infix tableCallbacks ⟨⟨1, 2⟩, Token.PLUS, Expr.other ⟨1, 4⟩ "x"⟩
        ⟨Env.root 0, fun _ => none⟩ (Env.root 0)).value =
        Obj.error ⟨1, 2⟩ "Infix operation +'  is not defined for modules" ∧
      ∀ ltype rtype : String,
        "Infix operation +'  is not defined for modules" ≠
          "Infix operation " ++ ltype ++ " '+' " ++ rtype ++ " is not defined" := by
  constructor
  · simp [ Module.eval_infix, makeError, String.join, Token.name]
  · intro ltype rtype h
    have h2 := congrArg (fun s : String => s.data.getLast?) h
    simp [String.data_append, List.getLast?_append, List.getLast?] at h2

/-- C27, amended: with a module on the left and an operator other than
`.`, the answer is an Error at the position of the operator whose message
is `Infix operation `, the name of the operator and
` is not defined for modules`, with nothing but quote marks and blanks
before and after the name; the evaluator is not called, and the answer is
the same for every module and every right operand: no type of an operand is
part of the message. -/
theorem module_infix_not_defined (C : Callbacks) (p : Position) (tok : Token) (right : Expr)
    (mod : Module) (env : Env) (h : tok ≠ Token.DOT) :
    (∃ before after : String,
      (∀ c ∈ before.data, c = Char.ofNat 39 ∨ c = Char.ofNat 32) ∧
      (∀ c ∈ after.data, c = Char.ofNat 39 ∨ c = Char.ofNat 32) ∧
      Module.eval_infix C ⟨p, tok, right⟩ mod env =
        ⟨Obj.error p ("Infix operation " ++ before ++ tok.name ++ after ++
          " is not defined for modules"), []⟩) ∧
    ∀ (C2 : Callbacks) (right2 : Expr) (mod2 : Module) (env2 : Env),
      Module.eval_infix C2 ⟨p, tok, right2⟩ mod2 env2 =
        Module.eval_infix C ⟨p, tok, right⟩ mod env := by
  constructor
  · refine ⟨"", "' ", ?_, ?_, ?_⟩
    · intro c hc
      simp at hc
    · intro c hc
      simp at hc
      rcases hc with rfl | rfl
      · left; rfl
      · right; rfl
    · simp [ Module.eval_infix, h, makeError, String.join, String.append_assoc]
  · intro C2 right2 mod2 env2
    simp [ Module.eval_infix, h]

/-- A use of `module_infix_not_defined`: the operator `==`. -/
theorem module_infix_not_defined_witness :
    (∃ before after : String,
      (∀ c ∈ before.data, c = Char.ofNat 39 ∨ c = Char.ofNat 32) ∧
      (∀ c ∈ after.data, c = Char.ofNat 39 ∨ c = Char.ofNat 32) ∧
      Module.eval_infix tableCallbacks ⟨⟨1, 2⟩, Token.EQ, Expr.other ⟨1, 4⟩ "x"⟩
          ⟨Env.root 0, fun _ => none⟩ (Env.root 0) =
        ⟨Obj.error ⟨1, 2⟩ ("Infix operation " ++ before ++ Token.EQ.name ++ after ++
          " is not defined for modules"), []⟩) ∧
    ∀ (C2 : Callbacks) (right2 : Expr) (mod2 : Module) (env2 : Env),
      Module.eval_infix C2 ⟨⟨1, 2⟩, Token.EQ, right2⟩ mod2 env2 =
        Module.eval_infix tableCallbacks ⟨⟨1, 2⟩, Token.EQ, Expr.other ⟨1, 4⟩ "x"⟩
          ⟨Env.root 0, fun _ => none⟩ (Env.root 0) :=
  module_infix_not_defined tableCallbacks ⟨1, 2⟩ Token.EQ (Expr.other ⟨1, 4⟩ "x")
    ⟨Env.root 0, fun _ => none⟩ (Env.root 0) (by decide)

end Eval


/-! ## Claims on the merge helper of tables -/

namespace Eval

/-- C25, refuted as stated: on the heap that holds the tables `{1: 2}` (at
address 6) and `{1: 3}` (at 10), `eval_table` answers a new table, at 11,
in which the key `1` has the cell of the left table (address 5), which
holds `2`; the right table binds `1` to the cell at 9, which holds `3`. -/
theorem eval_table_keeps_left_value :
    ∃ h2, Tables.eval_table gnuHash 3 Mem.mergeHeap 6 10 = some (h2, 11) ∧
      Mem.table_at gnuHash 2 h2 11 7 = some 5 ∧
      Mem.read 2 h2 5 = some (Obj.reference (Obj.integer 2)) ∧
      Mem.table_at gnuHash 2 Mem.mergeHeap 10 7 = some 9 ∧
      Mem.read 2 Mem.mergeHeap 9 = some (Obj.reference (Obj.integer 3)) :=
  ⟨_, rfl, rfl, rfl, rfl, rfl⟩

/-- C25, amended: on a heap that holds the static instances, let the left
table have the entries `ls` and the right table the entries `rs`.
`eval_table` returns when the left table and every key read as trees, and
whenever it returns it answers a new table object; every object of the heap
it started from, with the two tables and their cells, is as it was.  The
entries of the new table are all the entries of the left table, key and
cell, after entries added from the right table: an added entry has a key
that matches no key of the left table, and every entry of the right table
was added or has a key that matches a key of the new table.  So on a key of
both tables the binding of the left table stays. -/
theorem eval_table_left_wins (H : StdHash) (n : Nat) (h : Mem.Heap) (lft rght : Nat)
    (ls rs : List (Nat × Nat)) (hs : Mem.hasStatics h = true)
    (hl : h[lft]? = some (Mem.Object.table ls)) (hr : h[rght]? = some (Mem.Object.table rs)) :
    ((∃ t, Mem.read n h lft = some t) → (∀ e ∈ ls ++ rs, ∃ k, Mem.read n h e.1 = some k) →
      ∃ r, Tables.eval_table H n h lft rght = some r) ∧
    ∀ h2 res, Tables.eval_table H n h lft rght = some (h2, res) →
      res = h.length ∧ Mem.Agree h h2 ∧
      h2[lft]? = some (Mem.Object.table ls) ∧ h2[rght]? = some (Mem.Object.table rs) ∧
      ∃ added, h2[res]? = some (Mem.Object.table (added ++ ls)) ∧
        (∀ e ∈ added, e ∈ rs) ∧
        (∀ e ∈ added, ∀ l ∈ ls, ∀ k lk, Mem.read n h e.1 = some k →
          Mem.read n h l.1 = some lk → keyMatch H k lk = false) ∧
        (∀ e ∈ rs, e ∈ added ∨ ∃ hit ∈ added ++ ls, ∀ k so, Mem.read n h e.1 = some k →
          Mem.read n h hit.1 = some so → keyMatch H k so = true) := by
  constructor
  · rintro ⟨t, ht⟩ hkeys
    obtain ⟨⟨h1, res⟩, hc⟩ := Mem.clone_total n h lft t hs ht
    obtain ⟨_, htab⟩ := Mem.clone_table_shape n h lft ls h1 res hs hl hc
    have a1 : Mem.Agree h h1 := Mem.agree_of_pre (Mem.clone_inv n h lft h1 res hs hc).pre
    have hrd : ∀ e ∈ ls ++ rs, ∃ so, Mem.read n h1 e.1 = some so := fun e he => by
      obtain ⟨k, hk⟩ := hkeys e he
      exact ⟨k, Mem.read_agree a1 n e.1 k hk⟩
    obtain ⟨es1, hi⟩ := Mem.insertAll_total H (Mem.read n h1) rs ls
      (fun e he => hrd e (List.mem_append_left _ he))
      (fun e he => hrd e (List.mem_append_right _ he))
    exact ⟨(h1.set res (Mem.Object.table es1), res),
      by simp [Tables.eval_table, hl, hr, hc, htab, hi]⟩
  · intro h2 res he
    unfold Tables.eval_table at he
    simp only [hl, hr] at he
    cases hc : Mem.clone n h lft with
    | none => simp [hc] at he
    | some r =>
      obtain ⟨h1, c⟩ := r
      simp only [hc] at he
      obtain ⟨hres, htab⟩ := Mem.clone_table_shape n h lft ls h1 c hs hl hc
      simp only [htab] at he
      cases hi : Mem.insertAll H (Mem.read n h1) ls rs with
      | none => simp [hi] at he
      | some es1 =>
        simp only [hi, Option.some.injEq, Prod.mk.injEq] at he
        obtain ⟨rfl, rfl⟩ := he
        have a1 : Mem.Agree h h1 := Mem.agree_of_pre (Mem.clone_inv n h lft h1 c hs hc).pre
        have a2 : Mem.Agree h (h1.set c (Mem.Object.table es1)) :=
          Mem.agree_set _ a1 (by omega)
        obtain ⟨added, hes, ha, hb, hcc⟩ := Mem.insertAll_spec H (Mem.read n h1) rs ls es1 hi
        have hlt : c < h1.length := (List.getElem?_eq_some.mp htab).1
        refine ⟨hres, a2, a2 lft _ hl, a2 rght _ hr, added, ?_, ha, ?_, ?_⟩
        · rw [← hes]
          exact List.getElem?_set_self hlt
        · intro e hea l hll k lk hk hlk
          exact hb e hea k (Mem.read_agree a1 n _ _ hk) l hll lk (Mem.read_agree a1 n _ _ hlk)
        · intro e her
          rcases hcc e her with h3 | ⟨hit, hmem, k1, so1, hk1, hso1, hmatch⟩
          · exact Or.inl h3
          · refine Or.inr ⟨hit, by rw [← hes]; exact hmem, ?_⟩
            intro k so hk hso
            have e1 := Mem.read_agree a1 n _ _ hk
            have e2 := Mem.read_agree a1 n _ _ hso
            rw [hk1] at e1
            rw [hso1] at e2
            cases e1
            cases e2
            exact hmatch

/-- A use of `eval_table_left_wins`: on the tables `{1: 2}` and `{1: 3}` of
`mergeHeap`, `eval_table` returns, and what it returns is a table at the
new address 11 that leaves the left table as it was. -/
theorem eval_table_left_wins_witness :
    (∃ r, Tables.eval_table gnuHash 3 Mem.mergeHeap 6 10 = some r) ∧
      ∀ h2 res, Tables.eval_table gnuHash 3 Mem.mergeHeap 6 10 = some (h2, res) →
        res = 11 ∧ h2[6]? = some (Mem.Object.table [(3, 5)]) :=
  have h := eval_table_left_wins gnuHash 3 Mem.mergeHeap 6 10 [(3, 5)] [(7, 9)] rfl rfl rfl
  ⟨h.1 ⟨_, rfl⟩ (by
      intro e he
      simp only [List.cons_append, List.nil_append, List.mem_cons, List.mem_singleton,
        List.not_mem_nil, or_false] at he
      rcases he with rfl | rfl
      · exact ⟨_, rfl⟩
      · exact ⟨_, rfl⟩),
    fun h2 res he => ⟨(h.2 h2 res he).1, (h.2 h2 res he).2.2.1⟩⟩

end Eval


/-! ## Theorems on part 5 -/

namespace Closure

theorem update_self {envs : List Environment} {a : Nat} {e : Environment}
    (f : Environment → Environment) (h : envs[a]? = some e) :
    (update envs a f)[a]? = some (f e) := by
  simp only [update, h]
  exact List.getElem?_set_self (List.getElem?_eq_some.mp h).1

theorem update_ne (envs : List Environment) {a b : Nat} (f : Environment → Environment)
    (h : a ≠ b) : (update envs a f)[b]? = envs[b]? := by
  unfold update
  split
  · exact List.getElem?_set_ne h
  · rfl

end Closure


/-! ## Claims on closure-like values and their environments -/

namespace Closure

/-- Name lookup from an environment of an ordered store reads only
environments made before it. -/
theorem get_frame {envs envs2 : List Environment} (hord : Ordered envs)
    (hsame : ∀ a, a < envs.length → envs2[a]? = envs[a]?) (name : String) :
    ∀ (k a : Nat), a < envs.length → get envs2 k a name = get envs k a name
  | 0, _, _ => rfl
  | k + 1, a, ha => by
    rw [get, get, hsame a ha]
    cases he : envs[a]? with
    | none => rfl
    | some e =>
      simp only
      cases hp : e.parent with
      | none => rfl
      | some p =>
        have hlt := hord a e p he hp
        have ih := get_frame hord hsame name k p (by omega)
        simp only [ih]

/-- C26: let a function capture an environment `e` that is still there, in
a store where parents were made before their children.  Its clone has the
same parameters and the same body, and its environment is a new one, at the
next free address, which is not `e`: a child of `e` without bindings, with
the clone for only holder; every environment of the store is as it was.  A
binding set in the environment of the clone resolves there, and lookup from
`e` answers what it answered before, for every name.  Read as a tree, the
clone is the function over `child` of the environment of the original. -/
theorem function_clone_has_new_child (w : World) (e : Nat) (ps : List String) (b : Nat)
    (x : Environment) (t : Env) (hord : Ordered w.envs) (he : w.envs[e]? = some x)
    (hx : x.expired = false) :
    (clone w ⟨e, Payload.function ps b⟩).2 = ⟨w.envs.length, Payload.function ps b⟩ ∧
      w.envs.length ≠ e ∧
      (clone w ⟨e, Payload.function ps b⟩).1.envs = w.envs ++ [⟨some e, [], 1, false⟩] ∧
      (∀ (name : String) (value : Obj) (k : Nat),
        get (set (clone w ⟨e, Payload.function ps b⟩).1 w.envs.length name value).envs
          (k + 1) w.envs.length name = some value) ∧
      (∀ (name : String) (value : Obj) (k : Nat) (y : String),
        get (set (clone w ⟨e, Payload.function ps b⟩).1 w.envs.length name value).envs k e y =
          get w.envs k e y) ∧
      (Obj.function t ps b).clone = Obj.function (Env.child t) ps b ∧ Env.child t ≠ t := by
  have hlt : e < w.envs.length := (List.getElem?_eq_some.mp he).1
  have henv : env w ⟨e, Payload.function ps b⟩ = some e := by simp [env, he, hx]
  have hnew : (w.envs ++ [(⟨some e, [], 0, false⟩ : Environment)])[w.envs.length]? =
      some ⟨some e, [], 0, false⟩ := List.getElem?_concat_length _ _
  have hc : (clone w ⟨e, Payload.function ps b⟩).1.envs =
      w.envs ++ [⟨some e, [], 1, false⟩] := by
    simp only [clone, make, env_object, henv, update, hnew, Environment.lock]
    rw [List.set_append_right _ _ (Nat.le_refl _)]
    simp
  have hat : (w.envs ++ [(⟨some e, [], 1, false⟩ : Environment)])[w.envs.length]? =
      some ⟨some e, [], 1, false⟩ := List.getElem?_concat_length _ _
  refine ⟨rfl, by omega, hc, ?_, ?_, by simp [Obj.clone], ?_⟩
  · intro name value k
    simp only [set, hc]
    rw [get, update_self _ hat]
    simp [List.lookup]
  · intro name value k y
    apply get_frame hord _ y k e hlt
    intro a ha
    simp only [set, hc]
    rw [update_ne _ _ (by omega), List.getElem?_append_left ha]
  · intro h
    have hsz := congrArg sizeOf h
    simp at hsz

/-- A use of `function_clone_has_new_child`: a function over the root
environment, in which `y` is bound to `1`, is cloned, and `y` is bound to
`3` in the environment of the clone; lookup of `y` from the root still
answers `1`. -/
theorem function_clone_has_new_child_witness :
    get (set (clone ⟨[⟨none, [("y", Obj.integer 1)], 1, false⟩], [⟨0, Payload.function ["x"] 7⟩], []⟩
        ⟨0, Payload.function ["x"] 7⟩).1 1 "y" (Obj.integer 3)).envs 2 0 "y" =
      get [⟨none, [("y", Obj.integer 1)], 1, false⟩] 2 0 "y" ∧
    get [⟨none, [("y", Obj.integer 1)], 1, false⟩] 2 0 "y" = some (Obj.integer 1) ∧
    get (set (clone ⟨[⟨none, [("y", Obj.integer 1)], 1, false⟩], [⟨0, Payload.function ["x"] 7⟩], []⟩
        ⟨0, Payload.function ["x"] 7⟩).1 1 "y" (Obj.integer 3)).envs 2 1 "y" =
      some (Obj.integer 3) :=
  have h := function_clone_has_new_child
    ⟨[⟨none, [("y", Obj.integer 1)], 1, false⟩], [⟨0, Payload.function ["x"] 7⟩], []⟩
    0 ["x"] 7 ⟨none, [("y", Obj.integer 1)], 1, false⟩ (Env.root 0)
    (by
      intro a env p ha hp
      cases a with
      | zero =>
        simp only [List.getElem?_cons_zero, Option.some.injEq] at ha
        subst ha
        simp at hp
      | succ a => simp at ha)
    rfl rfl
  ⟨h.2.2.2.2.1 "y" (Obj.integer 3) 2 "y", rfl, h.2.2.2.1 "y" (Obj.integer 3) 1⟩

end Closure

end Mico
